import Mathlib

/-!
# CodeStubAssembler: variables, labels and Smi tagging

A shallow embedding of `src/v8/src/compiler/code-stub-assembler.cc`.

Conventions of the embedding.

* A `Node*` is a `NodePtr`: `null`, a node built by some other builder call, or
  the `index`-th phi node made by `RawMachineAssembler::Phi`.
* A `Variable::Impl*` is the position of the `Impl` in the registry
  `CodeStubAssembler::variables_` (the constructor pushes every `Impl` there and
  nothing is ever removed), so the two `std::map`s of a `Label` are keyed by
  `Nat`.  A `std::map` is a key-ordered association list.
* `DCHECK`s are live (a debug build): a failed `DCHECK` ends the call with an
  `Error`.  The names of the errors are those of section 7 of the specification.
* Machine words are natural numbers below `2 ^ wordBits`, read as two's
  complement where a sign matters.
-/

/-- Failure of a `DCHECK` or of `UNIMPLEMENTED()`.  `CheckFailed` stands for the
internal null checks that the error taxonomy of the specification does not name. -/
inductive Error where
  | UnboundVariable
  | InconsistentMerge
  | DoubleBind
  | NotImplemented
  | CheckFailed
  deriving DecidableEq, Repr

deriving instance DecidableEq for Except

/-- Modelled from the spec: `MachineRepresentation` (declared in `src/machine-type.h`),
the representation tag of a slot, kept as the value of the enumerator. -/
abbrev MachineRepresentation := Nat

/-- A `Node*`. -/
inductive NodePtr where
  | null
  | node (id : Nat)
  | phi (index : Nat)
  deriving DecidableEq, Repr

/-- Modelled from the spec: a merge node of the underlying graph, with its
representation and its ordered inputs. -/
structure PhiNode where
  rep : MachineRepresentation
  inputs : List NodePtr
  deriving DecidableEq, Repr

/-- Modelled from the spec: the part of `RawMachineAssembler` the join-point
bookkeeping talks to, namely the phi nodes of the graph in creation order. -/
structure RawMachineAssembler where
  phis : List PhiNode
  deriving DecidableEq, Repr

namespace RawMachineAssembler

/-- Modelled from the spec: `RawMachineAssembler::Phi(rep, input_count, inputs)`
makes one new merge node from the first `input_count` entries of `inputs`. -/
def Phi (ra : RawMachineAssembler) (rep : MachineRepresentation) (input_count : Nat)
    (inputs : List NodePtr) : NodePtr × RawMachineAssembler :=
  (NodePtr.phi ra.phis.length, { phis := ra.phis ++ [{ rep := rep, inputs := inputs.take input_count }] })

/-- Modelled from the spec: `RawMachineAssembler::AppendPhiInput(phi, new_input)`
extends an existing merge node by one input, put last. -/
def AppendPhiInput (ra : RawMachineAssembler) (phi : NodePtr) (new_input : NodePtr) :
    Except Error RawMachineAssembler :=
  match phi with
  | NodePtr.phi k =>
    match ra.phis.get? k with
    | some p => Except.ok { phis := ra.phis.set k { p with inputs := p.inputs ++ [new_input] } }
    | none => Except.error Error.CheckFailed
  | _ => Except.error Error.CheckFailed

/-- The inputs of a phi node of the graph. -/
def phiInputs (ra : RawMachineAssembler) (phi : NodePtr) : Option (List NodePtr) :=
  match phi with
  | NodePtr.phi k => (ra.phis.get? k).map PhiNode.inputs
  | _ => none

end RawMachineAssembler

/-- Lookup `std::map::find`; `none` is `end()`. -/
def mapFind {β : Type} : List (Nat × β) → Nat → Option β
  | [], _ => none
  | (k', b) :: rest, k => if k' = k then some b else mapFind rest k

/-- Assignment `m[k] = b` on a `std::map`, whose entries stay in key order. -/
def mapAssign {β : Type} : List (Nat × β) → Nat → β → List (Nat × β)
  | [], k, b => [(k, b)]
  | (k', b') :: rest, k, b =>
    if k < k' then (k, b) :: (k', b') :: rest
    else if k = k' then (k, b) :: rest
    else (k', b') :: mapAssign rest k b

namespace CodeStubAssembler

/-- The class `CodeStubAssembler::Variable::Impl`. -/
structure Variable.Impl where
  value_ : NodePtr
  rep_ : MachineRepresentation
  deriving DecidableEq, Repr

/-- Constructor `Variable::Variable`: a new `Impl` with no value, pushed on
`variables_`; the result is the new `impl_` pointer and the registry. -/
def Variable.new (variables_ : List Variable.Impl) (rep : MachineRepresentation) :
    Nat × List Variable.Impl :=
  (variables_.length, variables_ ++ [{ value_ := NodePtr.null, rep_ := rep }])

/-- Method `Variable::Bind`. -/
def Variable.Bind (impl_ : Variable.Impl) (value : NodePtr) : Variable.Impl :=
  { impl_ with value_ := value }

/-- Method `Variable::value`. -/
def Variable.value (impl_ : Variable.Impl) : Except Error NodePtr :=
  if impl_.value_ = NodePtr.null then Except.error Error.UnboundVariable
  else Except.ok impl_.value_

/-- Method `Variable::rep`. -/
def Variable.rep (impl_ : Variable.Impl) : MachineRepresentation :=
  impl_.rep_

/-- Method `Variable::IsBound`. -/
def Variable.IsBound (impl_ : Variable.Impl) : Bool :=
  decide (impl_.value_ ≠ NodePtr.null)

/-- The value a variable holds in a registry; `null` for a variable that is not
in the registry yet. -/
def valueAt (variables_ : List Variable.Impl) (var : Nat) : NodePtr :=
  match variables_.get? var with
  | some impl => impl.value_
  | none => NodePtr.null

/-- The representation `var->rep_`. -/
def repAt (variables_ : List Variable.Impl) (var : Nat) : MachineRepresentation :=
  match variables_.get? var with
  | some impl => impl.rep_
  | none => 0

/-- The enumeration `CodeStubAssembler::Label::Type`. -/
inductive LabelType where
  | kDeferred
  | kNonDeferred
  deriving DecidableEq, Repr

/-- Modelled from the spec: the `RawMachineLabel` behind a `Label`, of which only
the placement hint is kept. -/
structure RawMachineLabel where
  deferred_ : Bool
  deriving DecidableEq, Repr

/-- The class `CodeStubAssembler::Label`. -/
structure Label where
  bound_ : Bool
  merge_count_ : Nat
  label_ : RawMachineLabel
  variable_phis_ : List (Nat × NodePtr)
  variable_merges_ : List (Nat × List NodePtr)
  deriving DecidableEq, Repr

namespace Label

/-- Constructor `Label::Label(assembler, merged_value_count, merged_variables, type)`. -/
def new (merged_variables : List Nat) (type : LabelType) : Label :=
  { bound_ := false
    merge_count_ := 0
    label_ := { deferred_ := decide (type = LabelType.kDeferred) }
    variable_phis_ := merged_variables.foldl (fun m v => mapAssign m v NodePtr.null) []
    variable_merges_ := [] }

/-- Lines 882-891 of `MergeVariables`: the value of the variable on the new edge is
recorded; the result is the new `variable_merges_` and `count`. -/
def recordEdge (merges : List (Nat × List NodePtr)) (var : Nat) (node : NodePtr) :
    List (Nat × List NodePtr) × Nat :=
  if node ≠ NodePtr.null then
    match mapFind merges var with
    | some vec => (mapAssign merges var (vec ++ [node]), vec.length + 1)
    | none => (mapAssign merges var [node], 1)
  else (merges, 0)

/-- The body of the loop of `MergeVariables` for the variable `var`, run after
`merge_count_` has been incremented. -/
def mergeVariable (l : Label) (ra : RawMachineAssembler) (var : Nat) (impl : Variable.Impl) :
    Except Error (Label × RawMachineAssembler) :=
  let node := impl.value_
  let recorded := recordEdge l.variable_merges_ var node
  let l1 : Label := { l with variable_merges_ := recorded.1 }
  let count := recorded.2
  if ¬ ((mapFind l1.variable_phis_ var).isNone ∨ count = l1.merge_count_) then
    Except.error Error.InconsistentMerge
  else if l1.bound_ then
    match mapFind l1.variable_phis_ var with
    | some phi =>
      if phi = NodePtr.null then Except.error Error.CheckFailed
      else
        match ra.AppendPhiInput phi node with
        | Except.error e => Except.error e
        | Except.ok ra1 => Except.ok (l1, ra1)
    | none =>
      match mapFind l1.variable_merges_ var with
      | some vec =>
        if vec.all (fun e => decide (node = e)) then Except.ok (l1, ra)
        else Except.error Error.InconsistentMerge
      | none => Except.ok (l1, ra)
  else Except.ok (l1, ra)

/-- The loop `for (auto var : assembler_->variables_)` of `MergeVariables`; `var` is
the position of the head of the remaining registry. -/
def mergeLoop : Nat → List Variable.Impl → Label → RawMachineAssembler →
    Except Error (Label × RawMachineAssembler)
  | _, [], l, ra => Except.ok (l, ra)
  | var, impl :: rest, l, ra =>
    match mergeVariable l ra var impl with
    | Except.error e => Except.error e
    | Except.ok (l1, ra1) => mergeLoop (var + 1) rest l1 ra1

/-- Method `Label::MergeVariables`, the merge-edge operation. -/
def MergeVariables (variables_ : List Variable.Impl) (l : Label) (ra : RawMachineAssembler) :
    Except Error (Label × RawMachineAssembler) :=
  mergeLoop 0 variables_ { l with merge_count_ := l.merge_count_ + 1 } ra

/-- The inner loop of the first pass of `Bind` over the recorded values of `var`. -/
def markValues (var : Nat) : List NodePtr → NodePtr → List (Nat × NodePtr) →
    Except Error (List (Nat × NodePtr))
  | [], _, phis => Except.ok phis
  | value :: rest, shared_value, phis =>
    if value = NodePtr.null then Except.error Error.CheckFailed
    else if value ≠ shared_value then
      if shared_value = NodePtr.null then markValues var rest value phis
      else markValues var rest shared_value (mapAssign phis var NodePtr.null)
    else markValues var rest shared_value phis

/-- The first pass of `Bind`: every registered variable that saw two different
values is entered in `variable_phis_`. -/
def markLoop (merges : List (Nat × List NodePtr)) : Nat → List Variable.Impl →
    List (Nat × NodePtr) → Except Error (List (Nat × NodePtr))
  | _, [], phis => Except.ok phis
  | var, _ :: rest, phis =>
    match mapFind merges var with
    | some vec =>
      match markValues var vec NodePtr.null phis with
      | Except.error e => Except.error e
      | Except.ok phis1 => markLoop merges (var + 1) rest phis1
    | none => markLoop merges (var + 1) rest phis

/-- The second pass of `Bind`, `for (auto var : variable_phis_)`: one phi per entry,
stored back under the same key, in key order. -/
def createPhis (variables_ : List Variable.Impl) (merges : List (Nat × List NodePtr))
    (merge_count_ : Nat) : List (Nat × NodePtr) → RawMachineAssembler →
    Except Error (List (Nat × NodePtr) × RawMachineAssembler)
  | [], ra => Except.ok ([], ra)
  | (var_impl, _) :: rest, ra =>
    match mapFind merges var_impl with
    | some vec =>
      if vec.length = merge_count_ then
        match createPhis variables_ merges merge_count_ rest
            (ra.Phi (repAt variables_ var_impl) merge_count_ vec).2 with
        | Except.error e => Except.error e
        | Except.ok (rest1, ra2) =>
          Except.ok ((var_impl, (ra.Phi (repAt variables_ var_impl) merge_count_ vec).1) :: rest1, ra2)
      else Except.error Error.InconsistentMerge
    | none => Except.error Error.InconsistentMerge

/-- The body of the third pass of `Bind`: the new value of the variable `var`. -/
def boundValue (l : Label) (var : Nat) : NodePtr :=
  match mapFind l.variable_phis_ var with
  | some phi => phi
  | none =>
    match mapFind l.variable_merges_ var with
    | some vec => if vec.length = l.merge_count_ then vec.getLastD NodePtr.null else NodePtr.null
    | none => NodePtr.null

/-- The third pass of `Bind` over the registry. -/
def rebindLoop (l : Label) : Nat → List Variable.Impl → List Variable.Impl
  | _, [] => []
  | var, impl :: rest => { impl with value_ := boundValue l var } :: rebindLoop l (var + 1) rest

/-- Method `Label::Bind`; the result is the registry, the label and the graph. -/
def Bind (variables_ : List Variable.Impl) (l : Label) (ra : RawMachineAssembler) :
    Except Error (List Variable.Impl × Label × RawMachineAssembler) :=
  if l.bound_ then Except.error Error.DoubleBind
  else
    match markLoop l.variable_merges_ 0 variables_ l.variable_phis_ with
    | Except.error e => Except.error e
    | Except.ok phis1 =>
      match createPhis variables_ l.variable_merges_ l.merge_count_ phis1 ra with
      | Except.error e => Except.error e
      | Except.ok (phis2, ra1) =>
        let l1 : Label := { l with variable_phis_ := phis2 }
        Except.ok (rebindLoop l1 0 variables_, { l1 with bound_ := true }, ra1)

/-- A sequence of merge-edge calls into one label; each call sees the registry as
it is when the jump is emitted. -/
def mergeEdges : List (List Variable.Impl) → Label → RawMachineAssembler →
    Except Error (Label × RawMachineAssembler)
  | [], l, ra => Except.ok (l, ra)
  | variables_ :: rest, l, ra =>
    match MergeVariables variables_ l ra with
    | Except.error e => Except.error e
    | Except.ok (l1, ra1) => mergeEdges rest l1 ra1

/-- The merge-edge calls of `edges` into `l`, then `Bind` with the registry `atBind`. -/
def mergeThenBind (edges : List (List Variable.Impl)) (atBind : List Variable.Impl) (l : Label)
    (ra : RawMachineAssembler) : Except Error (List Variable.Impl × Label × RawMachineAssembler) :=
  match mergeEdges edges l ra with
  | Except.error e => Except.error e
  | Except.ok (l1, ra1) => Bind atBind l1 ra1

end Label

end CodeStubAssembler

/-- The state of a `CodeStubAssembler` session.  `labels_` holds the `Label` objects
of the session; a `Label*` is a position in it. -/
structure CodeStubAssembler where
  raw_assembler_ : RawMachineAssembler
  code_generated_ : Bool
  variables_ : List CodeStubAssembler.Variable.Impl
  labels_ : List CodeStubAssembler.Label
  deriving DecidableEq, Repr

namespace CodeStubAssembler

/-- The call `label->MergeVariables()` through a `Label*`. -/
def mergeInto (a : CodeStubAssembler) (label : Nat) : Except Error CodeStubAssembler :=
  match a.labels_.get? label with
  | none => Except.error Error.CheckFailed
  | some l =>
    match l.MergeVariables a.variables_ a.raw_assembler_ with
    | Except.error e => Except.error e
    | Except.ok (l1, ra1) =>
      Except.ok { a with labels_ := a.labels_.set label l1, raw_assembler_ := ra1 }

/-- Method `CodeStubAssembler::Bind(Label*)`. -/
def Bind (a : CodeStubAssembler) (label : Nat) : Except Error CodeStubAssembler :=
  match a.labels_.get? label with
  | none => Except.error Error.CheckFailed
  | some l =>
    match l.Bind a.variables_ a.raw_assembler_ with
    | Except.error e => Except.error e
    | Except.ok (variables1, l1, ra1) =>
      Except.ok { a with variables_ := variables1, labels_ := a.labels_.set label l1,
                         raw_assembler_ := ra1 }

/-- Method `CodeStubAssembler::Goto`; the jump itself is emitted by the
`RawMachineAssembler` and leaves the state kept here alone. -/
def Goto (a : CodeStubAssembler) (label : Nat) : Except Error CodeStubAssembler :=
  a.mergeInto label

/-- Method `CodeStubAssembler::Branch`. -/
def Branch (a : CodeStubAssembler) (_condition : NodePtr) (true_label false_label : Nat) :
    Except Error CodeStubAssembler :=
  match a.mergeInto true_label with
  | Except.error e => Except.error e
  | Except.ok a1 => a1.mergeInto false_label

/-- The loop `for (size_t i = 0; i < case_count; ++i)` of `Switch`. -/
def switchLoop (default_label : Nat) : List Nat → CodeStubAssembler → Except Error CodeStubAssembler
  | [], a => Except.ok a
  | case_label :: rest, a =>
    match a.mergeInto case_label with
    | Except.error e => Except.error e
    | Except.ok a1 =>
      match a1.mergeInto default_label with
      | Except.error e => Except.error e
      | Except.ok a2 => switchLoop default_label rest a2

/-- Method `CodeStubAssembler::Switch`. -/
def Switch (a : CodeStubAssembler) (_index : NodePtr) (default_label : Nat)
    (_case_values : List Int) (case_labels : List Nat) (case_count : Nat) :
    Except Error CodeStubAssembler :=
  switchLoop default_label (case_labels.take case_count) a

/-- The merged-edge count of the label behind a `Label*`. -/
def mergeCount (a : CodeStubAssembler) (label : Nat) : Option Nat :=
  (a.labels_.get? label).map Label.merge_count_

/-- Modelled from the spec: the constants of a target that Smi tagging depends on
(`kPointerSizeLog2`, `kSmiTagSize` and `kSmiShiftSize` of `include/v8.h` and
`src/globals.h`). -/
structure Target where
  kPointerSizeLog2 : Nat
  kSmiTagSize : Nat
  kSmiShiftSize : Nat
  deriving DecidableEq, Repr

/-- Modelled from the spec: a 32-bit target, where the Smi shift is 1. -/
def Target.word32 : Target :=
  { kPointerSizeLog2 := 2, kSmiTagSize := 1, kSmiShiftSize := 0 }

/-- Modelled from the spec: a 64-bit target, where the Smi shift is 32. -/
def Target.word64 : Target :=
  { kPointerSizeLog2 := 3, kSmiTagSize := 1, kSmiShiftSize := 31 }

/-- The number of bits of a machine word, `kBitsPerPointer`. -/
def Target.wordBits (t : Target) : Nat :=
  2 ^ t.kPointerSizeLog2 * 8

/-- The two's complement reading of a machine word. -/
def toSigned (t : Target) (word : Nat) : Int :=
  if word < 2 ^ (t.wordBits - 1) then (word : Int) else (word : Int) - 2 ^ t.wordBits

/-- The machine word of an integer, as `IntPtrConstant` builds it. -/
def IntPtrConstant (t : Target) (value : Int) : Nat :=
  (value % 2 ^ t.wordBits).toNat

/-- Modelled from the spec: the word computed by the machine operator `WordShl`,
a left shift that drops the bits leaving the word. -/
def WordShl (t : Target) (value shift : Nat) : Nat :=
  (value * 2 ^ (shift % t.wordBits)) % 2 ^ t.wordBits

/-- Modelled from the spec: the word computed by the machine operator `WordSar`,
the sign-preserving right shift. -/
def WordSar (t : Target) (value shift : Nat) : Nat :=
  IntPtrConstant t (toSigned t value / 2 ^ (shift % t.wordBits))

/-- The word of `CodeStubAssembler::SmiShiftBitsConstant`. -/
def SmiShiftBitsConstant (t : Target) : Nat :=
  IntPtrConstant t ((t.kSmiShiftSize + t.kSmiTagSize : Nat) : Int)

/-- The word computed by the node of `CodeStubAssembler::SmiTag`. -/
def SmiTag (t : Target) (value : Nat) : Nat :=
  WordShl t value (SmiShiftBitsConstant t)

/-- The word computed by the node of `CodeStubAssembler::SmiUntag`. -/
def SmiUntag (t : Target) (value : Nat) : Nat :=
  WordSar t value (SmiShiftBitsConstant t)

/-- The integers a Smi can hold: `wordBits - shift` bits, signed. -/
def InSmiRange (t : Target) (x : Int) : Prop :=
  -(2 ^ (t.wordBits - 1 - (t.kSmiShiftSize + t.kSmiTagSize)) : Int) ≤ x ∧
    x < 2 ^ (t.wordBits - 1 - (t.kSmiShiftSize + t.kSmiTagSize))

end CodeStubAssembler

namespace CodeStubAssembler
/-- The recorded sequence of a variable after more values `more` have been
appended to it; a sequence that received no value has no entry. -/
def extendWith (old : Option (List NodePtr)) (more : List NodePtr) : Option (List NodePtr) :=
  if more = [] then old else some (old.getD [] ++ more)

/-- The non-null values among `values`, in order. -/
def nonNull (values : List NodePtr) : List NodePtr :=
  values.filter (fun n => decide (n ≠ NodePtr.null))

/-- The value of the variable `w` in the part `vs` of a registry that starts at
position `var`. -/
def valueFrom (var : Nat) (vs : List Variable.Impl) (w : Nat) : NodePtr :=
  if var ≤ w then valueAt vs (w - var) else NodePtr.null

/-- The values a variable holds on the edges of `edges`, in edge-arrival order. -/
def edgeValues (edges : List (List Variable.Impl)) (var : Nat) : List NodePtr :=
  edges.map (fun variables_ => valueAt variables_ var)
end CodeStubAssembler

namespace CodeStubAssembler

/-- The assertion of line 894 of `MergeVariables` for the variable `w` holding `node`,
read on the label before the edge is recorded: the variable has no entry in
`variable_phis_`, or it has a value on this edge and on every edge before. -/
def edgeCheck (l : Label) (w : Nat) (node : NodePtr) : Prop :=
  mapFind l.variable_phis_ w = none ∨
    (if node = NodePtr.null then 0 else ((mapFind l.variable_merges_ w).getD []).length + 1)
      = l.merge_count_

instance (l : Label) (w : Nat) (node : NodePtr) : Decidable (edgeCheck l w node) := by
  unfold edgeCheck
  infer_instance

end CodeStubAssembler

namespace CodeStubAssembler

/-- Two different values occur in `values`. -/
def twoValues (values : List NodePtr) : Prop :=
  ∃ a ∈ values, ∃ b ∈ values, a ≠ b

instance (values : List NodePtr) : Decidable (twoValues values) := by
  unfold twoValues
  infer_instance

/-- The entries of a `std::map` are in strictly increasing key order. -/
def keysSorted {β : Type} (m : List (Nat × β)) : Prop :=
  List.Pairwise (fun a b => a.1 < b.1) m

/-- The variable is bound on every edge of `edges`. -/
def boundOnEveryEdge (edges : List (List Variable.Impl)) (var : Nat) : Prop :=
  ∀ e ∈ edges, valueAt e var ≠ NodePtr.null

instance (edges : List (List Variable.Impl)) (var : Nat) : Decidable (boundOnEveryEdge edges var) := by
  unfold boundOnEveryEdge
  infer_instance

/-- The variable requires a merge when a label built with the pre-marked variables
`merged` is bound with the registry `atBind` after the edges `edges`: it was
pre-marked, or it is registered and two of its recorded values differ. -/
def requiresMerge (merged : List Nat) (edges : List (List Variable.Impl))
    (atBind : List Variable.Impl) (var : Nat) : Prop :=
  var ∈ merged ∨ (var < atBind.length ∧ twoValues (nonNull (edgeValues edges var)))

instance (merged : List Nat) (edges : List (List Variable.Impl)) (atBind : List Variable.Impl)
    (var : Nat) : Decidable (requiresMerge merged edges atBind var) := by
  unfold requiresMerge
  infer_instance

end CodeStubAssembler

namespace CodeStubAssembler

/-- The variable gets a phi when the unbound label `l` is bound with the registry
`variables_`: it has an entry in `variable_phis_` already, or it is registered and two
of its recorded values differ. -/
def needsPhi (l : Label) (variables_ : List Variable.Impl) (w : Nat) : Prop :=
  mapFind l.variable_phis_ w ≠ none ∨
    (w < variables_.length ∧ twoValues ((mapFind l.variable_merges_ w).getD []))

instance (l : Label) (variables_ : List Variable.Impl) (w : Nat) :
    Decidable (needsPhi l variables_ w) := by
  unfold needsPhi
  infer_instance

/-- The variable has one recorded value for each edge merged into the label. -/
def recordedOnEveryEdge (l : Label) (w : Nat) : Prop :=
  ∃ vec, mapFind l.variable_merges_ w = some vec ∧ vec.length = l.merge_count_

/-- No recorded sequence of the label holds a null. -/
def noNullRecorded (l : Label) : Prop :=
  ∀ w vec, mapFind l.variable_merges_ w = some vec → NodePtr.null ∉ vec

end CodeStubAssembler

namespace CodeStubAssembler

/-- A registry with one variable, of representation 0, holding `value`. -/
def oneVariable (value : NodePtr) : List Variable.Impl :=
  [{ value_ := value, rep_ := 0 }]

/-- A registry with two variables, of representation 0, holding `first` and `second`. -/
def twoVariables (first second : NodePtr) : List Variable.Impl :=
  [{ value_ := first, rep_ := 0 }, { value_ := second, rep_ := 0 }]

/-- A graph without phi nodes. -/
def noPhis : RawMachineAssembler :=
  { phis := [] }

end CodeStubAssembler

namespace CodeStubAssembler

/-- Every entry of `variable_phis_` is a phi node of the graph, as `Bind` leaves it. -/
def phisInGraph (l : Label) (ra : RawMachineAssembler) : Prop :=
  ∀ w p, mapFind l.variable_phis_ w = some p → ∃ k, p = NodePtr.phi k ∧ k < ra.phis.length

/-- Different variables have different phis in `variable_phis_`, as `Bind` leaves it. -/
def phisDistinct (l : Label) : Prop :=
  ∀ u w p, u ≠ w → mapFind l.variable_phis_ u = some p → mapFind l.variable_phis_ w ≠ some p

/-- The assertion of line 914 of `MergeVariables` for the variable `w` holding `node`,
read on the label before the edge is recorded: every value recorded for the variable,
the value of this edge included, is `node`. -/
def sameAsRecorded (l : Label) (w : Nat) (node : NodePtr) : Prop :=
  ∀ e ∈ (extendWith (mapFind l.variable_merges_ w) (nonNull [node])).getD [], node = e

instance (l : Label) (w : Nat) (node : NodePtr) : Decidable (sameAsRecorded l w node) := by
  unfold sameAsRecorded
  infer_instance

/-- The assertions of `MergeVariables` on a bound label for the variable `w` holding
`node`: line 894, and line 914 for a variable without phi. -/
def boundCheck (l : Label) (w : Nat) (node : NodePtr) : Prop :=
  edgeCheck l w node ∧ (mapFind l.variable_phis_ w = none → sameAsRecorded l w node)

instance (l : Label) (w : Nat) (node : NodePtr) : Decidable (boundCheck l w node) := by
  unfold boundCheck
  infer_instance

/-- The values the loop of `MergeVariables` appends to the phi `k` of a bound label,
from the variables of `vs`, which start at position `var`. -/
def appendedInputs (phis : List (Nat × NodePtr)) (k : Nat) : Nat → List Variable.Impl → List NodePtr
  | _, [] => []
  | var, impl :: rest =>
    (if mapFind phis var = some (NodePtr.phi k) then [impl.value_] else []) ++
      appendedInputs phis k (var + 1) rest

end CodeStubAssembler

namespace CodeStubAssembler

/-- The label that `Bind` leaves after two edges on which the only variable held
the nodes 1 and 2. -/
def labelWithPhi : Label :=
  { bound_ := true, merge_count_ := 2, label_ := { deferred_ := false },
    variable_phis_ := [(0, NodePtr.phi 0)],
    variable_merges_ := [(0, [NodePtr.node 1, NodePtr.node 2])] }

/-- The graph that `Bind` leaves with `labelWithPhi`. -/
def graphWithPhi : RawMachineAssembler :=
  { phis := [{ rep := 0, inputs := [NodePtr.node 1, NodePtr.node 2] }] }

/-- The label that `Bind` leaves after two edges on which the only variable held
the node 1. -/
def labelWithoutPhi : Label :=
  { bound_ := true, merge_count_ := 2, label_ := { deferred_ := false },
    variable_phis_ := [],
    variable_merges_ := [(0, [NodePtr.node 1, NodePtr.node 1])] }

end CodeStubAssembler

namespace CodeStubAssembler

/-- A session with three fresh labels and no variable. -/
def threeLabels : CodeStubAssembler :=
  { raw_assembler_ := { phis := [] }, code_generated_ := false, variables_ := [],
    labels_ := [Label.new [] LabelType.kNonDeferred, Label.new [] LabelType.kNonDeferred,
      Label.new [] LabelType.kNonDeferred] }

end CodeStubAssembler

namespace CodeStubAssembler

/-- The unbound label after two edges on which the only variable held the nodes 1
and 2. -/
def labelBeforeBind : Label :=
  { bound_ := false, merge_count_ := 2, label_ := { deferred_ := false },
    variable_phis_ := [],
    variable_merges_ := [(0, [NodePtr.node 1, NodePtr.node 2])] }

end CodeStubAssembler

namespace CodeStubAssembler

/-- A call on a label, with the registry as it is when the call is made. -/
inductive LabelCall where
  | merge (variables_ : List Variable.Impl)
  | bind (variables_ : List Variable.Impl)
  deriving DecidableEq, Repr

/-- A sequence of merge-edge and `Bind` calls on one label, every one of which has to
complete. -/
def runCalls : List LabelCall → Label → RawMachineAssembler →
    Except Error (Label × RawMachineAssembler)
  | [], l, ra => Except.ok (l, ra)
  | LabelCall.merge variables_ :: rest, l, ra =>
    match Label.MergeVariables variables_ l ra with
    | Except.error e => Except.error e
    | Except.ok (l1, ra1) => runCalls rest l1 ra1
  | LabelCall.bind variables_ :: rest, l, ra =>
    match Label.Bind variables_ l ra with
    | Except.error e => Except.error e
    | Except.ok (_, l1, ra1) => runCalls rest l1 ra1

/-- The registries of the merge-edge calls of a sequence of calls, in order. -/
def mergedEdges : List LabelCall → List (List Variable.Impl)
  | [] => []
  | LabelCall.merge variables_ :: rest => variables_ :: mergedEdges rest
  | LabelCall.bind _ :: rest => mergedEdges rest

/-- The recorded per-edge sequence of a variable at a label, empty when the variable
has no entry in `variable_merges_`. -/
def recordedValues (l : Label) (w : Nat) : List NodePtr :=
  (mapFind l.variable_merges_ w).getD []

end CodeStubAssembler

namespace CodeStubAssembler

/-- Two edges, a `Bind` and one more edge, on a registry of two variables of which
the second is unbound on the first edge. -/
def exampleCalls : List LabelCall :=
  [LabelCall.merge (twoVariables (NodePtr.node 1) NodePtr.null),
   LabelCall.merge (twoVariables (NodePtr.node 2) (NodePtr.node 3)),
   LabelCall.bind (twoVariables (NodePtr.node 2) (NodePtr.node 3)),
   LabelCall.merge (twoVariables (NodePtr.node 4) (NodePtr.node 3))]

end CodeStubAssembler

namespace CodeStubAssembler

/-- The state of a bound label and the graph as `Bind` leaves them: the phis of the
label are nodes of the graph, different for different variables, and the inputs of
the phi of a variable are its recorded values, one per merged edge. -/
def boundInvariant (l : Label) (ra : RawMachineAssembler) : Prop :=
  l.bound_ = true ∧ phisInGraph l ra ∧ phisDistinct l ∧
    ∀ w p, mapFind l.variable_phis_ w = some p →
      ∃ vec, mapFind l.variable_merges_ w = some vec ∧ ra.phiInputs p = some vec ∧
        vec.length = l.merge_count_

end CodeStubAssembler

/-! ## Tagged-value and allocation primitives

The builder functions below emit machine code.  A claim about "the result" or "the
memory" of such a function is a claim about the emitted code, so the embedding of a
builder function is the meaning of the code it emits: a `Node*` argument is the word
the node holds when the code runs, a `Branch` on a word takes its first label when
the word is not zero, and a two-input `Phi` at a merge yields the input that belongs
to the edge taken, the inputs being in the order in which the `Goto`s to the merge
label were emitted.  The offsets that the builder computes from an `int` argument are
computed in the host `int`, of `kBitsPerInt` bits, where an overflow is taken to wrap
in two's complement (`hostInt`). -/

namespace CodeStubAssembler

/-- Modelled from the spec: constants of the heap layout that are declared outside
`src/` (`kHeapObjectTag`, `kDoubleAlignmentMask`, `FixedArray::kHeaderSize`). -/
structure HeapLayout where
  kHeapObjectTag : Nat
  kDoubleAlignmentMask : Nat
  kFixedArrayHeaderSize : Nat
  deriving DecidableEq, Repr

/-- Modelled from the spec: the layout of a 32-bit heap. -/
def HeapLayout.word32 : HeapLayout :=
  { kHeapObjectTag := 1, kDoubleAlignmentMask := 7, kFixedArrayHeaderSize := 8 }

/-- Modelled from the spec: the layout of a 64-bit heap. -/
def HeapLayout.word64 : HeapLayout :=
  { kHeapObjectTag := 1, kDoubleAlignmentMask := 7, kFixedArrayHeaderSize := 16 }

/-- The constant `kPointerSize`, the bytes of a machine word. -/
def Target.kPointerSize (t : Target) : Nat :=
  2 ^ t.kPointerSizeLog2

/-- The word of the node of `Int32Constant`, a constant of 32 bits. -/
def Int32Constant (value : Int) : Nat :=
  (value % 2 ^ 32).toNat

/-- Modelled from the spec: the word computed by the machine operator `IntPtrAdd`. -/
def IntPtrAdd (t : Target) (a b : Nat) : Nat :=
  IntPtrConstant t ((a : Int) + (b : Int))

/-- Modelled from the spec: the word computed by the machine operator `IntPtrSub`. -/
def IntPtrSub (t : Target) (a b : Nat) : Nat :=
  IntPtrConstant t ((a : Int) - (b : Int))

/-- Modelled from the spec: the machine operator `IntPtrLessThan`, a signed
comparison of two words. -/
def IntPtrLessThan (t : Target) (a b : Nat) : Bool :=
  decide (toSigned t a < toSigned t b)

/-- Modelled from the spec: the machine operator `IntPtrEqual`. -/
def IntPtrEqual (a b : Nat) : Bool :=
  decide (a = b)

/-- Modelled from the spec: the word computed by the machine operator `WordAnd`. -/
def WordAnd (a b : Nat) : Nat :=
  a &&& b

/-- Modelled from the spec: the enumeration `Runtime::FunctionId`, of which the
allocation entry is named. -/
inductive RuntimeFunctionId where
  | kAllocateInTargetSpace
  | other (id : Nat)
  deriving DecidableEq, Repr

/-- A call of a runtime entry point: the entry, the context and the arguments. -/
structure RuntimeCall where
  function_id : RuntimeFunctionId
  context : Nat
  args : List Nat
  deriving DecidableEq, Repr

/-- Modelled from the spec: what a runtime entry point does when the emitted code calls
it, its result and the memory it leaves. -/
abbrev RuntimeSemantics := RuntimeCall → (Nat → Nat) → Nat × (Nat → Nat)

/-- The state of the machine that runs the emitted code: the memory, and the stores
and runtime calls the emitted code has made so far, in order. -/
structure Machine where
  memory : Nat → Nat
  stores : List (Nat × Nat)
  runtime_calls : List RuntimeCall

namespace Machine

/-- The word read by `Load(MachineType::Pointer(), base)`. -/
def Load (m : Machine) (base : Nat) : Nat :=
  m.memory base

/-- The effect of `StoreNoWriteBarrier(rep, base, value)` for a word. -/
def StoreNoWriteBarrier (m : Machine) (base value : Nat) : Machine :=
  { m with memory := fun address => if address = base then value else m.memory address
           stores := m.stores ++ [(base, value)] }

/-- The effect and result of `CallRuntime(function_id, context, arg1, arg2)`;
`CallPrologue` and `CallEpilogue` do nothing. -/
def CallRuntime (rt : RuntimeSemantics) (m : Machine) (function_id : RuntimeFunctionId)
    (context : Nat) (args : List Nat) : Nat × Machine :=
  ((rt { function_id := function_id, context := context, args := args } m.memory).1,
   { m with memory := (rt { function_id := function_id, context := context, args := args }
                        m.memory).2
            runtime_calls := m.runtime_calls ++
              [{ function_id := function_id, context := context, args := args }] })

end Machine

/-- Modelled from the spec: the allocation flags, a bit set of `kDoubleAlignment` and
`kPretenured`; `kNone` is the empty set. -/
abbrev AllocationFlags := Nat

/-- Modelled from the spec: the flag "none". -/
def kNone : AllocationFlags := 0

/-- Modelled from the spec: the flag "double-word-aligned". -/
def kDoubleAlignment : AllocationFlags := 1

/-- Modelled from the spec: the flag "pretenured". -/
def kPretenured : AllocationFlags := 2

/-- Modelled from the spec: the two spaces of `AllocationSpace` an allocation can
target, the nursery and the long-lived space. -/
inductive AllocationSpace where
  | NEW_SPACE
  | OLD_SPACE
  deriving DecidableEq, Repr

/-- Modelled from the spec: the bit field `AllocateDoubleAlignFlag` of the flags word
of the runtime allocator, bit 0. -/
def AllocateDoubleAlignFlag.encode (value : Bool) : Nat :=
  if value then 1 else 0

/-- Modelled from the spec: the decoding of `AllocateDoubleAlignFlag`. -/
def AllocateDoubleAlignFlag.decode (word : Nat) : Bool :=
  decide (word % 2 = 1)

/-- Modelled from the spec: the bit field `AllocateTargetSpace` of the flags word of
the runtime allocator, above bit 0. -/
def AllocateTargetSpace.encode (space : AllocationSpace) : Nat :=
  match space with
  | AllocationSpace.NEW_SPACE => 0
  | AllocationSpace.OLD_SPACE => 2

/-- Modelled from the spec: the decoding of `AllocateTargetSpace`. -/
def AllocateTargetSpace.decode (word : Nat) : AllocationSpace :=
  if word / 2 % 8 = 0 then AllocationSpace.NEW_SPACE else AllocationSpace.OLD_SPACE

/-- The result of the code of an allocation function: the word returned, the input
of the last two-input phi that it is (0 for the first input, 1 for the second), and
the machine state. -/
structure Allocation where
  result : Nat
  phi_input : Nat
  machine : Machine

/-- The code emitted by `CodeStubAssembler::AllocateRawUnaligned`.  The merge label
`merge_runtime` is reached first from the block `runtime_call`, then from the block
`no_runtime_call`, so the phi yields `runtime_result` on the first edge and
`no_runtime_result` on the second. -/
def AllocateRawUnaligned (t : Target) (layout : HeapLayout) (rt : RuntimeSemantics)
    (m : Machine) (size_in_bytes : Nat) (flags : AllocationFlags)
    (top_address limit_address : Nat) : Allocation :=
  let top := m.Load top_address
  let limit := m.Load limit_address
  if IntPtrLessThan t (IntPtrSub t limit top) size_in_bytes then
    let context := IntPtrConstant t 0
    let runtime_flags := SmiTag t (Int32Constant
      ((AllocateDoubleAlignFlag.encode false |||
        AllocateTargetSpace.encode
          (if flags &&& kPretenured ≠ 0 then AllocationSpace.OLD_SPACE
           else AllocationSpace.NEW_SPACE) : Nat) : Int))
    let called := m.CallRuntime rt RuntimeFunctionId.kAllocateInTargetSpace context
      [SmiTag t size_in_bytes, runtime_flags]
    { result := called.1, phi_input := 0, machine := called.2 }
  else
    let no_runtime_result := top
    let m1 := m.StoreNoWriteBarrier top_address (IntPtrAdd t top size_in_bytes)
    let no_runtime_result := IntPtrAdd t no_runtime_result
      (IntPtrConstant t (layout.kHeapObjectTag : Int))
    { result := no_runtime_result, phi_input := 1, machine := m1 }

/-- Modelled from the spec: an object a root handle refers to, a Smi with its bits or a
heap object with its tagged address. -/
inductive RootObject where
  | smi (bits : Nat)
  | heapObject (address : Nat)
  deriving DecidableEq, Repr

/-- Modelled from the spec: what `LoadRoot` asks of the heap of the isolate,
`RootCanBeTreatedAsConstant` and `root_handle`, by root index. -/
structure Heap where
  RootCanBeTreatedAsConstant : Nat → Bool
  root_handle : Nat → RootObject

/-- The kind of node a builder call returns, for the calls of `LoadRoot`. -/
inductive NodeKind where
  | IntPtrConstant (value : Nat)
  | HeapConstant (object : Nat)
  | ExternalConstant (address : Nat)
  | Load (base : NodeKind) (index : NodeKind)
  deriving DecidableEq, Repr

/-- The node of `CodeStubAssembler::SmiConstant`, an `IntPtrConstant` of the bits of the
Smi. -/
def SmiConstant (bits : Nat) : NodeKind :=
  NodeKind.IntPtrConstant bits

/-- The word a constant node holds. -/
def NodeKind.word : NodeKind → Nat
  | NodeKind.IntPtrConstant value => value
  | NodeKind.HeapConstant object => object
  | NodeKind.ExternalConstant address => address
  | NodeKind.Load _ _ => 0

/-- Method `CodeStubAssembler::LoadRoot`. -/
def LoadRoot (heap : Heap) (root_index : Nat) : Except Error NodeKind :=
  if heap.RootCanBeTreatedAsConstant root_index then
    match heap.root_handle root_index with
    | RootObject.smi bits => Except.ok (SmiConstant bits)
    | RootObject.heapObject address => Except.ok (NodeKind.HeapConstant address)
  else Except.error Error.NotImplemented

/-- Modelled from the spec: the index `Heap::kOnePointerFillerMapRootIndex`, taken as a
parameter of the heap layout of the roots. -/
structure RootIndices where
  kOnePointerFillerMapRootIndex : Nat
  deriving DecidableEq, Repr

/-- The code emitted by `CodeStubAssembler::AllocateRawAligned`; the builder fails
when `LoadRoot` of the filler map fails.  `phi_input` is that of the phi at
`merge_address`, and `adjusted` is the size handed to `AllocateRawUnaligned`. -/
def AllocateRawAligned (t : Target) (layout : HeapLayout) (roots : RootIndices) (heap : Heap)
    (rt : RuntimeSemantics) (m : Machine) (size_in_bytes : Nat) (flags : AllocationFlags)
    (top_address limit_address : Nat) : Except Error (Allocation × Nat) :=
  match LoadRoot heap roots.kOnePointerFillerMapRootIndex with
  | Except.error e => Except.error e
  | Except.ok filler =>
    let top := m.Load top_address
    let limit := m.Load limit_address
    let adjusted_size :=
      if flags &&& kDoubleAlignment ≠ 0 then
        if WordAnd top (IntPtrConstant t (layout.kDoubleAlignmentMask : Int)) ≠ 0 then
          IntPtrAdd t size_in_bytes (IntPtrConstant t (t.kPointerSize : Int))
        else size_in_bytes
      else size_in_bytes
    let unaligned := AllocateRawUnaligned t layout rt m adjusted_size kNone top limit
    let address := unaligned.result
    let merged : Nat × Nat × Machine :=
      if IntPtrEqual adjusted_size size_in_bytes then
        (address, 1, unaligned.machine)
      else
        (IntPtrAdd t address (IntPtrConstant t (t.kPointerSize : Int)), 0,
          unaligned.machine.StoreNoWriteBarrier top filler.word)
    Except.ok
      ({ result := merged.1, phi_input := merged.2.1,
         machine := merged.2.2.StoreNoWriteBarrier top_address (IntPtrAdd t top adjusted_size) },
       adjusted_size)

/-- Modelled from the spec: the addresses behind the four `ExternalReference`s of
`Allocate`, the top and limit words of the two spaces. -/
structure ExternalReferences where
  new_space_allocation_top_address : Nat
  new_space_allocation_limit_address : Nat
  old_space_allocation_top_address : Nat
  old_space_allocation_limit_address : Nat
  deriving DecidableEq, Repr

/-- The top and limit addresses `Allocate` picks for the flags. -/
def Allocate.addresses (refs : ExternalReferences) (flags : AllocationFlags) : Nat × Nat :=
  if flags &&& kPretenured = 0 then
    (refs.new_space_allocation_top_address, refs.new_space_allocation_limit_address)
  else
    (refs.old_space_allocation_top_address, refs.old_space_allocation_limit_address)

/-- The code emitted by `CodeStubAssembler::Allocate`; `host32` says that
`V8_HOST_ARCH_32_BIT` is defined. -/
def Allocate (t : Target) (layout : HeapLayout) (roots : RootIndices) (heap : Heap)
    (refs : ExternalReferences) (host32 : Bool) (rt : RuntimeSemantics) (m : Machine)
    (size_in_bytes : Int) (flags : AllocationFlags) : Except Error Allocation :=
  let top_address := (Allocate.addresses refs flags).1
  let limit_address := (Allocate.addresses refs flags).2
  if host32 = true ∧ flags &&& kDoubleAlignment ≠ 0 then
    match AllocateRawAligned t layout roots heap rt m (IntPtrConstant t size_in_bytes) flags
        top_address limit_address with
    | Except.error e => Except.error e
    | Except.ok aligned => Except.ok aligned.1
  else
    Except.ok (AllocateRawUnaligned t layout rt m (IntPtrConstant t size_in_bytes) flags
      top_address limit_address)

/-- Modelled from the spec: the number of bits of the host `int` (`kBitsPerInt` of
`src/globals.h`). -/
def kBitsPerInt : Nat :=
  32

/-- Modelled from the spec: the `int` that an `int` operation yields when its exact
result is `x`, the two's complement wrapping of `x` to `kBitsPerInt` bits. -/
def hostInt (x : Int) : Int :=
  (x + 2 ^ (kBitsPerInt - 1)) % 2 ^ kBitsPerInt - 2 ^ (kBitsPerInt - 1)

/-- The integers that the host `int` holds. -/
def InHostInt (x : Int) : Prop :=
  -(2 ^ (kBitsPerInt - 1) : Int) ≤ x ∧ x < 2 ^ (kBitsPerInt - 1)

instance (x : Int) : Decidable (InHostInt x) := by
  unfold InHostInt
  infer_instance

/-- Constructor `CodeStubAssembler::CodeStubAssembler`: a session that has generated
no code and has no variable. -/
def new : CodeStubAssembler :=
  { raw_assembler_ := { phis := [] }, code_generated_ := false, variables_ := [], labels_ := [] }

/-- Method `CodeStubAssembler::GenerateCode`; `pipeline` stands for
`Pipeline::GenerateCodeForCodeStub` on the exported schedule, and the result is the
code handle and the session. -/
def GenerateCode (pipeline : RawMachineAssembler → Nat) (a : CodeStubAssembler) :
    Except Error (Nat × CodeStubAssembler) :=
  if a.code_generated_ then Except.error Error.DoubleBind
  else Except.ok (pipeline a.raw_assembler_, { a with code_generated_ := true })

end CodeStubAssembler

namespace CodeStubAssembler

/-- A memory whose words at 100 and 104 are a top of 1000 and a limit of 2000. -/
def exampleMemory : Nat → Nat :=
  fun address => if address = 100 then 1000 else if address = 104 then 2000 else 0

/-- A machine on `exampleMemory` that has made no store and no runtime call. -/
def exampleMachine : Machine :=
  { memory := exampleMemory, stores := [], runtime_calls := [] }

/-- A runtime whose entry points all return 777 and leave the memory alone. -/
def exampleRuntime : RuntimeSemantics :=
  fun _ memory => (777, memory)

/-- A heap whose roots are all constant heap objects at 4097 but root 9, which is not
constant, and root 3, which is the Smi with the bits 14. -/
def exampleHeap : Heap :=
  { RootCanBeTreatedAsConstant := fun root_index => decide (root_index ≠ 9)
    root_handle := fun root_index =>
      if root_index = 3 then RootObject.smi 14 else RootObject.heapObject 4097 }

end CodeStubAssembler

namespace CodeStubAssembler

/-- The address of the top word of a space. -/
def ExternalReferences.top_address (refs : ExternalReferences) (space : AllocationSpace) : Nat :=
  match space with
  | AllocationSpace.NEW_SPACE => refs.new_space_allocation_top_address
  | AllocationSpace.OLD_SPACE => refs.old_space_allocation_top_address

/-- The address of the limit word of a space. -/
def ExternalReferences.limit_address (refs : ExternalReferences) (space : AllocationSpace) : Nat :=
  match space with
  | AllocationSpace.NEW_SPACE => refs.new_space_allocation_limit_address
  | AllocationSpace.OLD_SPACE => refs.old_space_allocation_limit_address

/-- The space the flags ask for: the old space for a pretenured allocation, the new
space otherwise. -/
def targetSpace (flags : AllocationFlags) : AllocationSpace :=
  if flags &&& kPretenured ≠ 0 then AllocationSpace.OLD_SPACE else AllocationSpace.NEW_SPACE

/-- A memory whose top word, at 100, is the misaligned 1004 and whose limit word, at
104, is 2000; the words stored at the addresses 1004 and 2000 are 5000 and 9000. -/
def misalignedMemory : Nat → Nat :=
  fun address =>
    if address = 100 then 1004 else if address = 104 then 2000
    else if address = 1004 then 5000 else if address = 2000 then 9000 else 0

/-- A machine on `misalignedMemory` that has made no store and no runtime call. -/
def misalignedMachine : Machine :=
  { memory := misalignedMemory, stores := [], runtime_calls := [] }

/-- Root indices with the filler map at root 5. -/
def exampleRoots : RootIndices :=
  { kOnePointerFillerMapRootIndex := 5 }

/-- References with the new space at 100 and 104 and the old space at 200 and 204. -/
def exampleReferences : ExternalReferences :=
  { new_space_allocation_top_address := 100, new_space_allocation_limit_address := 104,
    old_space_allocation_top_address := 200, old_space_allocation_limit_address := 204 }

/-- What is observed of an allocation: the result, the stores and the runtime calls. -/
def Allocation.observed (r : Allocation) : Nat × List (Nat × Nat) × List RuntimeCall :=
  (r.result, r.machine.stores, r.machine.runtime_calls)

end CodeStubAssembler

namespace CodeStubAssembler

/-- Modelled from the spec: the machine operator `WordEqual`, equality of two words. -/
def WordEqual (a b : Nat) : Bool :=
  decide (a = b)

/-- Modelled from the spec: the machine operator `IntPtrLessThanOrEqual`, a signed
comparison of two words. -/
def IntPtrLessThanOrEqual (t : Target) (a b : Nat) : Bool :=
  decide (toSigned t a ≤ toSigned t b)

/-- Modelled from the spec: the constant `kSmiTagMask` of `include/v8.h`,
`(1 << kSmiTagSize) - 1`. -/
def Target.kSmiTagMask (t : Target) : Nat :=
  2 ^ t.kSmiTagSize - 1

/-- The node of `CodeStubAssembler::SmiEqual`. -/
def SmiEqual (a b : Nat) : Bool :=
  WordEqual a b

/-- The node of `CodeStubAssembler::SmiLessThan`. -/
def SmiLessThan (t : Target) (a b : Nat) : Bool :=
  IntPtrLessThan t a b

/-- The node of `CodeStubAssembler::SmiLessThanOrEqual`. -/
def SmiLessThanOrEqual (t : Target) (a b : Nat) : Bool :=
  IntPtrLessThanOrEqual t a b

/-- The node of `CodeStubAssembler::WordIsSmi`. -/
def WordIsSmi (t : Target) (a : Nat) : Bool :=
  WordEqual (WordAnd a (IntPtrConstant t (t.kSmiTagMask : Int))) (IntPtrConstant t 0)

end CodeStubAssembler

/-! ## Smi tagging -/

namespace CodeStubAssembler

theorem Target.one_le_wordBits (t : Target) : 1 ≤ t.wordBits := by
  unfold Target.wordBits
  have := Nat.one_le_two_pow (n := t.kPointerSizeLog2)
  omega

theorem toSigned_IntPtrConstant (t : Target) (y : Int)
    (hlo : -(2 ^ (t.wordBits - 1) : Int) ≤ y) (hhi : y < 2 ^ (t.wordBits - 1)) :
    toSigned t (IntPtrConstant t y) = y := by
  have hW : 1 ≤ t.wordBits := t.one_le_wordBits
  have hM : (2 : Int) ^ t.wordBits = 2 * 2 ^ (t.wordBits - 1) := by
    conv_lhs => rw [show t.wordBits = (t.wordBits - 1) + 1 by omega]
    rw [pow_succ]; ring
  unfold toSigned IntPtrConstant
  have hH : (0 : Int) < 2 ^ (t.wordBits - 1) := by positivity
  generalize hHd : (2 : Int) ^ (t.wordBits - 1) = H at *
  have hHn : ((2 : Nat) ^ (t.wordBits - 1) : Nat) = H.toNat := by
    rw [← hHd]; norm_cast
  rw [hM]
  rcases lt_or_le y 0 with hneg | hpos
  · have h1 : y % (2 * H) = y + 2 * H := by
      rw [← Int.add_mul_emod_self_left y (2 * H) 1, Int.emod_eq_of_lt] <;> omega
    rw [h1, hHn]
    have : ¬ ((y + 2 * H).toNat < H.toNat) := by omega
    rw [if_neg this]
    omega
  · have h1 : y % (2 * H) = y := Int.emod_eq_of_lt hpos (by omega)
    rw [h1, hHn]
    have : (y.toNat < H.toNat) := by omega
    rw [if_pos this]
    omega

theorem SmiShiftBitsConstant_eq (t : Target)
    (hshift : t.kSmiShiftSize + t.kSmiTagSize < t.wordBits) :
    SmiShiftBitsConstant t % t.wordBits = t.kSmiShiftSize + t.kSmiTagSize := by
  unfold SmiShiftBitsConstant IntPtrConstant
  have h2 : t.wordBits < 2 ^ t.wordBits := Nat.lt_two_pow t.wordBits
  have h3 : ((t.kSmiShiftSize + t.kSmiTagSize : Nat) : Int) % 2 ^ t.wordBits
      = ((t.kSmiShiftSize + t.kSmiTagSize : Nat) : Int) := by
    apply Int.emod_eq_of_lt
    · exact Int.ofNat_nonneg _
    · have : ((2 : Int) ^ t.wordBits) = ((2 ^ t.wordBits : Nat) : Int) := by norm_cast
      rw [this]
      exact_mod_cast (lt_trans hshift h2)
  rw [h3, Int.toNat_ofNat]
  exact Nat.mod_eq_of_lt hshift

theorem SmiTag_IntPtrConstant (t : Target)
    (hshift : t.kSmiShiftSize + t.kSmiTagSize < t.wordBits) (x : Int) :
    SmiTag t (IntPtrConstant t x)
      = IntPtrConstant t (x * 2 ^ (t.kSmiShiftSize + t.kSmiTagSize)) := by
  unfold SmiTag WordShl
  rw [SmiShiftBitsConstant_eq t hshift]
  unfold IntPtrConstant
  have hMpos : (0 : Int) < 2 ^ t.wordBits := by positivity
  have hnn : 0 ≤ x % 2 ^ t.wordBits := Int.emod_nonneg _ (ne_of_gt hMpos)
  apply Int.ofNat_inj.mp
  have hr : 0 ≤ x * 2 ^ (t.kSmiShiftSize + t.kSmiTagSize) % 2 ^ t.wordBits :=
    Int.emod_nonneg _ (ne_of_gt hMpos)
  rw [Int.toNat_of_nonneg hr]
  push_cast
  rw [Int.toNat_of_nonneg hnn]
  rw [Int.mul_emod, Int.emod_emod_of_dvd _ (dvd_refl _), ← Int.mul_emod]

/-- Claim C4: for every integer x of the Smi range of a target whose Smi shift
`kSmiShiftSize + kSmiTagSize` is below the word width (31-bit signed for the shift 1
on a 32-bit word, 32-bit signed for the shift 32 on a 64-bit word), untagging the
tagged word of x gives back the word of x, whose signed reading is x. -/
theorem SmiUntag_SmiTag (t : Target)
    (hshift : t.kSmiShiftSize + t.kSmiTagSize < t.wordBits) (x : Int) (hx : InSmiRange t x) :
    SmiUntag t (SmiTag t (IntPtrConstant t x)) = IntPtrConstant t x ∧
      toSigned t (SmiUntag t (SmiTag t (IntPtrConstant t x))) = x := by
  have hW : 1 ≤ t.wordBits := t.one_le_wordBits
  obtain ⟨hlo, hhi⟩ := hx
  have hsplit : (2 : Int) ^ (t.wordBits - 1)
      = 2 ^ (t.wordBits - 1 - (t.kSmiShiftSize + t.kSmiTagSize))
        * 2 ^ (t.kSmiShiftSize + t.kSmiTagSize) := by
    rw [← pow_add]
    congr 1
    omega
  have hS : (0 : Int) < 2 ^ (t.kSmiShiftSize + t.kSmiTagSize) := by positivity
  have hR : (0 : Int) < 2 ^ (t.wordBits - 1 - (t.kSmiShiftSize + t.kSmiTagSize)) := by positivity
  have hylo : -(2 ^ (t.wordBits - 1) : Int) ≤ x * 2 ^ (t.kSmiShiftSize + t.kSmiTagSize) := by
    rw [hsplit]; nlinarith
  have hyhi : x * 2 ^ (t.kSmiShiftSize + t.kSmiTagSize) < (2 ^ (t.wordBits - 1) : Int) := by
    rw [hsplit]; nlinarith
  have hxlo : -(2 ^ (t.wordBits - 1) : Int) ≤ x := by
    rw [hsplit]; nlinarith
  have hxhi : x < (2 ^ (t.wordBits - 1) : Int) := by
    rw [hsplit]; nlinarith
  have key : SmiUntag t (SmiTag t (IntPtrConstant t x)) = IntPtrConstant t x := by
    rw [SmiTag_IntPtrConstant t hshift]
    unfold SmiUntag WordSar
    rw [SmiShiftBitsConstant_eq t hshift, toSigned_IntPtrConstant t _ hylo hyhi,
      Int.mul_ediv_cancel _ (ne_of_gt hS)]
  exact ⟨key, by rw [key]; exact toSigned_IntPtrConstant t x hxlo hxhi⟩

theorem SmiUntag_SmiTag_witness :
    (SmiUntag Target.word32 (SmiTag Target.word32 (IntPtrConstant Target.word32 (-1073741824)))
        = IntPtrConstant Target.word32 (-1073741824) ∧
      toSigned Target.word32
        (SmiUntag Target.word32 (SmiTag Target.word32 (IntPtrConstant Target.word32 (-1073741824))))
        = -1073741824) ∧
    (SmiUntag Target.word64 (SmiTag Target.word64 (IntPtrConstant Target.word64 2147483647))
        = IntPtrConstant Target.word64 2147483647 ∧
      toSigned Target.word64
        (SmiUntag Target.word64 (SmiTag Target.word64 (IntPtrConstant Target.word64 2147483647)))
        = 2147483647) :=
  ⟨SmiUntag_SmiTag Target.word32 (by decide) (-1073741824) (by unfold InSmiRange; decide),
   SmiUntag_SmiTag Target.word64 (by decide) 2147483647 (by unfold InSmiRange; decide)⟩

end CodeStubAssembler

theorem mapFind_mapAssign {β : Type} (m : List (Nat × β)) (k w : Nat) (b : β) :
    mapFind (mapAssign m k b) w = if w = k then some b else mapFind m w := by
  induction m with
  | nil =>
    by_cases h : w = k
    · simp [mapAssign, mapFind, h]
    · simp [mapAssign, mapFind, h, Ne.symm h]
  | cons hd tl ih =>
    obtain ⟨k', b'⟩ := hd
    unfold mapAssign
    by_cases h1 : k < k'
    · rw [if_pos h1]
      by_cases h : w = k
      · simp [mapFind, h]
      · simp [mapFind, h, Ne.symm h]
    · rw [if_neg h1]
      by_cases h2 : k = k'
      · rw [if_pos h2]
        by_cases h : w = k
        · simp [mapFind, h]
        · have : ¬ k' = w := fun e => h (by omega)
          simp [mapFind, h, Ne.symm h, this]
      · rw [if_neg h2]
        by_cases h : w = k
        · subst h
          have : ¬ k' = w := fun e => h2 e.symm
          simp only [mapFind, this, if_false, ih, if_true]
        · by_cases h3 : k' = w
          · simp only [mapFind, h3, if_true, if_neg h]
          · simp only [mapFind, h3, if_false, ih, if_neg h]

theorem mapFind_of_mem {β : Type} {m : List (Nat × β)} {k : Nat} {b : β} (h : (k, b) ∈ m) :
    ∃ b1, mapFind m k = some b1 := by
  induction m with
  | nil => exact absurd h (by simp)
  | cons hd tl ih =>
    obtain ⟨k', b'⟩ := hd
    by_cases h1 : k' = k
    · exact ⟨b', by simp [mapFind, h1]⟩
    · rcases List.mem_cons.mp h with e | e
      · simp only [Prod.mk.injEq] at e
        exact absurd e.1.symm h1
      · obtain ⟨b1, hb1⟩ := ih e
        exact ⟨b1, by simp [mapFind, h1, hb1]⟩

theorem mem_of_mapFind {β : Type} {m : List (Nat × β)} {k : Nat} {b : β}
    (h : mapFind m k = some b) : (k, b) ∈ m := by
  induction m with
  | nil => simp [mapFind] at h
  | cons hd tl ih =>
    obtain ⟨k', b'⟩ := hd
    by_cases h1 : k' = k
    · simp only [mapFind, h1, if_true, Option.some.injEq] at h
      simp [h1, h]
    · simp only [mapFind, h1, if_false] at h
      exact List.mem_cons_of_mem _ (ih h)

namespace CodeStubAssembler

theorem extendWith_nil (old : Option (List NodePtr)) : extendWith old [] = old := by
  simp [extendWith]

theorem extendWith_extendWith (old : Option (List NodePtr)) (r1 r2 : List NodePtr) :
    extendWith (extendWith old r1) r2 = extendWith old (r1 ++ r2) := by
  unfold extendWith
  by_cases h1 : r1 = []
  · simp [h1]
  · by_cases h2 : r2 = []
    · simp [h1, h2]
    · simp [h1, h2, List.append_assoc]

namespace Label

theorem recordEdge_find (merges : List (Nat × List NodePtr)) (var w : Nat) (node : NodePtr) :
    mapFind (recordEdge merges var node).1 w
      = if w = var then extendWith (mapFind merges var) (nonNull [node]) else mapFind merges w := by
  unfold recordEdge
  by_cases hn : node = NodePtr.null
  · by_cases e : w = var <;> simp [hn, nonNull, extendWith, e]
  · rw [if_pos hn]
    cases hf : mapFind merges var with
    | none =>
      simp only [mapFind_mapAssign]
      by_cases hw : w = var
      · simp [hw, nonNull, extendWith, hn]
      · simp [hw]
    | some vec =>
      simp only [mapFind_mapAssign]
      by_cases hw : w = var
      · simp [hw, nonNull, extendWith, hn]
      · simp [hw]

theorem recordEdge_count (merges : List (Nat × List NodePtr)) (var : Nat) (node : NodePtr) :
    (recordEdge merges var node).2
      = if node = NodePtr.null then 0 else ((mapFind merges var).getD []).length + 1 := by
  unfold recordEdge
  by_cases hn : node = NodePtr.null
  · simp [hn]
  · rw [if_pos hn, if_neg hn]
    cases hf : mapFind merges var <;> simp

theorem mergeVariable_unbound (l : Label) (ra : RawMachineAssembler) (var : Nat)
    (impl : Variable.Impl) (hb : l.bound_ = false) :
    mergeVariable l ra var impl
      = if (mapFind l.variable_phis_ var).isNone ∨
            (recordEdge l.variable_merges_ var impl.value_).2 = l.merge_count_
        then Except.ok
          ({ l with variable_merges_ := (recordEdge l.variable_merges_ var impl.value_).1 }, ra)
        else Except.error Error.InconsistentMerge := by
  unfold mergeVariable
  by_cases hc : (mapFind l.variable_phis_ var).isNone ∨
      (recordEdge l.variable_merges_ var impl.value_).2 = l.merge_count_
  · simp only [hc, not_true_eq_false, if_false, if_true, hb, Bool.false_eq_true]
  · simp only [hc, not_false_eq_true, if_true, if_false]

end Label
end CodeStubAssembler

namespace CodeStubAssembler

theorem valueAt_nil (w : Nat) : valueAt [] w = NodePtr.null := by
  simp [valueAt]

theorem valueAt_cons_zero (impl : Variable.Impl) (rest : List Variable.Impl) :
    valueAt (impl :: rest) 0 = impl.value_ := by
  simp [valueAt]

theorem valueAt_cons_succ (impl : Variable.Impl) (rest : List Variable.Impl) (w : Nat) :
    valueAt (impl :: rest) (w + 1) = valueAt rest w := by
  simp [valueAt]

theorem valueAt_ne_null_lt {vs : List Variable.Impl} {w : Nat}
    (h : valueAt vs w ≠ NodePtr.null) : w < vs.length := by
  by_contra hlt
  apply h
  unfold valueAt
  rw [List.get?_eq_none.mpr (by omega)]

theorem valueFrom_zero (vs : List Variable.Impl) (w : Nat) : valueFrom 0 vs w = valueAt vs w := by
  simp [valueFrom]

theorem valueFrom_nil (var w : Nat) : valueFrom var [] w = NodePtr.null := by
  simp [valueFrom, valueAt_nil]

theorem valueFrom_cons (var : Nat) (impl : Variable.Impl) (rest : List Variable.Impl) (w : Nat) :
    valueFrom var (impl :: rest) w
      = if w = var then impl.value_ else valueFrom (var + 1) rest w := by
  unfold valueFrom
  by_cases h : w = var
  · subst h
    simp [valueAt_cons_zero]
  · rw [if_neg h]
    by_cases h1 : var ≤ w
    · have h2 : var + 1 ≤ w := by omega
      rw [if_pos h1, if_pos h2]
      have : w - var = (w - (var + 1)) + 1 := by omega
      rw [this, valueAt_cons_succ]
    · have h2 : ¬ var + 1 ≤ w := by omega
      rw [if_neg h1, if_neg h2]

theorem valueFrom_ne_null_range {var : Nat} {vs : List Variable.Impl} {w : Nat}
    (h : valueFrom var vs w ≠ NodePtr.null) : var ≤ w ∧ w < var + vs.length := by
  unfold valueFrom at h
  by_cases h1 : var ≤ w
  · rw [if_pos h1] at h
    have := valueAt_ne_null_lt h
    omega
  · rw [if_neg h1] at h
    exact absurd rfl h

namespace Label

theorem mergeVariable_unbound_check (l : Label) (ra : RawMachineAssembler) (var : Nat)
    (impl : Variable.Impl) (hb : l.bound_ = false) :
    mergeVariable l ra var impl
      = if edgeCheck l var impl.value_
        then Except.ok
          ({ l with variable_merges_ := (recordEdge l.variable_merges_ var impl.value_).1 }, ra)
        else Except.error Error.InconsistentMerge := by
  rw [mergeVariable_unbound l ra var impl hb]
  unfold edgeCheck
  rw [recordEdge_count]
  simp only [Option.isNone_iff_eq_none]

/-- What an unbound label looks like after the loop of `MergeVariables`. -/
theorem mergeLoop_unbound_cases (vs : List Variable.Impl) (var : Nat) (l : Label)
    (ra : RawMachineAssembler) (hb : l.bound_ = false) :
    mergeLoop var vs l ra = Except.error Error.InconsistentMerge ∨
    ∃ l1, mergeLoop var vs l ra = Except.ok (l1, ra) ∧ l1.bound_ = false ∧
      l1.merge_count_ = l.merge_count_ ∧ l1.label_ = l.label_ ∧
      l1.variable_phis_ = l.variable_phis_ ∧
      ∀ w, mapFind l1.variable_merges_ w
        = extendWith (mapFind l.variable_merges_ w) (nonNull [valueFrom var vs w]) := by
  induction vs generalizing var l with
  | nil =>
    right
    refine ⟨l, rfl, hb, rfl, rfl, rfl, ?_⟩
    intro w
    simp [valueFrom_nil, nonNull, extendWith]
  | cons impl rest ih =>
    simp only [mergeLoop]
    rw [mergeVariable_unbound_check l ra var impl hb]
    by_cases hc : edgeCheck l var impl.value_
    · rw [if_pos hc]
      simp only
      rcases ih (var + 1)
          { l with variable_merges_ := (recordEdge l.variable_merges_ var impl.value_).1 } hb
        with h | ⟨l1, h1, h2, h3, h4, h5, h6⟩
      · left; exact h
      · right
        refine ⟨l1, h1, h2, h3, h4, h5, ?_⟩
        intro w
        rw [h6 w, valueFrom_cons]
        simp only [recordEdge_find]
        by_cases hw : w = var
        · subst hw
          have : valueFrom (w + 1) rest w = NodePtr.null := by
            simp [valueFrom]
          rw [if_pos rfl, if_pos rfl, this]
          have hn : nonNull [NodePtr.null] = [] := by simp [nonNull]
          rw [hn, extendWith_nil]
        · rw [if_neg hw, if_neg hw]
    · rw [if_neg hc]
      left; rfl

/-- The loop of `MergeVariables` on an unbound label completes when every
registered variable passes the assertion of line 894. -/
theorem mergeLoop_unbound_ok (vs : List Variable.Impl) (var : Nat) (l : Label)
    (ra : RawMachineAssembler) (hb : l.bound_ = false)
    (hc : ∀ w, var ≤ w → w < var + vs.length → edgeCheck l w (valueFrom var vs w)) :
    mergeLoop var vs l ra ≠ Except.error Error.InconsistentMerge := by
  induction vs generalizing var l with
  | nil => simp [mergeLoop]
  | cons impl rest ih =>
    simp only [mergeLoop]
    rw [mergeVariable_unbound_check l ra var impl hb]
    have h0 := hc var (le_refl _) (by simp)
    rw [valueFrom_cons, if_pos rfl] at h0
    rw [if_pos h0]
    simp only
    refine ih (var + 1)
      { l with variable_merges_ := (recordEdge l.variable_merges_ var impl.value_).1 } hb ?_
    intro w hw1 hw2
    have hne : w ≠ var := by omega
    have h1 := hc w (by omega) (by simp only [List.length_cons]; omega)
    rw [valueFrom_cons, if_neg hne] at h1
    unfold edgeCheck at h1 ⊢
    simp only [recordEdge_find, if_neg hne]
    exact h1

/-- The loop of `MergeVariables` on an unbound label fails when some registered
variable does not pass the assertion of line 894. -/
theorem mergeLoop_unbound_error (vs : List Variable.Impl) (var : Nat) (l : Label)
    (ra : RawMachineAssembler) (hb : l.bound_ = false) (w : Nat) (hw1 : var ≤ w)
    (hw2 : w < var + vs.length) (hc : ¬ edgeCheck l w (valueFrom var vs w)) :
    mergeLoop var vs l ra = Except.error Error.InconsistentMerge := by
  induction vs generalizing var l with
  | nil => simp at hw2; omega
  | cons impl rest ih =>
    simp only [mergeLoop]
    rw [mergeVariable_unbound_check l ra var impl hb]
    by_cases h0 : edgeCheck l var impl.value_
    · rw [if_pos h0]
      simp only
      have hne : w ≠ var := by
        intro e
        subst e
        rw [valueFrom_cons, if_pos rfl] at hc
        exact hc h0
      refine ih (var + 1)
        { l with variable_merges_ := (recordEdge l.variable_merges_ var impl.value_).1 } hb
        (by omega) (by simp only [List.length_cons] at hw2; omega) ?_
      rw [valueFrom_cons, if_neg hne] at hc
      unfold edgeCheck at hc ⊢
      simp only [recordEdge_find, if_neg hne]
      exact hc
    · rw [if_neg h0]

end Label
end CodeStubAssembler

theorem mem_mapAssign {β : Type} {m : List (Nat × β)} {k : Nat} {b : β} {x : Nat × β}
    (h : x ∈ mapAssign m k b) : x = (k, b) ∨ x ∈ m := by
  induction m with
  | nil =>
    simp only [mapAssign, List.mem_singleton] at h
    exact Or.inl h
  | cons hd tl ih =>
    obtain ⟨k', b'⟩ := hd
    unfold mapAssign at h
    split at h
    · rcases List.mem_cons.mp h with e | e
      · exact Or.inl e
      · exact Or.inr e
    · split at h
      · rcases List.mem_cons.mp h with e | e
        · exact Or.inl e
        · exact Or.inr (List.mem_cons_of_mem _ e)
      · rcases List.mem_cons.mp h with e | e
        · exact Or.inr (by rw [e]; exact List.mem_cons_self _ _)
        · rcases ih e with e1 | e1
          · exact Or.inl e1
          · exact Or.inr (List.mem_cons_of_mem _ e1)

namespace CodeStubAssembler

theorem keysSorted_mapAssign {β : Type} {m : List (Nat × β)} (k : Nat) (b : β)
    (h : keysSorted m) : keysSorted (mapAssign m k b) := by
  unfold keysSorted at *
  induction m with
  | nil => simp [mapAssign]
  | cons hd tl ih =>
    obtain ⟨k', b'⟩ := hd
    obtain ⟨h1, h2⟩ := List.pairwise_cons.mp h
    unfold mapAssign
    split
    · rename_i hlt
      refine List.pairwise_cons.mpr ⟨?_, h⟩
      intro x hx
      rcases List.mem_cons.mp hx with e | e
      · rw [e]; exact hlt
      · exact lt_trans hlt (h1 x e)
    · split
      · rename_i hnlt heq
        refine List.pairwise_cons.mpr ⟨?_, h2⟩
        intro x hx
        have := h1 x hx
        simp only at this ⊢
        omega
      · rename_i hnlt hne
        refine List.pairwise_cons.mpr ⟨?_, ih h2⟩
        intro x hx
        rcases mem_mapAssign hx with e | e
        · rw [e]
          simp only
          omega
        · exact h1 x e

theorem twoValues_congr {l1 l2 : List NodePtr} (h : ∀ x, x ∈ l1 ↔ x ∈ l2) :
    twoValues l1 ↔ twoValues l2 := by
  unfold twoValues
  constructor
  · rintro ⟨a, ha, b, hb, hab⟩
    exact ⟨a, (h a).mp ha, b, (h b).mp hb, hab⟩
  · rintro ⟨a, ha, b, hb, hab⟩
    exact ⟨a, (h a).mpr ha, b, (h b).mpr hb, hab⟩

theorem not_twoValues_nil : ¬ twoValues [] := by
  rintro ⟨a, ha, -⟩
  exact absurd ha (by simp)

theorem not_twoValues_singleton (a : NodePtr) : ¬ twoValues [a] := by
  rintro ⟨x, hx, y, hy, hxy⟩
  simp only [List.mem_singleton] at hx hy
  exact hxy (by rw [hx, hy])

namespace Label

/-- The inner loop of the first pass of `Bind` on a sequence without null: the
variable gets an entry exactly when two values differ. -/
theorem markValues_spec (var : Nat) (vec : List NodePtr) (shared : NodePtr)
    (phis : List (Nat × NodePtr)) (hnn : NodePtr.null ∉ vec) :
    ∃ phis1, markValues var vec shared phis = Except.ok phis1 ∧
      (∀ w, mapFind phis1 w
        = if w = var ∧ twoValues (nonNull [shared] ++ vec) then some NodePtr.null
          else mapFind phis w) ∧
      (keysSorted phis → keysSorted phis1) := by
  induction vec generalizing shared phis with
  | nil =>
    refine ⟨phis, rfl, ?_, fun h => h⟩
    intro w
    have : ¬ twoValues (nonNull [shared] ++ []) := by
      by_cases hs : shared = NodePtr.null
      · simp [nonNull, hs, not_twoValues_nil]
      · simp [nonNull, hs, not_twoValues_singleton]
    rw [if_neg (fun e => this e.2)]
  | cons value rest ih =>
    have hv : value ≠ NodePtr.null := fun e => hnn (by simp [e])
    have hrest : NodePtr.null ∉ rest := fun e => hnn (List.mem_cons_of_mem _ e)
    unfold markValues
    rw [if_neg hv]
    by_cases hvs : value = shared
    · have hs : shared ≠ NodePtr.null := fun e => hv (hvs.trans e)
      rw [if_neg (by simpa using hvs)]
      obtain ⟨phis1, h1, h2, h3⟩ := ih shared phis hrest
      refine ⟨phis1, h1, ?_, h3⟩
      intro w
      rw [h2 w]
      have : twoValues (nonNull [shared] ++ rest)
          ↔ twoValues (nonNull [shared] ++ value :: rest) := by
        apply twoValues_congr
        intro x
        simp [nonNull, hs, hvs]
      simp only [this]
    · rw [if_pos hvs]
      by_cases hs : shared = NodePtr.null
      · rw [if_pos hs]
        obtain ⟨phis1, h1, h2, h3⟩ := ih value phis hrest
        refine ⟨phis1, h1, ?_, h3⟩
        intro w
        rw [h2 w]
        have : twoValues (nonNull [value] ++ rest)
            ↔ twoValues (nonNull [shared] ++ value :: rest) := by
          apply twoValues_congr
          intro x
          simp [nonNull, hs, hv]
        simp only [this]
      · rw [if_neg hs]
        obtain ⟨phis1, h1, h2, h3⟩ := ih shared (mapAssign phis var NodePtr.null) hrest
        refine ⟨phis1, h1, ?_, fun h => h3 (keysSorted_mapAssign _ _ h)⟩
        intro w
        rw [h2 w, mapFind_mapAssign]
        have : twoValues (nonNull [shared] ++ value :: rest) :=
          ⟨shared, by simp [nonNull, hs], value, by simp, fun e => hvs e.symm⟩
        by_cases hw : w = var
        · simp [hw, this]
        · simp [hw]

/-- The first pass of `Bind` when no recorded sequence holds a null. -/
theorem markLoop_spec (merges : List (Nat × List NodePtr)) (vs : List Variable.Impl) (var : Nat)
    (phis : List (Nat × NodePtr))
    (hnn : ∀ w vec, mapFind merges w = some vec → NodePtr.null ∉ vec) :
    ∃ phis1, markLoop merges var vs phis = Except.ok phis1 ∧
      (∀ w, mapFind phis1 w
        = if var ≤ w ∧ w < var + vs.length ∧ twoValues ((mapFind merges w).getD [])
          then some NodePtr.null else mapFind phis w) ∧
      (keysSorted phis → keysSorted phis1) := by
  induction vs generalizing var phis with
  | nil =>
    refine ⟨phis, rfl, ?_, fun h => h⟩
    intro w
    have : ¬ (var ≤ w ∧ w < var + ([] : List Variable.Impl).length ∧
        twoValues ((mapFind merges w).getD [])) := by
      simp only [List.length_nil]
      omega
    rw [if_neg this]
  | cons impl rest ih =>
    unfold markLoop
    cases hf : mapFind merges var with
    | none =>
      simp only
      obtain ⟨phis1, h1, h2, h3⟩ := ih (var + 1) phis
      refine ⟨phis1, h1, ?_, h3⟩
      intro w
      rw [h2 w]
      by_cases hw : w = var
      · subst hw
        have n1 : ¬ (w + 1 ≤ w ∧ w < w + 1 + rest.length ∧
            twoValues ((mapFind merges w).getD [])) := by omega
        have n2 : ¬ (w ≤ w ∧ w < w + (impl :: rest).length ∧
            twoValues ((mapFind merges w).getD [])) := by
          rw [hf]
          simp [not_twoValues_nil]
        rw [if_neg n1, if_neg n2]
      · have : (var + 1 ≤ w ∧ w < var + 1 + rest.length ∧ twoValues ((mapFind merges w).getD []))
            ↔ (var ≤ w ∧ w < var + (impl :: rest).length ∧
                twoValues ((mapFind merges w).getD [])) := by
          simp only [List.length_cons]
          constructor
          · rintro ⟨a, b, c⟩
            exact ⟨by omega, by omega, c⟩
          · rintro ⟨a, b, c⟩
            exact ⟨by omega, by omega, c⟩
        simp only [this]
    | some vec =>
      simp only
      obtain ⟨phisA, a1, a2, a3⟩ := markValues_spec var vec NodePtr.null phis (hnn var vec hf)
      rw [a1]
      simp only
      obtain ⟨phis1, h1, h2, h3⟩ := ih (var + 1) phisA
      refine ⟨phis1, h1, ?_, fun h => h3 (a3 h)⟩
      intro w
      rw [h2 w, a2 w]
      have hnil : nonNull [NodePtr.null] ++ vec = vec := by simp [nonNull]
      rw [hnil]
      by_cases hw : w = var
      · subst hw
        have n1 : ¬ (w + 1 ≤ w ∧ w < w + 1 + rest.length ∧
            twoValues ((mapFind merges w).getD [])) := by omega
        rw [if_neg n1, hf]
        simp only [Option.getD_some, true_and, le_refl, List.length_cons]
        have : w < w + (rest.length + 1) := by omega
        simp only [this, true_and]
      · have : (var + 1 ≤ w ∧ w < var + 1 + rest.length ∧ twoValues ((mapFind merges w).getD []))
            ↔ (var ≤ w ∧ w < var + (impl :: rest).length ∧
                twoValues ((mapFind merges w).getD [])) := by
          simp only [List.length_cons]
          constructor
          · rintro ⟨a, b, c⟩
            exact ⟨by omega, by omega, c⟩
          · rintro ⟨a, b, c⟩
            exact ⟨by omega, by omega, c⟩
        have hf2 : ¬ (w = var ∧ twoValues vec) := fun e => hw e.1
        rw [if_neg hf2]
        simp only [this]

end Label
end CodeStubAssembler

namespace CodeStubAssembler
namespace Label

/-- The second pass of `Bind` fails only with InconsistentMerge. -/
theorem createPhis_error {variables_ : List Variable.Impl} {merges : List (Nat × List NodePtr)}
    {count : Nat} {phis : List (Nat × NodePtr)} {ra : RawMachineAssembler} {e : Error}
    (h : createPhis variables_ merges count phis ra = Except.error e) :
    e = Error.InconsistentMerge := by
  induction phis generalizing ra with
  | nil => simp [createPhis] at h
  | cons hd tl ih =>
    obtain ⟨k, x⟩ := hd
    unfold createPhis at h
    split at h
    · split at h
      · split at h
        · rename_i e1 h1
          simp only [Except.error.injEq] at h
          subst h
          exact ih h1
        · exact absurd h (by simp)
      · simp only [Except.error.injEq] at h
        exact h.symm
    · simp only [Except.error.injEq] at h
      exact h.symm

/-- What a completed second pass of `Bind` leaves: the same keys, each with its own
new phi over the recorded sequence of its variable, and an extended graph. -/
theorem createPhis_ok_spec {variables_ : List Variable.Impl}
    {merges : List (Nat × List NodePtr)} {count : Nat} {phis phis2 : List (Nat × NodePtr)}
    {ra ra2 : RawMachineAssembler}
    (h : createPhis variables_ merges count phis ra = Except.ok (phis2, ra2)) :
    phis2.map Prod.fst = phis.map Prod.fst ∧
    (∃ ext, ra2.phis = ra.phis ++ ext ∧ ext.length = phis.length) ∧
    (∀ x ∈ phis, ∃ vec, mapFind merges x.1 = some vec ∧ vec.length = count) ∧
    (∀ w, mapFind phis w = none → mapFind phis2 w = none) ∧
    (∀ w x, mapFind phis w = some x →
      ∃ vec idx, mapFind merges w = some vec ∧ vec.length = count ∧
        mapFind phis2 w = some (NodePtr.phi idx) ∧ ra.phis.length ≤ idx ∧
        ra2.phis.get? idx = some { rep := repAt variables_ w, inputs := vec }) := by
  induction phis generalizing ra phis2 ra2 with
  | nil =>
    simp only [createPhis, Except.ok.injEq, Prod.mk.injEq] at h
    obtain ⟨h1, h2⟩ := h
    subst h1 h2
    refine ⟨rfl, ⟨[], by simp, rfl⟩, by simp, fun w _ => rfl, ?_⟩
    intro w x hx
    simp [mapFind] at hx
  | cons hd tl ih =>
    obtain ⟨k, x0⟩ := hd
    unfold createPhis at h
    split at h
    · rename_i vec hvec
      split at h
      · rename_i hlen
        split at h
        · exact absurd h (by simp)
        · rename_i rest1 ra3 hrec
          simp only [Except.ok.injEq, Prod.mk.injEq] at h
          obtain ⟨h1, h2⟩ := h
          subst h1 h2
          obtain ⟨i1, ⟨ext, i2, i3⟩, i4, i5, i6⟩ := ih hrec
          have htake : List.take count vec = vec := by
            rw [← hlen]; exact List.take_length _
          have hg : ra3.phis
              = ra.phis ++ ({ rep := repAt variables_ k, inputs := vec } :: ext) := by
            rw [i2]
            simp [RawMachineAssembler.Phi, htake]
          refine ⟨?_, ⟨_, hg, by simp [i3]⟩, ?_, ?_, ?_⟩
          · simp [i1]
          · intro x hx
            rcases List.mem_cons.mp hx with e | e
            · rw [e]; exact ⟨vec, hvec, hlen⟩
            · exact i4 x e
          · intro w hw
            by_cases hk : k = w
            · simp [mapFind, hk] at hw
            · simp only [mapFind, hk, if_false] at hw ⊢
              exact i5 w hw
          · intro w x hw
            by_cases hk : k = w
            · subst hk
              refine ⟨vec, ra.phis.length, hvec, hlen, ?_, le_refl _, ?_⟩
              · simp [mapFind, RawMachineAssembler.Phi]
              · rw [hg, List.get?_eq_getElem?, List.getElem?_append_right (le_refl _)]
                simp
            · simp only [mapFind, hk, if_false] at hw ⊢
              obtain ⟨vec1, idx, j1, j2, j3, j4, j5⟩ := i6 w x hw
              refine ⟨vec1, idx, j1, j2, j3, ?_, j5⟩
              simp only [RawMachineAssembler.Phi, List.length_append, List.length_singleton] at j4
              omega
      · exact absurd h (by simp)
    · exact absurd h (by simp)

/-- The second pass of `Bind` completes when every entry of `variable_phis_` has a
recorded value for every merged edge. -/
theorem createPhis_ok_of_complete (variables_ : List Variable.Impl)
    (merges : List (Nat × List NodePtr)) (count : Nat) (phis : List (Nat × NodePtr))
    (ra : RawMachineAssembler)
    (hc : ∀ x ∈ phis, ∃ vec, mapFind merges x.1 = some vec ∧ vec.length = count) :
    ∃ phis2 ra2, createPhis variables_ merges count phis ra = Except.ok (phis2, ra2) := by
  induction phis generalizing ra with
  | nil => exact ⟨[], ra, rfl⟩
  | cons hd tl ih =>
    obtain ⟨k, x0⟩ := hd
    obtain ⟨vec, hvec, hlen⟩ := hc (k, x0) (List.mem_cons_self _ _)
    obtain ⟨rest1, ra3, hrec⟩ := ih (ra.Phi (repAt variables_ k) count vec).2
      (fun x hx => hc x (List.mem_cons_of_mem _ hx))
    refine ⟨(k, (ra.Phi (repAt variables_ k) count vec).1) :: rest1, ra3, ?_⟩
    unfold createPhis
    simp only [hvec, hlen, if_true, hrec]

/-- The second pass of `Bind` fails with InconsistentMerge when some entry of
`variable_phis_` lacks a recorded value for some merged edge. -/
theorem createPhis_error_of_incomplete (variables_ : List Variable.Impl)
    (merges : List (Nat × List NodePtr)) (count : Nat) (phis : List (Nat × NodePtr))
    (ra : RawMachineAssembler) (x : Nat × NodePtr) (hx : x ∈ phis)
    (hc : ¬ ∃ vec, mapFind merges x.1 = some vec ∧ vec.length = count) :
    createPhis variables_ merges count phis ra = Except.error Error.InconsistentMerge := by
  cases hres : createPhis variables_ merges count phis ra with
  | error e => rw [createPhis_error hres]
  | ok r =>
    obtain ⟨phis2, ra2⟩ := r
    exact absurd ((createPhis_ok_spec hres).2.2.1 x hx) hc

theorem valueAt_rebindLoop (l : Label) (vs : List Variable.Impl) (var w : Nat) :
    valueAt (rebindLoop l var vs) w
      = if w < vs.length then boundValue l (var + w) else NodePtr.null := by
  induction vs generalizing var w with
  | nil => simp [rebindLoop, valueAt_nil]
  | cons impl rest ih =>
    cases w with
    | zero => simp [rebindLoop, valueAt_cons_zero]
    | succ n =>
      simp only [rebindLoop, valueAt_cons_succ, ih, List.length_cons]
      have : var + 1 + n = var + (n + 1) := by omega
      rw [this]
      by_cases hn : n < rest.length
      · rw [if_pos hn, if_pos (by omega)]
      · rw [if_neg hn, if_neg (by omega)]

theorem mapFind_premarked (merged : List Nat) (init : List (Nat × NodePtr)) (w : Nat) :
    mapFind (merged.foldl (fun m v => mapAssign m v NodePtr.null) init) w
      = if w ∈ merged then some NodePtr.null else mapFind init w := by
  induction merged generalizing init with
  | nil => simp
  | cons v rest ih =>
    simp only [List.foldl_cons, ih, mapFind_mapAssign, List.mem_cons]
    by_cases h1 : w ∈ rest
    · simp [h1]
    · by_cases h2 : w = v
      · simp [h1, h2]
      · simp [h1, h2]

theorem keysSorted_premarked (merged : List Nat) (init : List (Nat × NodePtr))
    (h : keysSorted init) :
    keysSorted (merged.foldl (fun m v => mapAssign m v NodePtr.null) init) := by
  induction merged generalizing init with
  | nil => exact h
  | cons v rest ih =>
    simp only [List.foldl_cons]
    exact ih _ (keysSorted_mapAssign _ _ h)

end Label
end CodeStubAssembler

namespace CodeStubAssembler
namespace Label

/-- After the first pass of `Bind` the entries of `variable_phis_` are the variables
that need a phi. -/
theorem markLoop_needsPhi (l : Label) (vs : List Variable.Impl) (hnn : noNullRecorded l) :
    ∃ phis1, markLoop l.variable_merges_ 0 vs l.variable_phis_ = Except.ok phis1 ∧
      (∀ w, mapFind phis1 w ≠ none ↔ needsPhi l vs w) ∧
      (keysSorted l.variable_phis_ → keysSorted phis1) := by
  obtain ⟨phis1, h1, h2, h3⟩ := markLoop_spec l.variable_merges_ vs 0 l.variable_phis_ hnn
  refine ⟨phis1, h1, ?_, h3⟩
  intro w
  rw [h2 w]
  unfold needsPhi
  by_cases hc : 0 ≤ w ∧ w < 0 + vs.length ∧ twoValues ((mapFind l.variable_merges_ w).getD [])
  · rw [if_pos hc]
    simp only [ne_eq, reduceCtorEq, not_false_eq_true, true_iff]
    exact Or.inr ⟨by omega, hc.2.2⟩
  · rw [if_neg hc]
    constructor
    · intro h; exact Or.inl h
    · rintro (h | ⟨h, h'⟩)
      · exact h
      · exact absurd ⟨Nat.zero_le _, by omega, h'⟩ hc

/-- `Bind` on an unbound label completes when every variable that needs a phi has a
recorded value for every merged edge. -/
theorem Bind_ok_of_complete (vs : List Variable.Impl) (l : Label) (ra : RawMachineAssembler)
    (hb : l.bound_ = false) (hnn : noNullRecorded l)
    (hc : ∀ w, needsPhi l vs w → recordedOnEveryEdge l w) :
    ∃ vs1 l1 ra1, Bind vs l ra = Except.ok (vs1, l1, ra1) := by
  obtain ⟨phis1, h1, h2, -⟩ := markLoop_needsPhi l vs hnn
  have hall : ∀ x ∈ phis1, ∃ vec, mapFind l.variable_merges_ x.1 = some vec ∧
      vec.length = l.merge_count_ := by
    intro x hx
    obtain ⟨b1, hb1⟩ := mapFind_of_mem (show (x.1, x.2) ∈ phis1 from hx)
    exact hc x.1 ((h2 x.1).mp (by rw [hb1]; simp))
  obtain ⟨phis2, ra2, h3⟩ :=
    createPhis_ok_of_complete vs l.variable_merges_ l.merge_count_ phis1 ra hall
  unfold Bind
  simp only [hb, Bool.false_eq_true, if_false, h1, h3]
  exact ⟨_, _, _, rfl⟩

/-- `Bind` on an unbound label fails with InconsistentMerge when some variable that
needs a phi lacks a recorded value for some merged edge. -/
theorem Bind_error_of_incomplete (vs : List Variable.Impl) (l : Label)
    (ra : RawMachineAssembler) (hb : l.bound_ = false) (hnn : noNullRecorded l) (w : Nat)
    (hw : needsPhi l vs w) (hc : ¬ recordedOnEveryEdge l w) :
    Bind vs l ra = Except.error Error.InconsistentMerge := by
  obtain ⟨phis1, h1, h2, -⟩ := markLoop_needsPhi l vs hnn
  have hne := (h2 w).mpr hw
  cases hf : mapFind phis1 w with
  | none => exact absurd hf hne
  | some x =>
    have h3 := createPhis_error_of_incomplete vs l.variable_merges_ l.merge_count_ phis1 ra
      (w, x) (mem_of_mapFind hf) hc
    unfold Bind
    simp only [hb, Bool.false_eq_true, if_false, h1, h3]

/-- What a completed `Bind` leaves. -/
theorem Bind_ok_spec {vs vs1 : List Variable.Impl} {l l1 : Label} {ra ra1 : RawMachineAssembler}
    (hnn : noNullRecorded l) (h : Bind vs l ra = Except.ok (vs1, l1, ra1)) :
    l.bound_ = false ∧ l1.bound_ = true ∧ l1.merge_count_ = l.merge_count_ ∧
    l1.variable_merges_ = l.variable_merges_ ∧
    (keysSorted l.variable_phis_ → keysSorted l1.variable_phis_) ∧
    (∃ ext, ra1.phis = ra.phis ++ ext ∧ ext.length = l1.variable_phis_.length) ∧
    (∀ w, ¬ needsPhi l vs w → mapFind l1.variable_phis_ w = none) ∧
    (∀ w, needsPhi l vs w →
      ∃ vec idx, mapFind l.variable_merges_ w = some vec ∧ vec.length = l.merge_count_ ∧
        mapFind l1.variable_phis_ w = some (NodePtr.phi idx) ∧ ra.phis.length ≤ idx ∧
        ra1.phis.get? idx = some { rep := repAt vs w, inputs := vec }) ∧
    (∀ w, valueAt vs1 w = if w < vs.length then boundValue l1 w else NodePtr.null) := by
  obtain ⟨phis1, h1, h2, h3⟩ := markLoop_needsPhi l vs hnn
  unfold Bind at h
  split at h
  · exact absurd h (by simp)
  · rename_i hb
    rw [h1] at h
    simp only at h
    split at h
    · exact absurd h (by simp)
    · rename_i phis2 ra2 hcp
      simp only [Except.ok.injEq, Prod.mk.injEq] at h
      obtain ⟨e1, e2, e3⟩ := h
      subst e1 e2 e3
      obtain ⟨c1, ⟨ext, c2, c3⟩, c4, c5, c6⟩ := createPhis_ok_spec hcp
      refine ⟨by simpa using hb, rfl, rfl, rfl, ?_, ⟨ext, c2, ?_⟩, ?_, ?_, ?_⟩
      · intro hs
        have := h3 hs
        unfold keysSorted at this ⊢
        have hm : List.Pairwise (fun a b => a < b) (phis2.map Prod.fst) := by
          rw [c1]
          exact List.pairwise_map.mpr this
        exact List.pairwise_map.mp hm
      · have := congrArg List.length c1
        simp only [List.length_map] at this
        simp only
        omega
      · intro w hw
        apply c5
        by_contra hne
        exact hw ((h2 w).mp hne)
      · intro w hw
        have hne := (h2 w).mpr hw
        cases hf : mapFind phis1 w with
        | none => exact absurd hf hne
        | some x =>
          obtain ⟨vec, idx, j1, j2, j3, j4, j5⟩ := c6 w x hf
          exact ⟨vec, idx, j1, j2, j3, j4, j5⟩
      · intro w
        rw [valueAt_rebindLoop]
        simp only [Nat.zero_add]
        by_cases hw : w < vs.length
        · rw [if_pos hw, if_pos hw]
          rfl
        · rw [if_neg hw, if_neg hw]

end Label
end CodeStubAssembler

namespace CodeStubAssembler

theorem nonNull_cons (a : NodePtr) (values : List NodePtr) :
    nonNull (a :: values) = nonNull [a] ++ nonNull values := by
  unfold nonNull
  by_cases h : a = NodePtr.null
  · simp [List.filter_cons, h]
  · simp [List.filter_cons, h]

theorem null_not_mem_nonNull (values : List NodePtr) : NodePtr.null ∉ nonNull values := by
  unfold nonNull
  intro h
  have := (List.mem_filter.mp h).2
  simp at this

theorem nonNull_eq_self_iff (values : List NodePtr) :
    nonNull values = values ↔ ∀ x ∈ values, x ≠ NodePtr.null := by
  unfold nonNull
  rw [List.filter_eq_self]
  simp

theorem nonNull_length_eq_iff (values : List NodePtr) :
    (nonNull values).length = values.length ↔ ∀ x ∈ values, x ≠ NodePtr.null := by
  unfold nonNull
  rw [List.filter_length_eq_length]
  simp

theorem boundOnEveryEdge_iff (edges : List (List Variable.Impl)) (w : Nat) :
    boundOnEveryEdge edges w ↔ ∀ x ∈ edgeValues edges w, x ≠ NodePtr.null := by
  unfold boundOnEveryEdge edgeValues
  simp

theorem edgeValues_length (edges : List (List Variable.Impl)) (w : Nat) :
    (edgeValues edges w).length = edges.length := by
  simp [edgeValues]

theorem getD_extendWith_none (more : List NodePtr) :
    (extendWith none more).getD [] = more := by
  unfold extendWith
  by_cases h : more = []
  · simp [h]
  · simp [h]

namespace Label

/-- What an unbound label looks like after a sequence of merge-edge calls. -/
theorem mergeEdges_unbound_cases (edges : List (List Variable.Impl)) (l : Label)
    (ra : RawMachineAssembler) (hb : l.bound_ = false) :
    mergeEdges edges l ra = Except.error Error.InconsistentMerge ∨
    ∃ l1, mergeEdges edges l ra = Except.ok (l1, ra) ∧ l1.bound_ = false ∧
      l1.merge_count_ = l.merge_count_ + edges.length ∧ l1.label_ = l.label_ ∧
      l1.variable_phis_ = l.variable_phis_ ∧
      ∀ w, mapFind l1.variable_merges_ w
        = extendWith (mapFind l.variable_merges_ w) (nonNull (edgeValues edges w)) := by
  induction edges generalizing l with
  | nil =>
    right
    refine ⟨l, rfl, hb, rfl, rfl, rfl, ?_⟩
    intro w
    simp [edgeValues, nonNull, extendWith]
  | cons e rest ih =>
    simp only [mergeEdges, MergeVariables]
    rcases mergeLoop_unbound_cases e 0 { l with merge_count_ := l.merge_count_ + 1 } ra hb
      with h | ⟨l1, h1, h2, h3, h4, h5, h6⟩
    · left
      rw [h]
    · rw [h1]
      simp only
      rcases ih l1 h2 with h | ⟨l2, g1, g2, g3, g4, g5, g6⟩
      · left; exact h
      · right
        refine ⟨l2, g1, g2, ?_, by rw [g4, h4], by rw [g5, h5], ?_⟩
        · rw [g3, h3]
          simp only [List.length_cons]
          omega
        · intro w
          rw [g6 w, h6 w, extendWith_extendWith, valueFrom_zero]
          have : edgeValues (e :: rest) w = valueAt e w :: edgeValues rest w := by
            simp [edgeValues]
          rw [this]
          conv_rhs => rw [nonNull_cons]

/-- A sequence of merge-edge calls into an unbound label completes when every
variable with an entry in `variable_phis_` has been recorded on every edge so far and
is bound on every edge to come. -/
theorem mergeEdges_unbound_ok (edges : List (List Variable.Impl)) (l : Label)
    (ra : RawMachineAssembler) (hb : l.bound_ = false)
    (hinv : ∀ w, mapFind l.variable_phis_ w ≠ none →
      ((mapFind l.variable_merges_ w).getD []).length = l.merge_count_)
    (hd : ∀ w, mapFind l.variable_phis_ w ≠ none → boundOnEveryEdge edges w) :
    mergeEdges edges l ra ≠ Except.error Error.InconsistentMerge := by
  induction edges generalizing l with
  | nil => simp [mergeEdges]
  | cons e rest ih =>
    simp only [mergeEdges, MergeVariables]
    have hok := mergeLoop_unbound_ok e 0 { l with merge_count_ := l.merge_count_ + 1 } ra hb
      (by
        intro w _ _
        unfold edgeCheck
        by_cases hp : mapFind l.variable_phis_ w = none
        · exact Or.inl hp
        · right
          have hv : valueAt e w ≠ NodePtr.null := hd w hp e (List.mem_cons_self _ _)
          rw [valueFrom_zero, if_neg hv]
          simp only
          rw [hinv w hp])
    rcases mergeLoop_unbound_cases e 0 { l with merge_count_ := l.merge_count_ + 1 } ra hb
      with h | ⟨l1, h1, h2, h3, h4, h5, h6⟩
    · exact absurd h hok
    · rw [h1]
      simp only
      apply ih l1 h2
      · intro w hp
        rw [h5] at hp
        have hv : valueAt e w ≠ NodePtr.null := hd w hp e (List.mem_cons_self _ _)
        rw [h6 w, valueFrom_zero, h3]
        unfold extendWith nonNull
        simp only [List.filter_cons, hv, ne_eq, not_false_eq_true, decide_True, if_true,
          List.filter_nil, reduceCtorEq, if_false, Option.getD_some, List.length_append,
          List.length_singleton]
        rw [hinv w hp]
      · intro w hp
        rw [h5] at hp
        intro x hx
        exact hd w hp x (List.mem_cons_of_mem _ hx)

theorem new_fields (merged : List Nat) (type : LabelType) :
    (new merged type).bound_ = false ∧ (new merged type).merge_count_ = 0 ∧
    (new merged type).variable_merges_ = [] ∧ keysSorted (new merged type).variable_phis_ ∧
    ∀ w, mapFind (new merged type).variable_phis_ w ≠ none ↔ w ∈ merged := by
  refine ⟨rfl, rfl, rfl, ?_, ?_⟩
  · exact keysSorted_premarked merged [] List.Pairwise.nil
  · intro w
    unfold new
    simp only [mapFind_premarked]
    by_cases h : w ∈ merged
    · simp [h]
    · simp [h, mapFind]

/-- The state of a fresh label after a completed sequence of merge-edge calls. -/
theorem mergeEdges_new_spec {merged : List Nat} {type : LabelType}
    {edges : List (List Variable.Impl)} {ra ra1 : RawMachineAssembler} {l : Label}
    (h : mergeEdges edges (new merged type) ra = Except.ok (l, ra1)) :
    ra1 = ra ∧ l.bound_ = false ∧ l.merge_count_ = edges.length ∧ keysSorted l.variable_phis_ ∧
    noNullRecorded l ∧
    (∀ w, (mapFind l.variable_merges_ w).getD [] = nonNull (edgeValues edges w)) ∧
    (∀ atBind w, needsPhi l atBind w ↔ requiresMerge merged edges atBind w) ∧
    (∀ w, recordedOnEveryEdge l w ↔ (edges ≠ [] ∧ boundOnEveryEdge edges w)) := by
  obtain ⟨n1, n2, n3, n4, n5⟩ := new_fields merged type
  rcases mergeEdges_unbound_cases edges (new merged type) ra n1 with h1 | ⟨l1, h1, h2, h3, h4, h5, h6⟩
  · rw [h1] at h
    exact absurd h (by simp)
  · rw [h1] at h
    simp only [Except.ok.injEq, Prod.mk.injEq] at h
    obtain ⟨e1, e2⟩ := h
    subst e1 e2
    have hfind : ∀ w, mapFind l1.variable_merges_ w
        = extendWith none (nonNull (edgeValues edges w)) := by
      intro w
      rw [h6 w, n3]
      rfl
    have hgetD : ∀ w, (mapFind l1.variable_merges_ w).getD [] = nonNull (edgeValues edges w) := by
      intro w
      rw [hfind w, getD_extendWith_none]
    refine ⟨rfl, h2, by rw [h3, n2]; omega, by rw [h5]; exact n4, ?_, hgetD, ?_, ?_⟩
    · intro w vec hv
      have := hgetD w
      rw [hv] at this
      simp only [Option.getD_some] at this
      rw [this]
      exact null_not_mem_nonNull _
    · intro atBind w
      unfold needsPhi requiresMerge
      rw [h5, n5 w, hgetD w]
    · intro w
      unfold recordedOnEveryEdge
      rw [hfind w, h3, n2, boundOnEveryEdge_iff, ← nonNull_length_eq_iff, edgeValues_length]
      unfold extendWith
      constructor
      · rintro ⟨vec, hv, hl⟩
        by_cases hnil : nonNull (edgeValues edges w) = []
        · rw [if_pos hnil] at hv
          exact absurd hv (by simp)
        · rw [if_neg hnil] at hv
          simp only [Option.getD_none, List.nil_append, Option.some.injEq] at hv
          rw [hv]
          refine ⟨?_, by omega⟩
          intro he
          apply hnil
          rw [he]
          rfl
      · rintro ⟨hne, hl⟩
        have hnil : nonNull (edgeValues edges w) ≠ [] := by
          intro he
          rw [he] at hl
          apply hne
          exact List.length_eq_zero.mp hl.symm
        rw [if_neg hnil]
        exact ⟨_, rfl, by simp only [Option.getD_none, List.nil_append]; omega⟩

end Label
end CodeStubAssembler

namespace CodeStubAssembler

/-! ## Variables and labels -/

namespace Label

theorem mergeVariable_ok_label {l l1 : Label} {ra ra1 : RawMachineAssembler} {var : Nat}
    {impl : Variable.Impl} (h : mergeVariable l ra var impl = Except.ok (l1, ra1)) :
    l1 = { l with variable_merges_ := (recordEdge l.variable_merges_ var impl.value_).1 } := by
  unfold mergeVariable at h
  simp only at h
  split at h
  · exact absurd h (by simp)
  · split at h
    · split at h
      · split at h
        · exact absurd h (by simp)
        · split at h
          · exact absurd h (by simp)
          · simp only [Except.ok.injEq, Prod.mk.injEq] at h
            exact h.1.symm
      · split at h
        · split at h
          · simp only [Except.ok.injEq, Prod.mk.injEq] at h
            exact h.1.symm
          · exact absurd h (by simp)
        · simp only [Except.ok.injEq, Prod.mk.injEq] at h
          exact h.1.symm
    · simp only [Except.ok.injEq, Prod.mk.injEq] at h
      exact h.1.symm

theorem mergeLoop_ok_fields {vs : List Variable.Impl} {var : Nat} {l l1 : Label}
    {ra ra1 : RawMachineAssembler} (h : mergeLoop var vs l ra = Except.ok (l1, ra1)) :
    l1.bound_ = l.bound_ ∧ l1.merge_count_ = l.merge_count_ ∧ l1.label_ = l.label_ ∧
      l1.variable_phis_ = l.variable_phis_ := by
  induction vs generalizing var l ra with
  | nil =>
    simp only [mergeLoop, Except.ok.injEq, Prod.mk.injEq] at h
    rw [← h.1]
    exact ⟨rfl, rfl, rfl, rfl⟩
  | cons impl rest ih =>
    simp only [mergeLoop] at h
    split at h
    · exact absurd h (by simp)
    · rename_i l2 ra2 hstep
      have h2 := mergeVariable_ok_label hstep
      have h3 := ih h
      rw [h2] at h3
      exact h3

theorem MergeVariables_ok_fields {vs : List Variable.Impl} {l l1 : Label}
    {ra ra1 : RawMachineAssembler} (h : MergeVariables vs l ra = Except.ok (l1, ra1)) :
    l1.bound_ = l.bound_ ∧ l1.merge_count_ = l.merge_count_ + 1 ∧ l1.label_ = l.label_ ∧
      l1.variable_phis_ = l.variable_phis_ :=
  mergeLoop_ok_fields h

theorem mergeEdges_ok_fields {edges : List (List Variable.Impl)} {l l1 : Label}
    {ra ra1 : RawMachineAssembler} (h : mergeEdges edges l ra = Except.ok (l1, ra1)) :
    l1.bound_ = l.bound_ ∧ l1.merge_count_ = l.merge_count_ + edges.length ∧
      l1.label_ = l.label_ ∧ l1.variable_phis_ = l.variable_phis_ := by
  induction edges generalizing l ra with
  | nil =>
    simp only [mergeEdges, Except.ok.injEq, Prod.mk.injEq] at h
    rw [← h.1]
    exact ⟨rfl, rfl, rfl, rfl⟩
  | cons e rest ih =>
    simp only [mergeEdges] at h
    split at h
    · exact absurd h (by simp)
    · rename_i l2 ra2 hstep
      obtain ⟨a1, a2, a3, a4⟩ := MergeVariables_ok_fields hstep
      obtain ⟨b1, b2, b3, b4⟩ := ih h
      refine ⟨by rw [b1, a1], ?_, by rw [b3, a3], by rw [b4, a4]⟩
      rw [b2, a2, List.length_cons]
      omega

theorem Bind_ok_bound {vs vs1 : List Variable.Impl} {l l1 : Label}
    {ra ra1 : RawMachineAssembler} (h : Bind vs l ra = Except.ok (vs1, l1, ra1)) :
    l.bound_ = false ∧ l1.bound_ = true ∧ l1.merge_count_ = l.merge_count_ ∧
      l1.variable_merges_ = l.variable_merges_ := by
  unfold Bind at h
  split at h
  · exact absurd h (by simp)
  · rename_i hb
    split at h
    · exact absurd h (by simp)
    · split at h
      · exact absurd h (by simp)
      · simp only [Except.ok.injEq, Prod.mk.injEq] at h
        obtain ⟨-, h2, -⟩ := h
        rw [← h2]
        exact ⟨by simpa using hb, rfl, rfl, rfl⟩

/-- Claim C6: `Label::Bind` on a label that is already bound fails with DoubleBind;
a successful `Bind` sets the bound flag, and after it, whatever edges are merged
later, every further `Bind` of that label fails with DoubleBind. -/
theorem Bind_twice_fails (variables_ : List Variable.Impl) (l : Label) (ra : RawMachineAssembler) :
    (l.bound_ = true → Bind variables_ l ra = Except.error Error.DoubleBind) ∧
    (∀ variables1 l1 ra1, Bind variables_ l ra = Except.ok (variables1, l1, ra1) →
      l1.bound_ = true ∧
      ∀ edges ra2 l2 ra3, mergeEdges edges l1 ra2 = Except.ok (l2, ra3) →
        ∀ variables2, Bind variables2 l2 ra3 = Except.error Error.DoubleBind) := by
  refine ⟨fun hb => by unfold Bind; rw [if_pos hb], ?_⟩
  intro variables1 l1 ra1 h
  have hb := (Bind_ok_bound h).2.1
  refine ⟨hb, ?_⟩
  intro edges ra2 l2 ra3 hm variables2
  have := (mergeEdges_ok_fields hm).1
  unfold Bind
  rw [if_pos (by rw [this, hb])]

theorem Bind_twice_fails_witness :
    (∃ variables1 l1 ra1,
      Bind (oneVariable (NodePtr.node 1)) (new [] LabelType.kNonDeferred) noPhis
        = Except.ok (variables1, l1, ra1) ∧
      l1.bound_ = true ∧
      Bind (oneVariable (NodePtr.node 1)) l1 ra1 = Except.error Error.DoubleBind) ∧
    Bind (oneVariable (NodePtr.node 1)) labelWithPhi graphWithPhi
      = Except.error Error.DoubleBind := by
  have hthm := Bind_twice_fails (oneVariable (NodePtr.node 1)) (new [] LabelType.kNonDeferred)
    noPhis
  have hsnd := Bind_twice_fails (oneVariable (NodePtr.node 1)) labelWithPhi graphWithPhi
  refine ⟨⟨_, _, _, rfl, ?_, ?_⟩, hsnd.1 rfl⟩
  · exact (hthm.2 _ _ _ rfl).1
  · exact (hthm.2 _ _ _ rfl).2 [] _ _ _ rfl _

end Label

/-- Claim C10: `Variable::value` fails exactly when the current value is null, with
UnboundVariable, and otherwise returns the current value; a freshly created
variable is unbound; after `Variable::Bind(v)` with v not null, `value` returns v
whatever was bound before. -/
theorem Variable.value_fails_iff_unbound (impl_ : Variable.Impl) (v : NodePtr)
    (hv : v ≠ NodePtr.null) (variables_ : List Variable.Impl) (rep : MachineRepresentation) :
    ((∃ e, Variable.value impl_ = Except.error e) ↔ impl_.value_ = NodePtr.null) ∧
    (impl_.value_ = NodePtr.null → Variable.value impl_ = Except.error Error.UnboundVariable) ∧
    (impl_.value_ ≠ NodePtr.null → Variable.value impl_ = Except.ok impl_.value_) ∧
    (Variable.IsBound impl_ = true ↔ impl_.value_ ≠ NodePtr.null) ∧
    ((Variable.new variables_ rep).2.get? (Variable.new variables_ rep).1
        = some { value_ := NodePtr.null, rep_ := rep } ∧
      Variable.IsBound { value_ := NodePtr.null, rep_ := rep } = false ∧
      Variable.value { value_ := NodePtr.null, rep_ := rep }
        = Except.error Error.UnboundVariable) ∧
    Variable.value (Variable.Bind impl_ v) = Except.ok v ∧
    Variable.IsBound (Variable.Bind impl_ v) = true := by
  refine ⟨?_, ?_, ?_, ?_, ⟨?_, ?_, ?_⟩, ?_, ?_⟩
  · unfold Variable.value
    constructor
    · rintro ⟨e, he⟩
      by_contra hne
      rw [if_neg hne] at he
      exact absurd he (by simp)
    · intro h
      exact ⟨Error.UnboundVariable, by rw [if_pos h]⟩
  · intro h
    unfold Variable.value
    rw [if_pos h]
  · intro h
    unfold Variable.value
    rw [if_neg h]
  · unfold Variable.IsBound
    simp
  · simp [Variable.new]
  · simp [Variable.IsBound]
  · simp [Variable.value]
  · unfold Variable.value Variable.Bind
    simp [hv]
  · unfold Variable.IsBound Variable.Bind
    simp [hv]

theorem Variable.value_fails_iff_unbound_witness :
    Variable.value (Variable.Bind { value_ := NodePtr.node 3, rep_ := 7 } (NodePtr.node 5))
      = Except.ok (NodePtr.node 5) ∧
    Variable.value { value_ := NodePtr.null, rep_ := 7 } = Except.error Error.UnboundVariable :=
  ⟨(Variable.value_fails_iff_unbound { value_ := NodePtr.node 3, rep_ := 7 } (NodePtr.node 5)
      (by decide) [] 7).2.2.2.2.2.1,
   (Variable.value_fails_iff_unbound { value_ := NodePtr.null, rep_ := 7 } (NodePtr.node 5)
      (by decide) [] 7).2.1 rfl⟩

end CodeStubAssembler

namespace CodeStubAssembler

theorem filter_key_of_sorted {m : List (Nat × NodePtr)} {v : Nat} {x : NodePtr}
    (hs : keysSorted m) (hf : mapFind m v = some x) :
    m.filter (fun entry => decide (entry.1 = v)) = [(v, x)] := by
  induction m with
  | nil => simp [mapFind] at hf
  | cons hd tl ih =>
    obtain ⟨k, b⟩ := hd
    obtain ⟨h1, h2⟩ := List.pairwise_cons.mp hs
    by_cases hk : k = v
    · subst hk
      simp only [mapFind, if_true, Option.some.injEq] at hf
      subst hf
      have : tl.filter (fun entry => decide (entry.1 = k)) = [] := by
        rw [List.filter_eq_nil_iff]
        intro a ha
        have := h1 a ha
        simp only at this
        simp only [decide_eq_true_eq]
        omega
      simp [List.filter_cons, this]
    · simp only [mapFind, hk, if_false] at hf
      simp only [List.filter_cons, hk, decide_False, Bool.false_eq_true, if_false]
      exact ih h2 hf

theorem filter_key_of_none {m : List (Nat × NodePtr)} {v : Nat} (hf : mapFind m v = none) :
    m.filter (fun entry => decide (entry.1 = v)) = [] := by
  rw [List.filter_eq_nil_iff]
  intro a ha
  simp only [decide_eq_true_eq]
  intro e
  obtain ⟨b1, hb1⟩ := mapFind_of_mem (show (a.1, a.2) ∈ m from ha)
  rw [e, hf] at hb1
  exact absurd hb1 (by simp)

theorem getLastD_of_all_eq {vec : List NodePtr} {V d : NodePtr} (hne : vec ≠ [])
    (h : ∀ x ∈ vec, x = V) : vec.getLastD d = V := by
  cases vec with
  | nil => exact absurd rfl hne
  | cons a rest =>
    simp only [List.getLastD_cons]
    rw [List.getLastD_eq_getLast?]
    cases hl : rest.getLast? with
    | none => exact h a (List.mem_cons_self _ _)
    | some y =>
      simp only [Option.getD_some]
      exact h y (List.mem_cons_of_mem _ (List.mem_of_getLast?_eq_some hl))

namespace Label

/-- The merge-edge calls into a fresh label and the `Bind` after them complete
exactly when every variable that requires a merge is bound on every edge, of which
there is at least one. -/
theorem mergeThenBind_new_ok_iff (merged : List Nat) (type : LabelType)
    (edges : List (List Variable.Impl)) (atBind : List Variable.Impl)
    (ra : RawMachineAssembler) :
    (∃ vs1 l1 ra1, mergeThenBind edges atBind (new merged type) ra = Except.ok (vs1, l1, ra1)) ↔
      ∀ w, requiresMerge merged edges atBind w → edges ≠ [] ∧ boundOnEveryEdge edges w := by
  obtain ⟨n1, n2, n3, n4, n5⟩ := new_fields merged type
  constructor
  · rintro ⟨vs1, l1, ra1, h⟩ w hw
    unfold mergeThenBind at h
    split at h
    · exact absurd h (by simp)
    · rename_i l ra2 hm
      obtain ⟨s1, s2, s3, s4, s5, s6, s7, s8⟩ := mergeEdges_new_spec hm
      by_contra hc
      have := Bind_error_of_incomplete atBind l ra2 s2 s5 w ((s7 atBind w).mpr hw)
        (fun e => hc ((s8 w).mp e))
      rw [this] at h
      exact absurd h (by simp)
  · intro hd
    have hok := mergeEdges_unbound_ok edges (new merged type) ra n1
      (by intro w _; rw [n3, n2]; rfl)
      (by intro w hp; exact (hd w (Or.inl ((n5 w).mp hp))).2)
    rcases mergeEdges_unbound_cases edges (new merged type) ra n1 with h | ⟨l, h, -⟩
    · exact absurd h hok
    · obtain ⟨s1, s2, s3, s4, s5, s6, s7, s8⟩ := mergeEdges_new_spec h
      obtain ⟨vs1, l1, ra1, hbind⟩ := Bind_ok_of_complete atBind l ra s2 s5
        (fun w hw => (s8 w).mpr (hd w ((s7 atBind w).mp hw)))
      refine ⟨vs1, l1, ra1, ?_⟩
      unfold mergeThenBind
      rw [h]
      exact hbind

/-- The merge-edge calls into a fresh label and the `Bind` after them fail only with
InconsistentMerge. -/
theorem mergeThenBind_new_error (merged : List Nat) (type : LabelType)
    (edges : List (List Variable.Impl)) (atBind : List Variable.Impl)
    (ra : RawMachineAssembler) (w : Nat) (hw : requiresMerge merged edges atBind w)
    (hc : ¬ (edges ≠ [] ∧ boundOnEveryEdge edges w)) :
    mergeThenBind edges atBind (new merged type) ra = Except.error Error.InconsistentMerge := by
  obtain ⟨n1, -⟩ := new_fields merged type
  unfold mergeThenBind
  rcases mergeEdges_unbound_cases edges (new merged type) ra n1 with h | ⟨l, h, -⟩
  · rw [h]
  · rw [h]
    obtain ⟨s1, s2, s3, s4, s5, s6, s7, s8⟩ := mergeEdges_new_spec h
    exact Bind_error_of_incomplete atBind l ra s2 s5 w ((s7 atBind w).mpr hw)
      (fun e => hc ((s8 w).mp e))

/-- What the merge-edge calls into a fresh label and the `Bind` after them leave. -/
theorem mergeThenBind_new_spec {merged : List Nat} {type : LabelType}
    {edges : List (List Variable.Impl)} {atBind vs1 : List Variable.Impl}
    {ra ra1 : RawMachineAssembler} {l1 : Label}
    (h : mergeThenBind edges atBind (new merged type) ra = Except.ok (vs1, l1, ra1)) :
    l1.bound_ = true ∧ l1.merge_count_ = edges.length ∧ keysSorted l1.variable_phis_ ∧
    (∃ ext, ra1.phis = ra.phis ++ ext ∧ ext.length = l1.variable_phis_.length) ∧
    (∀ w, (mapFind l1.variable_merges_ w).getD [] = nonNull (edgeValues edges w)) ∧
    (∀ w, ¬ requiresMerge merged edges atBind w → mapFind l1.variable_phis_ w = none) ∧
    (∀ w, requiresMerge merged edges atBind w →
      edges ≠ [] ∧ boundOnEveryEdge edges w ∧
      ∃ idx, mapFind l1.variable_phis_ w = some (NodePtr.phi idx) ∧ ra.phis.length ≤ idx ∧
        ra1.phis.get? idx = some { rep := repAt atBind w, inputs := edgeValues edges w }) ∧
    (∀ w, valueAt vs1 w = if w < atBind.length then boundValue l1 w else NodePtr.null) := by
  unfold mergeThenBind at h
  split at h
  · exact absurd h (by simp)
  · rename_i l ra2 hm
    obtain ⟨s1, s2, s3, s4, s5, s6, s7, s8⟩ := mergeEdges_new_spec hm
    subst s1
    obtain ⟨b1, b2, b3, b4, b5, b6, b7, b8, b9⟩ := Bind_ok_spec s5 h
    refine ⟨b2, by rw [b3, s3], b5 s4, b6, ?_, ?_, ?_, b9⟩
    · intro w
      rw [b4]
      exact s6 w
    · intro w hw
      exact b7 w (fun e => hw ((s7 atBind w).mp e))
    · intro w hw
      obtain ⟨vec, idx, c1, c2, c3, c4, c5⟩ := b8 w ((s7 atBind w).mpr hw)
      have hrec : recordedOnEveryEdge l w := ⟨vec, c1, c2⟩
      obtain ⟨hne, hbd⟩ := (s8 w).mp hrec
      refine ⟨hne, hbd, idx, c3, c4, ?_⟩
      have hvec : vec = edgeValues edges w := by
        have := s6 w
        rw [c1] at this
        simp only [Option.getD_some] at this
        rw [this]
        exact (nonNull_eq_self_iff _).mpr ((boundOnEveryEdge_iff edges w).mp hbd)
      rw [c5, hvec]

end Label
end CodeStubAssembler

namespace RawMachineAssembler

theorem AppendPhiInput_ok_iff (ra : RawMachineAssembler) (p node : NodePtr) :
    (∃ ra1, ra.AppendPhiInput p node = Except.ok ra1) ↔ ∃ k, p = NodePtr.phi k ∧ k < ra.phis.length := by
  unfold AppendPhiInput
  constructor
  · rintro ⟨ra1, h⟩
    split at h
    · rename_i k
      split at h
      · rename_i q hq
        refine ⟨k, rfl, ?_⟩
        by_contra hlt
        rw [List.get?_eq_none.mpr (by omega)] at hq
        exact absurd hq (by simp)
      · exact absurd h (by simp)
    · exact absurd h (by simp)
  · rintro ⟨k, rfl, hk⟩
    simp only
    rw [List.get?_eq_get hk]
    exact ⟨_, rfl⟩

theorem AppendPhiInput_error (ra : RawMachineAssembler) (p node : NodePtr) (e : Error)
    (h : ra.AppendPhiInput p node = Except.error e) :
    ¬ ∃ k, p = NodePtr.phi k ∧ k < ra.phis.length := by
  intro hk
  obtain ⟨ra1, h1⟩ := (AppendPhiInput_ok_iff ra p node).mpr hk
  rw [h1] at h
  exact absurd h (by simp)

theorem AppendPhiInput_spec {ra ra1 : RawMachineAssembler} {j : Nat} {node : NodePtr}
    (h : ra.AppendPhiInput (NodePtr.phi j) node = Except.ok ra1) :
    ra1.phis.length = ra.phis.length ∧
    ∀ k, ra1.phiInputs (NodePtr.phi k)
      = (ra.phiInputs (NodePtr.phi k)).map (fun L => L ++ if k = j then [node] else []) := by
  unfold AppendPhiInput at h
  simp only at h
  split at h
  · rename_i q hq
    simp only [Except.ok.injEq] at h
    subst h
    refine ⟨by simp, ?_⟩
    intro k
    unfold phiInputs
    simp only [List.get?_eq_getElem?] at hq ⊢
    by_cases hkj : k = j
    · subst hkj
      have hlt : k < ra.phis.length := by
        by_contra hlt
        rw [List.getElem?_eq_none (by omega)] at hq
        exact absurd hq (by simp)
      rw [List.getElem?_set_self hlt, hq]
      simp
    · rw [List.getElem?_set_ne (Ne.symm hkj)]
      cases ra.phis[k]? <;> simp [hkj]
  · exact absurd h (by simp)

end RawMachineAssembler

namespace CodeStubAssembler
namespace Label

/-- The loop body of `MergeVariables` on a bound label whose phis are in the graph:
it completes exactly when the assertions hold for the variable, and it fails with
InconsistentMerge otherwise. -/
theorem mergeVariable_bound (l : Label) (ra : RawMachineAssembler) (w : Nat)
    (impl : Variable.Impl) (hb : l.bound_ = true) (hin : phisInGraph l ra) :
    (boundCheck l w impl.value_ →
      ∃ ra1, mergeVariable l ra w impl
          = Except.ok
            ({ l with variable_merges_ := (recordEdge l.variable_merges_ w impl.value_).1 }, ra1) ∧
        ra1.phis.length = ra.phis.length ∧
        ∀ k, ra1.phiInputs (NodePtr.phi k)
          = (ra.phiInputs (NodePtr.phi k)).map
              (fun L => L ++ if mapFind l.variable_phis_ w = some (NodePtr.phi k)
                then [impl.value_] else [])) ∧
    (¬ boundCheck l w impl.value_ →
      mergeVariable l ra w impl = Except.error Error.InconsistentMerge) := by
  unfold boundCheck edgeCheck sameAsRecorded mergeVariable
  simp only [recordEdge_count, recordEdge_find, if_true, hb]
  cases hf : mapFind l.variable_phis_ w with
  | none =>
    simp only [Option.isNone_none, true_or, not_true_eq_false, if_false, true_and, forall_const,
      reduceCtorEq]
    cases hm : extendWith (mapFind l.variable_merges_ w) (nonNull [impl.value_]) with
    | none =>
      simp only [Option.getD_none, List.not_mem_nil, false_implies, implies_true, not_true_eq_false]
      refine ⟨fun _ => ⟨ra, rfl, rfl, ?_⟩, trivial⟩
      intro k
      cases ra.phiInputs (NodePtr.phi k) <;> simp
    | some vec =>
      simp only [Option.getD_some]
      by_cases hall : ∀ e ∈ vec, impl.value_ = e
      · have : vec.all (fun e => decide (impl.value_ = e)) = true := by
          rw [List.all_eq_true]
          intro x hx
          simpa using hall x hx
        simp only [this, if_true]
        refine ⟨fun _ => ⟨ra, rfl, rfl, ?_⟩, fun h => absurd hall h⟩
        intro k
        cases ra.phiInputs (NodePtr.phi k) <;> simp
      · have : ¬ vec.all (fun e => decide (impl.value_ = e)) = true := by
          rw [List.all_eq_true]
          intro h
          apply hall
          intro x hx
          simpa using h x hx
        simp only [this, if_false]
        exact ⟨fun h => absurd h hall, fun _ => rfl⟩
  | some p =>
    obtain ⟨j, rfl, hj⟩ := hin w p hf
    simp only [Option.isNone_some, Bool.false_eq_true, false_or, reduceCtorEq, false_implies,
      and_true, if_false]
    by_cases hc : (if impl.value_ = NodePtr.null then 0
        else ((mapFind l.variable_merges_ w).getD []).length + 1) = l.merge_count_
    · simp only [hc, not_true_eq_false, if_false]
      obtain ⟨ra1, h1⟩ := (RawMachineAssembler.AppendPhiInput_ok_iff ra (NodePtr.phi j)
        impl.value_).mpr ⟨j, rfl, hj⟩
      rw [h1]
      simp only
      obtain ⟨s1, s2⟩ := RawMachineAssembler.AppendPhiInput_spec h1
      refine ⟨fun _ => ⟨ra1, rfl, s1, ?_⟩, fun h => h.elim⟩
      intro k
      rw [s2 k]
      by_cases hkj : k = j
      · subst hkj
        simp
      · have : ¬ j = k := fun e => hkj e.symm
        simp [hkj, this]
    · simp only [hc, not_false_eq_true, if_true]
      exact ⟨fun h => h.elim, fun _ => trivial⟩

end Label
end CodeStubAssembler

namespace CodeStubAssembler
namespace Label

theorem boundCheck_recordEdge (l : Label) (var w : Nat) (node node1 : NodePtr) (hne : w ≠ var) :
    boundCheck { l with variable_merges_ := (recordEdge l.variable_merges_ var node1).1 } w node
      ↔ boundCheck l w node := by
  unfold boundCheck edgeCheck sameAsRecorded
  simp only [recordEdge_find, if_neg hne]

theorem phisInGraph_congr {l l1 : Label} {ra ra1 : RawMachineAssembler}
    (hp : l1.variable_phis_ = l.variable_phis_) (hlen : ra1.phis.length = ra.phis.length)
    (h : phisInGraph l ra) : phisInGraph l1 ra1 := by
  intro w p hw
  rw [hp] at hw
  obtain ⟨k, hk, hlt⟩ := h w p hw
  exact ⟨k, hk, by omega⟩

/-- The loop of `MergeVariables` on a bound label whose phis are in the graph
completes when every registered variable passes its assertions, and it then extends
each phi by the values of the variables the phi belongs to. -/
theorem mergeLoop_bound_ok (vs : List Variable.Impl) (var : Nat) (l : Label)
    (ra : RawMachineAssembler) (hb : l.bound_ = true) (hin : phisInGraph l ra)
    (hc : ∀ w, var ≤ w → w < var + vs.length → boundCheck l w (valueFrom var vs w)) :
    ∃ l1 ra1, mergeLoop var vs l ra = Except.ok (l1, ra1) ∧
      ra1.phis.length = ra.phis.length ∧
      ∀ k, ra1.phiInputs (NodePtr.phi k)
        = (ra.phiInputs (NodePtr.phi k)).map
            (fun L => L ++ appendedInputs l.variable_phis_ k var vs) := by
  induction vs generalizing var l ra with
  | nil =>
    refine ⟨l, ra, rfl, rfl, ?_⟩
    intro k
    cases ra.phiInputs (NodePtr.phi k) <;> simp [appendedInputs]
  | cons impl rest ih =>
    have h0 := hc var (le_refl _) (by simp)
    rw [valueFrom_cons, if_pos rfl] at h0
    obtain ⟨ra1, h1, h2, h3⟩ := (mergeVariable_bound l ra var impl hb hin).1 h0
    have hin1 : phisInGraph
        { l with variable_merges_ := (recordEdge l.variable_merges_ var impl.value_).1 } ra1 :=
      phisInGraph_congr rfl h2 hin
    obtain ⟨l2, ra2, g1, g2, g3⟩ := ih (var + 1)
      { l with variable_merges_ := (recordEdge l.variable_merges_ var impl.value_).1 } ra1 hb hin1
      (by
        intro w hw1 hw2
        have hne : w ≠ var := by omega
        rw [boundCheck_recordEdge l var w _ _ hne]
        have := hc w (by omega) (by simp only [List.length_cons]; omega)
        rw [valueFrom_cons, if_neg hne] at this
        exact this)
    refine ⟨l2, ra2, ?_, by omega, ?_⟩
    · simp only [mergeLoop, h1]
      exact g1
    · intro k
      rw [g3 k, h3 k]
      cases ra.phiInputs (NodePtr.phi k) with
      | none => rfl
      | some L => simp [appendedInputs, List.append_assoc]

/-- The loop of `MergeVariables` on a bound label whose phis are in the graph fails
with InconsistentMerge when some registered variable does not pass its assertions. -/
theorem mergeLoop_bound_error (vs : List Variable.Impl) (var : Nat) (l : Label)
    (ra : RawMachineAssembler) (hb : l.bound_ = true) (hin : phisInGraph l ra) (w : Nat)
    (hw1 : var ≤ w) (hw2 : w < var + vs.length) (hc : ¬ boundCheck l w (valueFrom var vs w)) :
    mergeLoop var vs l ra = Except.error Error.InconsistentMerge := by
  induction vs generalizing var l ra with
  | nil => simp at hw2; omega
  | cons impl rest ih =>
    by_cases h0 : boundCheck l var impl.value_
    · obtain ⟨ra1, h1, h2, h3⟩ := (mergeVariable_bound l ra var impl hb hin).1 h0
      have hne : w ≠ var := by
        intro e
        subst e
        rw [valueFrom_cons, if_pos rfl] at hc
        exact hc h0
      simp only [mergeLoop, h1]
      refine ih (var + 1)
        { l with variable_merges_ := (recordEdge l.variable_merges_ var impl.value_).1 } ra1 hb
        (phisInGraph_congr rfl h2 hin) (by omega)
        (by simp only [List.length_cons] at hw2; omega) ?_
      rw [boundCheck_recordEdge l var w _ _ hne]
      rw [valueFrom_cons, if_neg hne] at hc
      exact hc
    · simp only [mergeLoop, (mergeVariable_bound l ra var impl hb hin).2 h0]

theorem appendedInputs_nil_of_absent (phis : List (Nat × NodePtr)) (k : Nat)
    (vs : List Variable.Impl) (var : Nat)
    (h : ∀ u, var ≤ u → u < var + vs.length → mapFind phis u ≠ some (NodePtr.phi k)) :
    appendedInputs phis k var vs = [] := by
  induction vs generalizing var with
  | nil => rfl
  | cons impl rest ih =>
    unfold appendedInputs
    rw [if_neg (h var (le_refl _) (by simp))]
    rw [ih (var + 1) (fun u h1 h2 => h u (by omega) (by simp only [List.length_cons]; omega))]
    rfl

/-- With different phis for different variables, the loop of `MergeVariables`
appends to the phi of a variable the current value of that variable and nothing
else. -/
theorem appendedInputs_of_distinct (l : Label) (k w : Nat) (vs : List Variable.Impl)
    (var : Nat) (hd : phisDistinct l) (hw : mapFind l.variable_phis_ w = some (NodePtr.phi k)) :
    appendedInputs l.variable_phis_ k var vs
      = if var ≤ w ∧ w < var + vs.length then [valueFrom var vs w] else [] := by
  induction vs generalizing var with
  | nil =>
    have : ¬ (var ≤ w ∧ w < var + ([] : List Variable.Impl).length) := by
      simp only [List.length_nil]; omega
    rw [if_neg this]
    rfl
  | cons impl rest ih =>
    unfold appendedInputs
    rw [valueFrom_cons]
    by_cases hwv : w = var
    · subst hwv
      rw [if_pos hw, if_pos ⟨le_refl _, by simp⟩, if_pos rfl]
      rw [appendedInputs_nil_of_absent]
      · rfl
      · intro u hu1 _
        exact hd w u _ (by omega) hw
    · have hvar : mapFind l.variable_phis_ var ≠ some (NodePtr.phi k) := hd w var _ hwv hw
      rw [if_neg hvar, ih (var + 1), if_neg hwv]
      simp only [List.nil_append, List.length_cons]
      by_cases hr : var + 1 ≤ w ∧ w < var + 1 + rest.length
      · rw [if_pos hr, if_pos ⟨by omega, by omega⟩]
      · rw [if_neg hr, if_neg (by omega)]

/-- A merge-edge call into a bound label whose phis are in the graph completes
exactly when every registered variable passes its assertions; it fails only with
InconsistentMerge; and when it completes it leaves `variable_phis_` and the number of
phi nodes alone and extends each phi by the values of the variables it belongs to. -/
theorem MergeVariables_bound_spec (vs : List Variable.Impl) (l : Label)
    (ra : RawMachineAssembler) (hb : l.bound_ = true) (hin : phisInGraph l ra) :
    ((∃ l1 ra1, MergeVariables vs l ra = Except.ok (l1, ra1)) ↔
      ∀ w, w < vs.length →
        boundCheck { l with merge_count_ := l.merge_count_ + 1 } w (valueAt vs w)) ∧
    ((¬ ∀ w, w < vs.length →
        boundCheck { l with merge_count_ := l.merge_count_ + 1 } w (valueAt vs w)) →
      MergeVariables vs l ra = Except.error Error.InconsistentMerge) ∧
    (∀ l1 ra1, MergeVariables vs l ra = Except.ok (l1, ra1) →
      l1.bound_ = true ∧ l1.merge_count_ = l.merge_count_ + 1 ∧
      l1.variable_phis_ = l.variable_phis_ ∧ ra1.phis.length = ra.phis.length ∧
      ∀ k, ra1.phiInputs (NodePtr.phi k)
        = (ra.phiInputs (NodePtr.phi k)).map
            (fun L => L ++ appendedInputs l.variable_phis_ k 0 vs)) := by
  have herr : (¬ ∀ w, w < vs.length →
        boundCheck { l with merge_count_ := l.merge_count_ + 1 } w (valueAt vs w)) →
      MergeVariables vs l ra = Except.error Error.InconsistentMerge := by
    intro hn
    push_neg at hn
    obtain ⟨w, hw, hc⟩ := hn
    unfold MergeVariables
    refine mergeLoop_bound_error vs 0 { l with merge_count_ := l.merge_count_ + 1 } ra hb hin w
      (Nat.zero_le _) (by omega) ?_
    rw [valueFrom_zero]
    exact hc
  have hok : (∀ w, w < vs.length →
        boundCheck { l with merge_count_ := l.merge_count_ + 1 } w (valueAt vs w)) →
      ∃ l1 ra1, MergeVariables vs l ra = Except.ok (l1, ra1) ∧
        ra1.phis.length = ra.phis.length ∧
        ∀ k, ra1.phiInputs (NodePtr.phi k)
          = (ra.phiInputs (NodePtr.phi k)).map
              (fun L => L ++ appendedInputs l.variable_phis_ k 0 vs) := by
    intro hc
    unfold MergeVariables
    exact mergeLoop_bound_ok vs 0 { l with merge_count_ := l.merge_count_ + 1 } ra hb hin
      (by
        intro w _ hw
        rw [valueFrom_zero]
        exact hc w (by omega))
  have hchecks : ∀ l1 ra1, MergeVariables vs l ra = Except.ok (l1, ra1) →
      ∀ w, w < vs.length →
        boundCheck { l with merge_count_ := l.merge_count_ + 1 } w (valueAt vs w) := by
    intro l1 ra1 h
    by_contra hn
    rw [herr hn] at h
    exact absurd h (by simp)
  refine ⟨⟨?_, ?_⟩, herr, ?_⟩
  · rintro ⟨l1, ra1, h⟩
    exact hchecks l1 ra1 h
  · intro hc
    obtain ⟨l1, ra1, h, -⟩ := hok hc
    exact ⟨l1, ra1, h⟩
  · intro l1 ra1 h
    obtain ⟨l2, ra2, g1, g2, g3⟩ := hok (hchecks l1 ra1 h)
    rw [g1] at h
    simp only [Except.ok.injEq, Prod.mk.injEq] at h
    obtain ⟨e1, e2⟩ := h
    subst e1 e2
    obtain ⟨f1, f2, -, f4⟩ := MergeVariables_ok_fields g1
    exact ⟨by rw [f1, hb], f2, f4, g2, g3⟩

end Label
end CodeStubAssembler

namespace CodeStubAssembler

theorem mergeInto_mergeCount {a a1 : CodeStubAssembler} {label : Nat}
    (h : a.mergeInto label = Except.ok a1) :
    a1.mergeCount label = (a.mergeCount label).map (fun n => n + 1) ∧
      ∀ other, other ≠ label → a1.mergeCount other = a.mergeCount other := by
  unfold mergeInto at h
  split at h
  · exact absurd h (by simp)
  · rename_i l hl
    split at h
    · exact absurd h (by simp)
    · rename_i l1 ra1 hm
      simp only [Except.ok.injEq] at h
      have hc := (Label.MergeVariables_ok_fields hm).2.1
      have hlt : label < a.labels_.length := by
        rcases Nat.lt_or_ge label a.labels_.length with h1 | h1
        · exact h1
        · rw [List.get?_eq_none.mpr h1] at hl
          exact absurd hl (by simp)
      subst h
      constructor
      · simp only [mergeCount, List.get?_eq_getElem?] at *
        rw [List.getElem?_set_self hlt, hl]
        simp [hc]
      · intro other hne
        simp only [mergeCount, List.get?_eq_getElem?]
        rw [List.getElem?_set_ne (Ne.symm hne)]

theorem switchLoop_mergeCount {cases : List Nat} {a a1 : CodeStubAssembler} {default_label : Nat}
    (hnodup : cases.Nodup) (hd : default_label ∉ cases)
    (h : switchLoop default_label cases a = Except.ok a1) :
    a1.mergeCount default_label = (a.mergeCount default_label).map (fun n => n + cases.length) ∧
      (∀ c, c ∈ cases → a1.mergeCount c = (a.mergeCount c).map (fun n => n + 1)) ∧
      (∀ c, c ∉ cases → c ≠ default_label → a1.mergeCount c = a.mergeCount c) := by
  induction cases generalizing a with
  | nil =>
    simp only [switchLoop, Except.ok.injEq] at h
    subst h
    refine ⟨by simp, by simp, by simp⟩
  | cons c rest ih =>
    simp only [switchLoop] at h
    split at h
    · exact absurd h (by simp)
    · rename_i a2 h2
      split at h
      · exact absurd h (by simp)
      · rename_i a3 h3
        have hcd : default_label ≠ c := fun e => hd (by simp [e])
        have hdr : default_label ∉ rest := fun e => hd (by simp [e])
        have hcr : c ∉ rest := (List.nodup_cons.mp hnodup).1
        obtain ⟨i1, i2, i3⟩ := ih (List.nodup_cons.mp hnodup).2 hdr h
        obtain ⟨m1, m2⟩ := mergeInto_mergeCount h2
        obtain ⟨n1, n2⟩ := mergeInto_mergeCount h3
        refine ⟨?_, ?_, ?_⟩
        · rw [i1, n1, m2 _ hcd]
          cases a.mergeCount default_label with
          | none => rfl
          | some n =>
            simp only [Option.map_some', Option.some.injEq, List.length_cons]
            omega
        · intro x hx
          rcases List.mem_cons.mp hx with rfl | hx
          · rw [i3 _ hcr (Ne.symm hcd), n2 _ (Ne.symm hcd), m1]
          · have hxc : x ≠ c := fun e => hcr (e ▸ hx)
            have hxd : x ≠ default_label := fun e => hdr (e ▸ hx)
            rw [i2 _ hx, n2 _ hxd, m2 _ hxc]
        · intro x hx hxd
          have hxc : x ≠ c := fun e => hx (by simp [e])
          have hxr : x ∉ rest := fun e => hx (by simp [e])
          rw [i3 _ hxr hxd, n2 _ hxd, m2 _ hxc]

/-- Claim C7, as the code has it: a completed `Switch` over pairwise distinct case
labels that differ from the default label merges an edge once into each case label
and, inside the same loop, once per case into the default label, so the merged-edge
count of the default label grows by the number of cases, not by 1. -/
theorem Switch_merges_default_once_per_case (a a1 : CodeStubAssembler) (index : NodePtr)
    (default_label : Nat) (case_values : List Int) (case_labels : List Nat)
    (hnodup : case_labels.Nodup) (hd : default_label ∉ case_labels)
    (h : a.Switch index default_label case_values case_labels case_labels.length = Except.ok a1) :
    a1.mergeCount default_label
        = (a.mergeCount default_label).map (fun n => n + case_labels.length) ∧
      ∀ c, c ∈ case_labels → a1.mergeCount c = (a.mergeCount c).map (fun n => n + 1) := by
  unfold Switch at h
  rw [List.take_length] at h
  exact ⟨(switchLoop_mergeCount hnodup hd h).1, (switchLoop_mergeCount hnodup hd h).2.1⟩

theorem Switch_merges_default_once_per_case_witness :
    (∃ a1, threeLabels.Switch NodePtr.null 0 [10, 20] [1, 2] 2 = Except.ok a1 ∧
      threeLabels.mergeCount 0 = some 0 ∧ a1.mergeCount 0 = some 2 ∧
      a1.mergeCount 1 = some 1 ∧ a1.mergeCount 2 = some 1) ∧
    (∃ a1, threeLabels.Switch NodePtr.null 0 [] [] 0 = Except.ok a1 ∧ a1.mergeCount 0 = some 0) ∧
    (∃ a1, threeLabels.Goto 0 = Except.ok a1 ∧ a1.mergeCount 0 = some 1) ∧
    (∃ a1, threeLabels.Branch NodePtr.null 1 2 = Except.ok a1 ∧
      a1.mergeCount 1 = some 1 ∧ a1.mergeCount 2 = some 1) := by
  refine ⟨⟨_, rfl, rfl, ?_⟩, ⟨_, rfl, ?_⟩, ⟨_, rfl, rfl⟩, ⟨_, rfl, rfl, rfl⟩⟩
  · have h := Switch_merges_default_once_per_case threeLabels _ NodePtr.null 0 [10, 20] [1, 2]
      (by decide) (by decide) rfl
    refine ⟨h.1, h.2 1 (by decide), h.2 2 (by decide)⟩
  · exact (Switch_merges_default_once_per_case threeLabels _ NodePtr.null 0 [] []
      (by decide) (by decide) rfl).1

end CodeStubAssembler

namespace CodeStubAssembler
namespace Label

/-- Claim C1: for a fresh (unbound) label and n >= 2 merge-edge calls on each of which
the variable v is bound, with two different values among them, a completed `Bind`
leaves exactly one entry for v in `variable_phis_`, a phi that did not exist before,
whose inputs are the n per-edge values of v in edge-arrival order, and v is rebound to
that phi; `Bind` makes one phi per entry of `variable_phis_`.  The calls complete
exactly when every other variable that requires a merge is bound on every edge. -/
theorem Bind_synthesizes_phi_in_edge_order (merged : List Nat) (type : LabelType)
    (edges : List (List Variable.Impl)) (atBind : List Variable.Impl)
    (ra : RawMachineAssembler) (v : Nat) (hn : 2 ≤ edges.length) (hv : v < atBind.length)
    (hbound : boundOnEveryEdge edges v) (hdist : twoValues (edgeValues edges v)) :
    (∀ vs1 l1 ra1,
      mergeThenBind edges atBind (new merged type) ra = Except.ok (vs1, l1, ra1) →
      ∃ idx,
        l1.variable_phis_.filter (fun entry => decide (entry.1 = v)) = [(v, NodePtr.phi idx)] ∧
        ra.phiInputs (NodePtr.phi idx) = none ∧
        ra1.phiInputs (NodePtr.phi idx) = some (edgeValues edges v) ∧
        (edgeValues edges v).length = edges.length ∧
        valueAt vs1 v = NodePtr.phi idx ∧
        ra1.phis.length = ra.phis.length + l1.variable_phis_.length) ∧
    ((∃ vs1 l1 ra1, mergeThenBind edges atBind (new merged type) ra = Except.ok (vs1, l1, ra1)) ↔
      ∀ w, w ≠ v → requiresMerge merged edges atBind w → boundOnEveryEdge edges w) := by
  have hne : edges ≠ [] := by
    intro e
    rw [e] at hn
    simp at hn
  have hreq : requiresMerge merged edges atBind v := by
    right
    refine ⟨hv, ?_⟩
    rw [(nonNull_eq_self_iff _).mpr ((boundOnEveryEdge_iff edges v).mp hbound)]
    exact hdist
  constructor
  · intro vs1 l1 ra1 h
    obtain ⟨s1, s2, s3, ⟨ext, s4, s5⟩, s6, s7, s8, s9⟩ := mergeThenBind_new_spec h
    obtain ⟨-, -, idx, p1, p2, p3⟩ := s8 v hreq
    refine ⟨idx, filter_key_of_sorted s3 p1, ?_, ?_, edgeValues_length edges v, ?_, ?_⟩
    · unfold RawMachineAssembler.phiInputs
      simp only
      rw [List.get?_eq_none.mpr p2]
      rfl
    · unfold RawMachineAssembler.phiInputs
      simp only
      rw [p3]
      rfl
    · rw [s9 v, if_pos hv]
      unfold boundValue
      rw [p1]
    · rw [s4, List.length_append, s5]
  · rw [mergeThenBind_new_ok_iff]
    constructor
    · intro h w _ hw
      exact (h w hw).2
    · intro h w hw
      refine ⟨hne, ?_⟩
      by_cases e : w = v
      · rw [e]; exact hbound
      · exact h w e hw

theorem Bind_synthesizes_phi_in_edge_order_witness :
    ∃ vs1 l1 ra1,
      mergeThenBind
          [oneVariable (NodePtr.node 1), oneVariable (NodePtr.node 2), oneVariable (NodePtr.node 1)]
          (oneVariable (NodePtr.node 1)) (new [] LabelType.kNonDeferred) noPhis
        = Except.ok (vs1, l1, ra1) ∧
      ra1.phiInputs (valueAt vs1 0) = some [NodePtr.node 1, NodePtr.node 2, NodePtr.node 1] ∧
      l1.variable_phis_ = [(0, valueAt vs1 0)] := by
  have hthm := Bind_synthesizes_phi_in_edge_order [] LabelType.kNonDeferred
    [oneVariable (NodePtr.node 1), oneVariable (NodePtr.node 2), oneVariable (NodePtr.node 1)]
    (oneVariable (NodePtr.node 1)) noPhis 0 (by decide) (by decide) (by decide) (by decide)
  obtain ⟨vs1, l1, ra1, h⟩ := hthm.2.mpr (by
    intro w hw hr
    rcases hr with h | ⟨h, -⟩
    · exact absurd h (by simp)
    · simp only [oneVariable, List.length_singleton] at h
      omega)
  obtain ⟨idx, h1, h2, h3, h4, h5, h6⟩ := hthm.1 vs1 l1 ra1 h
  refine ⟨vs1, l1, ra1, h, ?_, ?_⟩
  · rw [h5, h3]
    rfl
  · have hrun : mergeThenBind
        [oneVariable (NodePtr.node 1), oneVariable (NodePtr.node 2), oneVariable (NodePtr.node 1)]
        (oneVariable (NodePtr.node 1)) (new [] LabelType.kNonDeferred) noPhis
        = Except.ok ([{ value_ := NodePtr.phi 0, rep_ := 0 }],
            { bound_ := true, merge_count_ := 3, label_ := { deferred_ := false },
              variable_phis_ := [(0, NodePtr.phi 0)],
              variable_merges_ := [(0, [NodePtr.node 1, NodePtr.node 2, NodePtr.node 1])] },
            { phis := [{ rep := 0, inputs := [NodePtr.node 1, NodePtr.node 2, NodePtr.node 1] }] }) := by
      decide
    rw [hrun] at h
    simp only [Except.ok.injEq, Prod.mk.injEq] at h
    obtain ⟨e1, e2, e3⟩ := h
    subst e1 e2 e3
    rfl

/-- Claim C2, as it stands, fails: a variable pre-marked in the constructor of the label
and bound to the same value on both edges gets a phi over the two equal values and
is rebound to that phi; and with no edge merged at all `Bind` leaves the variable
unbound whatever it held. -/
theorem Bind_same_value_premarked_gets_phi :
    (∃ vs1 l1 ra1,
      mergeThenBind [oneVariable (NodePtr.node 1), oneVariable (NodePtr.node 1)]
          (oneVariable (NodePtr.node 1)) (new [0] LabelType.kNonDeferred) noPhis
        = Except.ok (vs1, l1, ra1) ∧
      (∀ e ∈ [oneVariable (NodePtr.node 1), oneVariable (NodePtr.node 1)],
        valueAt e 0 = NodePtr.node 1) ∧
      valueAt vs1 0 = NodePtr.phi 0 ∧ valueAt vs1 0 ≠ NodePtr.node 1 ∧
      mapFind l1.variable_phis_ 0 = some (NodePtr.phi 0) ∧
      ra1.phiInputs (NodePtr.phi 0) = some [NodePtr.node 1, NodePtr.node 1]) ∧
    (∃ vs1 l1 ra1,
      mergeThenBind [] (oneVariable (NodePtr.node 1)) (new [] LabelType.kNonDeferred) noPhis
        = Except.ok (vs1, l1, ra1) ∧
      valueAt vs1 0 = NodePtr.null ∧ valueAt vs1 0 ≠ NodePtr.node 1) := by
  refine ⟨⟨_, _, _, rfl, by decide, rfl, by decide, rfl, rfl⟩, ⟨_, _, _, rfl, rfl, by decide⟩⟩

/-- Claim C2, amended: for a fresh label that was not built with the variable v among
its pre-marked variables and at least one merge-edge call, with v bound to the same
value V on every edge, a completed `Bind` leaves v bound to V, with no entry for v in
`variable_phis_` (no phi for v).  The calls complete exactly when every other
variable that requires a merge is bound on every edge. -/
theorem Bind_keeps_common_value (merged : List Nat) (type : LabelType)
    (edges : List (List Variable.Impl)) (atBind : List Variable.Impl)
    (ra : RawMachineAssembler) (v : Nat) (V : NodePtr) (hne : edges ≠ [])
    (hm : v ∉ merged) (hv : v < atBind.length) (hV : V ≠ NodePtr.null)
    (hsame : ∀ e ∈ edges, valueAt e v = V) :
    (∀ vs1 l1 ra1,
      mergeThenBind edges atBind (new merged type) ra = Except.ok (vs1, l1, ra1) →
      valueAt vs1 v = V ∧ mapFind l1.variable_phis_ v = none ∧
        l1.variable_phis_.filter (fun entry => decide (entry.1 = v)) = [] ∧
        ra1.phis.length = ra.phis.length + l1.variable_phis_.length) ∧
    ((∃ vs1 l1 ra1, mergeThenBind edges atBind (new merged type) ra = Except.ok (vs1, l1, ra1)) ↔
      ∀ w, w ≠ v → requiresMerge merged edges atBind w → boundOnEveryEdge edges w) := by
  have hall : ∀ x ∈ edgeValues edges v, x = V := by
    intro x hx
    unfold edgeValues at hx
    obtain ⟨e, he, rfl⟩ := List.mem_map.mp hx
    exact hsame e he
  have hbound : boundOnEveryEdge edges v := by
    intro e he
    rw [hsame e he]
    exact hV
  have hnn : nonNull (edgeValues edges v) = edgeValues edges v :=
    (nonNull_eq_self_iff _).mpr ((boundOnEveryEdge_iff edges v).mp hbound)
  have hnreq : ¬ requiresMerge merged edges atBind v := by
    rintro (h | ⟨-, a, ha, b, hb, hab⟩)
    · exact hm h
    · rw [hnn] at ha hb
      exact hab ((hall a ha).trans (hall b hb).symm)
  constructor
  · intro vs1 l1 ra1 h
    obtain ⟨s1, s2, s3, ⟨ext, s4, s5⟩, s6, s7, s8, s9⟩ := mergeThenBind_new_spec h
    have hnone := s7 v hnreq
    refine ⟨?_, hnone, filter_key_of_none hnone, by rw [s4, List.length_append, s5]⟩
    rw [s9 v, if_pos hv]
    unfold boundValue
    rw [hnone]
    simp only
    have hlen : (edgeValues edges v).length = edges.length := edgeValues_length edges v
    have hnil : edgeValues edges v ≠ [] := by
      intro e
      rw [e] at hlen
      exact hne (List.length_eq_zero.mp hlen.symm)
    have hg := s6 v
    rw [hnn] at hg
    cases hf : mapFind l1.variable_merges_ v with
    | none =>
      rw [hf] at hg
      exact absurd hg.symm hnil
    | some vec =>
      rw [hf] at hg
      simp only [Option.getD_some] at hg
      simp only
      rw [hg, hlen, s2, if_pos rfl]
      exact getLastD_of_all_eq hnil hall
  · rw [mergeThenBind_new_ok_iff]
    constructor
    · intro h w _ hw
      exact (h w hw).2
    · intro h w hw
      refine ⟨hne, ?_⟩
      by_cases e : w = v
      · rw [e]; exact hbound
      · exact h w e hw

theorem Bind_keeps_common_value_witness :
    ∃ vs1 l1 ra1,
      mergeThenBind
          [oneVariable (NodePtr.node 1), oneVariable (NodePtr.node 1), oneVariable (NodePtr.node 1)]
          (oneVariable NodePtr.null) (new [] LabelType.kNonDeferred) noPhis
        = Except.ok (vs1, l1, ra1) ∧
      valueAt vs1 0 = NodePtr.node 1 ∧ mapFind l1.variable_phis_ 0 = none ∧ ra1 = noPhis := by
  have hthm := Bind_keeps_common_value [] LabelType.kNonDeferred
    [oneVariable (NodePtr.node 1), oneVariable (NodePtr.node 1), oneVariable (NodePtr.node 1)]
    (oneVariable NodePtr.null) noPhis 0 (NodePtr.node 1) (by decide) (by decide) (by decide)
    (by decide) (by decide)
  refine ⟨_, _, _, rfl, ?_⟩
  obtain ⟨h1, h2, -, -⟩ := hthm.1 _ _ _ rfl
  exact ⟨h1, h2, rfl⟩

/-- Claim C3: a variable that had no bound value at any of the merge-edge calls into a
label is unbound after a completed `Bind` of that label (`IsBound` is false),
whatever the registry held for it when `Bind` was called.  The calls complete
exactly when every variable that requires a merge is bound on every edge, of which
there is at least one. -/
theorem Bind_leaves_unmerged_variable_unbound (merged : List Nat) (type : LabelType)
    (edges : List (List Variable.Impl)) (atBind : List Variable.Impl)
    (ra : RawMachineAssembler) (v : Nat) (hnever : ∀ e ∈ edges, valueAt e v = NodePtr.null) :
    (∀ vs1 l1 ra1,
      mergeThenBind edges atBind (new merged type) ra = Except.ok (vs1, l1, ra1) →
      valueAt vs1 v = NodePtr.null ∧
        ∀ impl, vs1.get? v = some impl → Variable.IsBound impl = false) ∧
    ((∃ vs1 l1 ra1, mergeThenBind edges atBind (new merged type) ra = Except.ok (vs1, l1, ra1)) ↔
      ∀ w, requiresMerge merged edges atBind w → edges ≠ [] ∧ boundOnEveryEdge edges w) := by
  refine ⟨?_, mergeThenBind_new_ok_iff merged type edges atBind ra⟩
  intro vs1 l1 ra1 h
  obtain ⟨s1, s2, s3, s4, s6, s7, s8, s9⟩ := mergeThenBind_new_spec h
  have hnil : nonNull (edgeValues edges v) = [] := by
    unfold nonNull
    rw [List.filter_eq_nil_iff]
    intro a ha
    unfold edgeValues at ha
    obtain ⟨e, he, rfl⟩ := List.mem_map.mp ha
    simp [hnever e he]
  have hnreq : ¬ requiresMerge merged edges atBind v := by
    intro hr
    obtain ⟨hne, hb, -⟩ := s8 v hr
    cases edges with
    | nil => exact hne rfl
    | cons e rest =>
      exact hb e (List.mem_cons_self _ _) (hnever e (List.mem_cons_self _ _))
  have hval : valueAt vs1 v = NodePtr.null := by
    rw [s9 v]
    by_cases hv : v < atBind.length
    · rw [if_pos hv]
      unfold boundValue
      rw [s7 v hnreq]
      simp only
      have hg := s6 v
      rw [hnil] at hg
      cases hf : mapFind l1.variable_merges_ v with
      | none => rfl
      | some vec =>
        rw [hf] at hg
        simp only [Option.getD_some] at hg
        simp only [hg, List.getLastD_nil, ite_self]
    · rw [if_neg hv]
  refine ⟨hval, ?_⟩
  intro impl himpl
  unfold valueAt at hval
  rw [himpl] at hval
  simp only at hval
  simp [Variable.IsBound, hval]

theorem Bind_leaves_unmerged_variable_unbound_witness :
    ∃ vs1 l1 ra1,
      mergeThenBind
          [twoVariables (NodePtr.node 1) NodePtr.null, twoVariables (NodePtr.node 2) NodePtr.null]
          (twoVariables (NodePtr.node 2) (NodePtr.node 7)) (new [] LabelType.kNonDeferred) noPhis
        = Except.ok (vs1, l1, ra1) ∧
      valueAt vs1 1 = NodePtr.null ∧ valueAt vs1 0 = NodePtr.phi 0 := by
  have hthm := Bind_leaves_unmerged_variable_unbound [] LabelType.kNonDeferred
    [twoVariables (NodePtr.node 1) NodePtr.null, twoVariables (NodePtr.node 2) NodePtr.null]
    (twoVariables (NodePtr.node 2) (NodePtr.node 7)) noPhis 1 (by decide)
  refine ⟨_, _, _, rfl, ?_⟩
  exact ⟨(hthm.1 _ _ _ rfl).1, rfl⟩

/-- Claim C5: for a label built with the variable v pre-marked for merging, with v bound
when the first edge is merged and unbound when the second edge is merged, the
sequence merge-edge, merge-edge, `Bind` fails with InconsistentMerge and `Bind` is
never completed; when v is in the registry at the second edge the failure is already
that of the second merge-edge call. -/
theorem premarked_unbound_on_second_edge_fails (merged : List Nat) (type : LabelType)
    (first second atBind : List Variable.Impl) (ra : RawMachineAssembler) (v : Nat)
    (hm : v ∈ merged) (_hfirst : valueAt first v ≠ NodePtr.null)
    (hsecond : valueAt second v = NodePtr.null) :
    mergeThenBind [first, second] atBind (new merged type) ra
        = Except.error Error.InconsistentMerge ∧
    (∀ vs1 l1 ra1,
      mergeThenBind [first, second] atBind (new merged type) ra ≠ Except.ok (vs1, l1, ra1)) ∧
    (v < second.length →
      mergeEdges [first, second] (new merged type) ra = Except.error Error.InconsistentMerge) := by
  have herr : mergeThenBind [first, second] atBind (new merged type) ra
      = Except.error Error.InconsistentMerge := by
    apply mergeThenBind_new_error merged type [first, second] atBind ra v (Or.inl hm)
    rintro ⟨-, hb⟩
    exact hb second (by simp) hsecond
  refine ⟨herr, ?_, ?_⟩
  · intro vs1 l1 ra1 h
    rw [herr] at h
    exact absurd h (by simp)
  · intro hlt
    obtain ⟨n1, n2, n3, n4, n5⟩ := new_fields merged type
    simp only [mergeEdges]
    rcases mergeLoop_unbound_cases first 0
        { new merged type with merge_count_ := (new merged type).merge_count_ + 1 } ra n1
      with h | ⟨l2, h, h2, h3, h4, h5, h6⟩
    · have hfst : MergeVariables first (new merged type) ra
          = Except.error Error.InconsistentMerge := h
      rw [hfst]
    · have hfst : MergeVariables first (new merged type) ra = Except.ok (l2, ra) := h
      rw [hfst]
      simp only
      have hsnd : MergeVariables second l2 ra = Except.error Error.InconsistentMerge := by
        unfold MergeVariables
        refine mergeLoop_unbound_error second 0
          { l2 with merge_count_ := l2.merge_count_ + 1 } ra h2 v (Nat.zero_le _) (by omega) ?_
        unfold edgeCheck
        rw [valueFrom_zero, hsecond]
        simp only [if_true]
        rintro (hc | hc)
        · rw [h5] at hc
          exact (n5 v).mpr hm hc
        · omega
      rw [hsnd]

theorem premarked_unbound_on_second_edge_fails_witness :
    mergeThenBind [oneVariable (NodePtr.node 1), oneVariable NodePtr.null]
        (oneVariable NodePtr.null) (new [0] LabelType.kNonDeferred) noPhis
      = Except.error Error.InconsistentMerge :=
  (premarked_unbound_on_second_edge_fails [0] LabelType.kNonDeferred (oneVariable (NodePtr.node 1))
    (oneVariable NodePtr.null) (oneVariable NodePtr.null) noPhis 0 (by decide) (by decide)
    (by decide)).1

end Label
end CodeStubAssembler

namespace CodeStubAssembler
namespace Label

/-- Claim C8: on a bound label that holds a phi for the variable v, with inputs L, a
merge-edge call made while v is bound extends that same phi, whose inputs become L
followed by the current value of v; the phi of every other variable is extended by
the current value of that variable only, a phi of no variable of the label is left
alone, and no phi is made.  The label is one that `Bind` leaves: its phis are nodes
of the graph, different for different variables, and v has a recorded value for every
merged edge.  The call completes exactly when every other registered variable passes
its assertions. -/
theorem MergeVariables_extends_phi (vs : List Variable.Impl) (l : Label)
    (ra : RawMachineAssembler) (v idx : Nat) (L : List NodePtr) (hb : l.bound_ = true)
    (hin : phisInGraph l ra) (hd : phisDistinct l)
    (hphi : mapFind l.variable_phis_ v = some (NodePtr.phi idx))
    (hL : ra.phiInputs (NodePtr.phi idx) = some L) (hrec : recordedOnEveryEdge l v)
    (hx : valueAt vs v ≠ NodePtr.null) :
    (∀ l1 ra1, MergeVariables vs l ra = Except.ok (l1, ra1) →
      mapFind l1.variable_phis_ v = some (NodePtr.phi idx) ∧
      l1.variable_phis_ = l.variable_phis_ ∧ ra1.phis.length = ra.phis.length ∧
      ra1.phiInputs (NodePtr.phi idx) = some (L ++ [valueAt vs v]) ∧
      (∀ w k Lw, w ≠ v → mapFind l.variable_phis_ w = some (NodePtr.phi k) →
        ra.phiInputs (NodePtr.phi k) = some Lw →
        ra1.phiInputs (NodePtr.phi k)
          = some (Lw ++ if w < vs.length then [valueAt vs w] else [])) ∧
      (∀ k, (∀ u, mapFind l.variable_phis_ u ≠ some (NodePtr.phi k)) →
        ra1.phiInputs (NodePtr.phi k) = ra.phiInputs (NodePtr.phi k))) ∧
    ((∃ l1 ra1, MergeVariables vs l ra = Except.ok (l1, ra1)) ↔
      ∀ w, w < vs.length → w ≠ v →
        boundCheck { l with merge_count_ := l.merge_count_ + 1 } w (valueAt vs w)) := by
  obtain ⟨s1, s2, s3⟩ := MergeVariables_bound_spec vs l ra hb hin
  have hvlt : v < vs.length := valueAt_ne_null_lt hx
  have hown : boundCheck { l with merge_count_ := l.merge_count_ + 1 } v (valueAt vs v) := by
    obtain ⟨vec, hvec, hlen⟩ := hrec
    refine ⟨Or.inr ?_, ?_⟩
    · rw [if_neg hx]
      simp only [hvec, Option.getD_some, hlen]
    · intro hnone
      simp only at hnone
      rw [hphi] at hnone
      exact absurd hnone (by simp)
  constructor
  · intro l1 ra1 h
    obtain ⟨t1, t2, t3, t4, t5⟩ := s3 l1 ra1 h
    refine ⟨by rw [t3]; exact hphi, t3, t4, ?_, ?_, ?_⟩
    · rw [t5 idx, hL, appendedInputs_of_distinct l idx v vs 0 hd hphi,
        if_pos ⟨Nat.zero_le _, by omega⟩, valueFrom_zero]
      rfl
    · intro w k Lw _ hw hLw
      rw [t5 k, hLw, appendedInputs_of_distinct l k w vs 0 hd hw, valueFrom_zero]
      simp only [Option.map_some', Nat.zero_le, true_and, Nat.zero_add]
    · intro k hk
      rw [t5 k, appendedInputs_nil_of_absent l.variable_phis_ k vs 0 (fun u _ _ => hk u)]
      cases ra.phiInputs (NodePtr.phi k) <;> simp
  · rw [s1]
    constructor
    · intro h w hw _
      exact h w hw
    · intro h w hw
      by_cases e : w = v
      · rw [e]; exact hown
      · exact h w hw e

theorem MergeVariables_extends_phi_witness :
    (mergeThenBind [oneVariable (NodePtr.node 1), oneVariable (NodePtr.node 2)]
        (oneVariable (NodePtr.node 2)) (new [] LabelType.kNonDeferred) noPhis
      = Except.ok (oneVariable (NodePtr.phi 0), labelWithPhi, graphWithPhi)) ∧
    ∃ l1 ra1, MergeVariables (oneVariable (NodePtr.node 3)) labelWithPhi graphWithPhi
        = Except.ok (l1, ra1) ∧
      ra1.phiInputs (NodePtr.phi 0) = some [NodePtr.node 1, NodePtr.node 2, NodePtr.node 3] := by
  have hin : phisInGraph labelWithPhi graphWithPhi := by
    intro w p hw
    simp only [labelWithPhi, mapFind] at hw
    split at hw
    · simp only [Option.some.injEq] at hw
      exact ⟨0, hw.symm, by decide⟩
    · exact absurd hw (by simp)
  have hd : phisDistinct labelWithPhi := by
    intro u w p huw hu hw
    simp only [labelWithPhi, mapFind] at hu hw
    split at hu
    · split at hw
      · omega
      · exact absurd hw (by simp)
    · exact absurd hu (by simp)
  have hthm := MergeVariables_extends_phi (oneVariable (NodePtr.node 3)) labelWithPhi
    graphWithPhi 0 0 [NodePtr.node 1, NodePtr.node 2] rfl hin hd rfl rfl
    ⟨[NodePtr.node 1, NodePtr.node 2], rfl, rfl⟩ (by decide)
  refine ⟨by decide, ?_⟩
  obtain ⟨l1, ra1, h⟩ := hthm.2.mpr (by
    intro w hw hne
    simp only [oneVariable, List.length_singleton] at hw
    omega)
  exact ⟨l1, ra1, h, (hthm.1 l1 ra1 h).2.2.2.1⟩

/-- Claim C9: on a bound label whose phis are nodes of the graph, for a registered
variable v without phi whose recorded values are all A, a merge-edge call made
while the current value of v differs from A fails with InconsistentMerge; made
while the current value of v is A, the call makes no phi and changes no entry of
`variable_phis_`, and it completes exactly when every other registered variable
passes its assertions. -/
theorem MergeVariables_new_value_after_bind_fails (vs : List Variable.Impl) (l : Label)
    (ra : RawMachineAssembler) (v : Nat) (A : NodePtr) (vec : List NodePtr)
    (hb : l.bound_ = true) (hin : phisInGraph l ra) (hnophi : mapFind l.variable_phis_ v = none)
    (hrec : mapFind l.variable_merges_ v = some vec) (hne : vec ≠ [])
    (hall : ∀ x ∈ vec, x = A) (hv : v < vs.length) :
    (valueAt vs v ≠ A → MergeVariables vs l ra = Except.error Error.InconsistentMerge) ∧
    (valueAt vs v = A →
      ((∃ l1 ra1, MergeVariables vs l ra = Except.ok (l1, ra1)) ↔
        ∀ w, w < vs.length → w ≠ v →
          boundCheck { l with merge_count_ := l.merge_count_ + 1 } w (valueAt vs w)) ∧
      (∀ l1 ra1, MergeVariables vs l ra = Except.ok (l1, ra1) →
        mapFind l1.variable_phis_ v = none ∧ l1.variable_phis_ = l.variable_phis_ ∧
        ra1.phis.length = ra.phis.length)) := by
  obtain ⟨s1, s2, s3⟩ := MergeVariables_bound_spec vs l ra hb hin
  have hmem : A ∈ vec := by
    cases vec with
    | nil => exact absurd rfl hne
    | cons a rest =>
      rw [← hall a (List.mem_cons_self _ _)]
      exact List.mem_cons_self _ _
  have hgetD : ∀ node, (extendWith (mapFind l.variable_merges_ v) (nonNull [node])).getD []
      = vec ++ nonNull [node] := by
    intro node
    rw [hrec]
    unfold extendWith
    by_cases hnil : nonNull [node] = []
    · simp [hnil]
    · simp [hnil]
  constructor
  · intro hB
    apply s2
    intro hc
    have := (hc v hv).2 hnophi
    unfold sameAsRecorded at this
    simp only at this
    rw [hgetD] at this
    exact hB (this A (List.mem_append_left _ hmem))
  · intro hA
    have hown : boundCheck { l with merge_count_ := l.merge_count_ + 1 } v (valueAt vs v) := by
      refine ⟨Or.inl hnophi, ?_⟩
      intro _
      unfold sameAsRecorded
      simp only
      rw [hgetD, hA]
      intro e he
      rcases List.mem_append.mp he with h1 | h1
      · exact (hall e h1).symm
      · unfold nonNull at h1
        have := (List.mem_filter.mp h1).1
        simp only [List.mem_singleton] at this
        exact this.symm
    constructor
    · rw [s1]
      constructor
      · intro h w hw _
        exact h w hw
      · intro h w hw
        by_cases e : w = v
        · rw [e]; exact hown
        · exact h w hw e
    · intro l1 ra1 h
      obtain ⟨t1, t2, t3, t4, t5⟩ := s3 l1 ra1 h
      exact ⟨by rw [t3]; exact hnophi, t3, t4⟩

theorem MergeVariables_new_value_after_bind_fails_witness :
    (mergeThenBind [oneVariable (NodePtr.node 1), oneVariable (NodePtr.node 1)]
        (oneVariable (NodePtr.node 1)) (new [] LabelType.kNonDeferred) noPhis
      = Except.ok (oneVariable (NodePtr.node 1), labelWithoutPhi, noPhis)) ∧
    MergeVariables (oneVariable (NodePtr.node 2)) labelWithoutPhi noPhis
      = Except.error Error.InconsistentMerge ∧
    ∃ l1 ra1, MergeVariables (oneVariable (NodePtr.node 1)) labelWithoutPhi noPhis
      = Except.ok (l1, ra1) ∧ mapFind l1.variable_phis_ 0 = none := by
  have hin : phisInGraph labelWithoutPhi noPhis := by
    intro w p hw
    simp [labelWithoutPhi, mapFind] at hw
  have hthm := fun vs hv => MergeVariables_new_value_after_bind_fails vs labelWithoutPhi noPhis 0
    (NodePtr.node 1) [NodePtr.node 1, NodePtr.node 1] rfl hin rfl rfl (by decide) (by decide) hv
  refine ⟨by decide, (hthm (oneVariable (NodePtr.node 2)) (by decide)).1 (by decide), ?_⟩
  have h2 := (hthm (oneVariable (NodePtr.node 1)) (by decide)).2 (by decide)
  obtain ⟨l1, ra1, h⟩ := h2.1.mpr (by
    intro w hw hne
    simp only [oneVariable, List.length_singleton] at hw
    omega)
  exact ⟨l1, ra1, h, (h2.2 l1 ra1 h).1⟩

end Label
end CodeStubAssembler

namespace CodeStubAssembler

theorem hostInt_of_InHostInt (x : Int) (h : InHostInt x) : hostInt x = x := by
  unfold InHostInt kBitsPerInt at h
  unfold hostInt kBitsPerInt
  norm_num at h ⊢
  omega

end CodeStubAssembler

namespace CodeStubAssembler

/-- The code of `AllocateRawUnaligned` on its slow path. -/
theorem AllocateRawUnaligned_slow (t : Target) (layout : HeapLayout) (rt : RuntimeSemantics)
    (m : Machine) (size_in_bytes : Nat) (flags : AllocationFlags)
    (top_address limit_address : Nat)
    (hcond : IntPtrLessThan t (IntPtrSub t (m.Load limit_address) (m.Load top_address))
      size_in_bytes = true) :
    AllocateRawUnaligned t layout rt m size_in_bytes flags top_address limit_address
      = { result := (m.CallRuntime rt RuntimeFunctionId.kAllocateInTargetSpace
            (IntPtrConstant t 0)
            [SmiTag t size_in_bytes, SmiTag t (Int32Constant
              ((AllocateDoubleAlignFlag.encode false |||
                AllocateTargetSpace.encode (targetSpace flags) : Nat) : Int))]).1
          phi_input := 0
          machine := (m.CallRuntime rt RuntimeFunctionId.kAllocateInTargetSpace
            (IntPtrConstant t 0)
            [SmiTag t size_in_bytes, SmiTag t (Int32Constant
              ((AllocateDoubleAlignFlag.encode false |||
                AllocateTargetSpace.encode (targetSpace flags) : Nat) : Int))]).2 } := by
  unfold AllocateRawUnaligned targetSpace
  simp only [hcond, if_true]

/-- The code of `AllocateRawUnaligned` on its fast path. -/
theorem AllocateRawUnaligned_fast (t : Target) (layout : HeapLayout) (rt : RuntimeSemantics)
    (m : Machine) (size_in_bytes : Nat) (flags : AllocationFlags)
    (top_address limit_address : Nat)
    (hcond : IntPtrLessThan t (IntPtrSub t (m.Load limit_address) (m.Load top_address))
      size_in_bytes = false) :
    AllocateRawUnaligned t layout rt m size_in_bytes flags top_address limit_address
      = { result := IntPtrAdd t (m.memory top_address)
            (IntPtrConstant t (layout.kHeapObjectTag : Int))
          phi_input := 1
          machine := m.StoreNoWriteBarrier top_address
            (IntPtrAdd t (m.memory top_address) size_in_bytes) } := by
  unfold AllocateRawUnaligned
  simp only [hcond, Bool.false_eq_true, if_false]
  rfl

theorem decode_runtime_flags (space : AllocationSpace) :
    AllocateTargetSpace.decode
        (AllocateDoubleAlignFlag.encode false ||| AllocateTargetSpace.encode space) = space ∧
      AllocateDoubleAlignFlag.decode
        (AllocateDoubleAlignFlag.encode false ||| AllocateTargetSpace.encode space) = false := by
  cases space <;> exact ⟨by decide, by decide⟩

end CodeStubAssembler

namespace CodeStubAssembler

/-- Claim C11: the code of `AllocateRawUnaligned` as a function of the memory, where top
and limit are the words at `top_address` and `limit_address` (two different
addresses).  When the word `limit - top` is not below the size, as signed words, the
result is `top + kHeapObjectTag`, the only store puts `top + size` at `top_address`,
the word at `limit_address` stays, and the runtime is not called.  When it is below the
size, the code stores nothing, calls `Runtime::kAllocateInTargetSpace` once, with
the Smi-tagged size as first argument, and the result is the value of that call, the
first input of the phi. -/
theorem AllocateRawUnaligned_paths (t : Target) (layout : HeapLayout) (rt : RuntimeSemantics)
    (m : Machine) (size_in_bytes : Nat) (flags : AllocationFlags)
    (top_address limit_address : Nat) (hne : top_address ≠ limit_address) :
    (¬ toSigned t (IntPtrSub t (m.memory limit_address) (m.memory top_address))
          < toSigned t size_in_bytes →
      (AllocateRawUnaligned t layout rt m size_in_bytes flags top_address limit_address).result
          = IntPtrAdd t (m.memory top_address) (IntPtrConstant t (layout.kHeapObjectTag : Int)) ∧
      (AllocateRawUnaligned t layout rt m size_in_bytes flags top_address
          limit_address).machine.memory top_address
          = IntPtrAdd t (m.memory top_address) size_in_bytes ∧
      (AllocateRawUnaligned t layout rt m size_in_bytes flags top_address
          limit_address).machine.memory limit_address = m.memory limit_address ∧
      (AllocateRawUnaligned t layout rt m size_in_bytes flags top_address
          limit_address).machine.stores
          = m.stores ++ [(top_address, IntPtrAdd t (m.memory top_address) size_in_bytes)] ∧
      (AllocateRawUnaligned t layout rt m size_in_bytes flags top_address
          limit_address).machine.runtime_calls = m.runtime_calls ∧
      (AllocateRawUnaligned t layout rt m size_in_bytes flags top_address
          limit_address).phi_input = 1) ∧
    (toSigned t (IntPtrSub t (m.memory limit_address) (m.memory top_address))
          < toSigned t size_in_bytes →
      ∃ call : RuntimeCall,
        call.function_id = RuntimeFunctionId.kAllocateInTargetSpace ∧
        call.args.head? = some (SmiTag t size_in_bytes) ∧ call.args.length = 2 ∧
        (AllocateRawUnaligned t layout rt m size_in_bytes flags top_address
            limit_address).machine.runtime_calls = m.runtime_calls ++ [call] ∧
        (AllocateRawUnaligned t layout rt m size_in_bytes flags top_address limit_address).result
            = (rt call m.memory).1 ∧
        (AllocateRawUnaligned t layout rt m size_in_bytes flags top_address
            limit_address).phi_input = 0 ∧
        (AllocateRawUnaligned t layout rt m size_in_bytes flags top_address
            limit_address).machine.stores = m.stores) := by
  constructor
  · intro h
    have hcond : IntPtrLessThan t (IntPtrSub t (m.Load limit_address) (m.Load top_address))
        size_in_bytes = false := by
      unfold IntPtrLessThan Machine.Load
      exact decide_eq_false h
    have heq : AllocateRawUnaligned t layout rt m size_in_bytes flags top_address limit_address
        = { result := IntPtrAdd t (m.memory top_address)
              (IntPtrConstant t (layout.kHeapObjectTag : Int))
            phi_input := 1
            machine := m.StoreNoWriteBarrier top_address
              (IntPtrAdd t (m.memory top_address) size_in_bytes) } := by
      unfold AllocateRawUnaligned
      simp only [hcond, Bool.false_eq_true, if_false]
      rfl
    rw [heq]
    refine ⟨rfl, ?_, ?_, rfl, rfl, rfl⟩
    · show (if top_address = top_address then _ else _) = _
      rw [if_pos rfl]
    · show (if limit_address = top_address then _ else _) = _
      rw [if_neg (Ne.symm hne)]
  · intro h
    have hcond : IntPtrLessThan t (IntPtrSub t (m.Load limit_address) (m.Load top_address))
        size_in_bytes = true := by
      unfold IntPtrLessThan Machine.Load
      exact decide_eq_true h
    refine ⟨{ function_id := RuntimeFunctionId.kAllocateInTargetSpace
              context := IntPtrConstant t 0
              args := [SmiTag t size_in_bytes, SmiTag t (Int32Constant
                ((AllocateDoubleAlignFlag.encode false |||
                  AllocateTargetSpace.encode
                    (if flags &&& kPretenured ≠ 0 then AllocationSpace.OLD_SPACE
                     else AllocationSpace.NEW_SPACE) : Nat) : Int))] }, rfl, rfl, rfl, ?_⟩
    have heq : AllocateRawUnaligned t layout rt m size_in_bytes flags top_address limit_address
        = { result := (m.CallRuntime rt RuntimeFunctionId.kAllocateInTargetSpace
              (IntPtrConstant t 0)
              [SmiTag t size_in_bytes, SmiTag t (Int32Constant
                ((AllocateDoubleAlignFlag.encode false |||
                  AllocateTargetSpace.encode
                    (if flags &&& kPretenured ≠ 0 then AllocationSpace.OLD_SPACE
                     else AllocationSpace.NEW_SPACE) : Nat) : Int))]).1
            phi_input := 0
            machine := (m.CallRuntime rt RuntimeFunctionId.kAllocateInTargetSpace
              (IntPtrConstant t 0)
              [SmiTag t size_in_bytes, SmiTag t (Int32Constant
                ((AllocateDoubleAlignFlag.encode false |||
                  AllocateTargetSpace.encode
                    (if flags &&& kPretenured ≠ 0 then AllocationSpace.OLD_SPACE
                     else AllocationSpace.NEW_SPACE) : Nat) : Int))]).2 } := by
      unfold AllocateRawUnaligned
      simp only [hcond, if_true]
    rw [heq]
    exact ⟨rfl, rfl, rfl, rfl⟩

theorem AllocateRawUnaligned_paths_witness :
    ((AllocateRawUnaligned Target.word32 HeapLayout.word32 exampleRuntime exampleMachine 16 kNone
        100 104).result = 1001 ∧
      (AllocateRawUnaligned Target.word32 HeapLayout.word32 exampleRuntime exampleMachine 16 kNone
        100 104).machine.memory 100 = 1016) ∧
    (AllocateRawUnaligned Target.word32 HeapLayout.word32 exampleRuntime exampleMachine 1001 kNone
        100 104).result = 777 := by
  have hfast := (AllocateRawUnaligned_paths Target.word32 HeapLayout.word32 exampleRuntime
    exampleMachine 16 kNone 100 104 (by decide)).1 (by decide)
  have hslow := (AllocateRawUnaligned_paths Target.word32 HeapLayout.word32 exampleRuntime
    exampleMachine 1001 kNone 100 104 (by decide)).2 (by decide)
  refine ⟨⟨hfast.1.trans (by decide), hfast.2.1.trans (by decide)⟩, ?_⟩
  obtain ⟨call, -, -, -, -, hres, -⟩ := hslow
  rw [hres]
  rfl

/-- Claim C14: `LoadRoot` fails exactly when the root cannot be treated as a constant,
and then with NotImplemented; when it can, the result is an inlined constant, the
`IntPtrConstant` of the bits of the root if the root is a Smi and the `HeapConstant` of
the root object otherwise, and never a load. -/
theorem LoadRoot_constant_or_unimplemented (heap : Heap) (root_index : Nat) :
    ((∃ e, LoadRoot heap root_index = Except.error e) ↔
      heap.RootCanBeTreatedAsConstant root_index = false) ∧
    (∀ e, LoadRoot heap root_index = Except.error e → e = Error.NotImplemented) ∧
    (heap.RootCanBeTreatedAsConstant root_index = true →
      (∀ bits, heap.root_handle root_index = RootObject.smi bits →
        LoadRoot heap root_index = Except.ok (NodeKind.IntPtrConstant bits)) ∧
      (∀ address, heap.root_handle root_index = RootObject.heapObject address →
        LoadRoot heap root_index = Except.ok (NodeKind.HeapConstant address)) ∧
      (∀ node, LoadRoot heap root_index = Except.ok node →
        ∀ base index, node ≠ NodeKind.Load base index)) := by
  unfold LoadRoot
  cases hc : heap.RootCanBeTreatedAsConstant root_index with
  | false =>
    simp only [Bool.false_eq_true, if_false, Except.error.injEq, exists_eq', true_iff,
      false_implies, and_true]
    exact ⟨trivial, fun e h => h.symm⟩
  | true =>
    simp only [if_true, reduceCtorEq, iff_false, not_exists, true_implies]
    cases hr : heap.root_handle root_index with
    | smi bits =>
      refine ⟨fun e h => absurd h (by simp), fun e h => absurd h (by simp), ?_, ?_, ?_⟩
      · intro b hb
        simp only [RootObject.smi.injEq] at hb
        rw [hb]
        rfl
      · intro a ha
        exact absurd ha (by simp)
      · intro node hnode base index
        simp only [SmiConstant, Except.ok.injEq] at hnode
        rw [← hnode]
        simp
    | heapObject address =>
      refine ⟨fun e h => absurd h (by simp), fun e h => absurd h (by simp), ?_, ?_, ?_⟩
      · intro b hb
        exact absurd hb (by simp)
      · intro a ha
        simp only [RootObject.heapObject.injEq] at ha
        rw [ha]
      · intro node hnode base index
        simp only [Except.ok.injEq] at hnode
        rw [← hnode]
        simp

theorem LoadRoot_constant_or_unimplemented_witness :
    LoadRoot exampleHeap 9 = Except.error Error.NotImplemented ∧
    LoadRoot exampleHeap 3 = Except.ok (NodeKind.IntPtrConstant 14) ∧
    LoadRoot exampleHeap 5 = Except.ok (NodeKind.HeapConstant 4097) := by
  have h9 := LoadRoot_constant_or_unimplemented exampleHeap 9
  have h3 := LoadRoot_constant_or_unimplemented exampleHeap 3
  have h5 := LoadRoot_constant_or_unimplemented exampleHeap 5
  refine ⟨?_, (h3.2.2 rfl).1 14 rfl, (h5.2.2 rfl).2.1 4097 rfl⟩
  obtain ⟨e, he⟩ := h9.1.mpr rfl
  rw [he, h9.2.1 e he]

theorem mergeInto_code_generated {a a1 : CodeStubAssembler} {label : Nat}
    (h : a.mergeInto label = Except.ok a1) : a1.code_generated_ = a.code_generated_ := by
  unfold mergeInto at h
  split at h
  · exact absurd h (by simp)
  · split at h
    · exact absurd h (by simp)
    · simp only [Except.ok.injEq] at h
      rw [← h]

theorem switchLoop_code_generated {cases : List Nat} {a a1 : CodeStubAssembler}
    {default_label : Nat} (h : switchLoop default_label cases a = Except.ok a1) :
    a1.code_generated_ = a.code_generated_ := by
  induction cases generalizing a with
  | nil =>
    simp only [switchLoop, Except.ok.injEq] at h
    rw [← h]
  | cons c rest ih =>
    simp only [switchLoop] at h
    split at h
    · exact absurd h (by simp)
    · rename_i a2 h2
      split at h
      · exact absurd h (by simp)
      · rename_i a3 h3
        rw [ih h, mergeInto_code_generated h3, mergeInto_code_generated h2]

/-- Claim C15: on a session that has not generated code, as a new session is,
`GenerateCode` succeeds and marks the session as having generated code; on a marked
session `GenerateCode` fails (DoubleBind, the fatal usage error) and returns no code;
and `Goto`, `Branch`, `Switch` and `Bind` leave the mark alone, so every later
`GenerateCode` of the session fails. -/
theorem GenerateCode_at_most_once (pipeline : RawMachineAssembler → Nat) (a : CodeStubAssembler) :
    new.code_generated_ = false ∧
    (a.code_generated_ = false →
      ∃ a1, GenerateCode pipeline a = Except.ok (pipeline a.raw_assembler_, a1) ∧
        a1.code_generated_ = true ∧
        ∀ later, GenerateCode later a1 = Except.error Error.DoubleBind) ∧
    (a.code_generated_ = true → GenerateCode pipeline a = Except.error Error.DoubleBind) ∧
    (∀ a1 label, a.Goto label = Except.ok a1 → a1.code_generated_ = a.code_generated_) ∧
    (∀ a1 condition true_label false_label,
      a.Branch condition true_label false_label = Except.ok a1 →
      a1.code_generated_ = a.code_generated_) ∧
    (∀ a1 index default_label case_values case_labels case_count,
      a.Switch index default_label case_values case_labels case_count = Except.ok a1 →
      a1.code_generated_ = a.code_generated_) ∧
    (∀ a1 label, a.Bind label = Except.ok a1 → a1.code_generated_ = a.code_generated_) := by
  refine ⟨rfl, ?_, ?_, ?_, ?_, ?_, ?_⟩
  · intro h
    refine ⟨{ a with code_generated_ := true }, ?_, rfl, ?_⟩
    · unfold GenerateCode
      simp [h]
    · intro later
      unfold GenerateCode
      simp
  · intro h
    unfold GenerateCode
    simp [h]
  · intro a1 label h
    exact mergeInto_code_generated h
  · intro a1 condition true_label false_label h
    unfold Branch at h
    split at h
    · exact absurd h (by simp)
    · rename_i a2 h2
      rw [mergeInto_code_generated h, mergeInto_code_generated h2]
  · intro a1 index default_label case_values case_labels case_count h
    exact switchLoop_code_generated h
  · intro a1 label h
    unfold Bind at h
    split at h
    · exact absurd h (by simp)
    · split at h
      · exact absurd h (by simp)
      · simp only [Except.ok.injEq] at h
        rw [← h]

theorem GenerateCode_at_most_once_witness :
    ∃ a1, GenerateCode (fun ra => ra.phis.length) new = Except.ok (0, a1) ∧
      GenerateCode (fun ra => ra.phis.length) a1 = Except.error Error.DoubleBind := by
  obtain ⟨a1, h1, -, h3⟩ :=
    (GenerateCode_at_most_once (fun ra => ra.phis.length) new).2.1 rfl
  exact ⟨a1, h1, h3 _⟩

end CodeStubAssembler

namespace CodeStubAssembler

/-- Claim C12, as the code has it, on a 32-bit word with the double-alignment flag:
the top word at 100 is 1004, misaligned, the limit word at 104 is 2000, and 16 bytes
are asked for, which fit.  The size handed to the unaligned allocation is 20 and the
filler map (the heap constant 4097) is stored at 1004, as claimed; but the unaligned
allocation is handed the words top and limit where it expects their addresses, so it
takes the word stored at 1004, which is 5000, for the top: the address returned is
5000 + 1 + 4 = 5005 and not 1004 + 4 + 1 = 1009. -/
theorem AllocateRawAligned_returns_word_behind_top :
    (AllocateRawAligned Target.word32 HeapLayout.word32 exampleRoots exampleHeap exampleRuntime
        misalignedMachine 16 kDoubleAlignment 100 104).map
      (fun r => (r.2, r.1.result, r.1.machine.stores, r.1.machine.runtime_calls,
        r.1.machine.memory 100, r.1.machine.memory 1004))
      = Except.ok (20, 5005, [(1004, 5020), (1004, 4097), (100, 1024)], [], 1024, 4097) ∧
    misalignedMachine.memory 100 = 1004 ∧ misalignedMachine.memory 104 = 2000 ∧
    WordAnd 1004 (IntPtrConstant Target.word32 (HeapLayout.word32.kDoubleAlignmentMask : Int)) ≠ 0 ∧
    ¬ toSigned Target.word32 (IntPtrSub Target.word32 2000 1004) < toSigned Target.word32 20 ∧
    IntPtrAdd Target.word32 (IntPtrAdd Target.word32 1004 (Target.word32.kPointerSize))
      HeapLayout.word32.kHeapObjectTag = 1009 := by
  refine ⟨by rfl, rfl, rfl, by decide, by decide, by decide⟩

/-- Claim C18, as it stands, fails.  On the unaligned path (a 64-bit host) with the
double-alignment flag set, the flags word handed to the runtime on the slow path is
0, with the double-align bit clear.  On the aligned path (a 32-bit host) with the
flags double-aligned and pretenured, the addresses are those of the old space, 200
and 204, but the slow path of the unaligned allocation underneath hands the runtime
the flags word 0, which names the new space. -/
theorem Allocate_runtime_flags_ignore_alignment :
    ((Allocate Target.word64 HeapLayout.word64 exampleRoots exampleHeap exampleReferences false
        exampleRuntime exampleMachine 4000 kDoubleAlignment).map Allocation.observed
      = Except.ok (777, [],
          [{ function_id := RuntimeFunctionId.kAllocateInTargetSpace, context := 0,
             args := [SmiTag Target.word64 4000, SmiTag Target.word64 (Int32Constant 0)] }]) ∧
      kDoubleAlignment &&& kDoubleAlignment ≠ 0 ∧
      AllocateDoubleAlignFlag.decode 0 = false) ∧
    ((Allocate Target.word32 HeapLayout.word32 exampleRoots exampleHeap exampleReferences true
        exampleRuntime exampleMachine 16 (kDoubleAlignment ||| kPretenured)).map
        Allocation.observed
      = Except.ok (777, [(200, 16)],
          [{ function_id := RuntimeFunctionId.kAllocateInTargetSpace, context := 0,
             args := [SmiTag Target.word32 16, SmiTag Target.word32 (Int32Constant 0)] }]) ∧
      (kDoubleAlignment ||| kPretenured) &&& kPretenured ≠ 0 ∧
      AllocateTargetSpace.decode 0 = AllocationSpace.NEW_SPACE) := by
  refine ⟨⟨by rfl, by decide, by decide⟩, ⟨by rfl, by decide, by decide⟩⟩

/-- Claim C18, amended: an `Allocate(size, flags)` that takes the unaligned path (the
host is not a 32-bit one, or the double-alignment flag is not set) is the unaligned
allocation on the top and limit addresses of the space the flags ask for, the old
space exactly when the pretenured flag is set; on its slow path the one runtime call
gets the Smi of a flags word that encodes that same space, with the double-align bit
clear whatever the flags. -/
theorem Allocate_unaligned_runtime_flags (t : Target) (layout : HeapLayout)
    (roots : RootIndices) (heap : Heap) (refs : ExternalReferences) (host32 : Bool)
    (rt : RuntimeSemantics) (m : Machine) (size_in_bytes : Int) (flags : AllocationFlags)
    (hpath : ¬ (host32 = true ∧ flags &&& kDoubleAlignment ≠ 0)) :
    (targetSpace flags = AllocationSpace.OLD_SPACE ↔ flags &&& kPretenured ≠ 0) ∧
    Allocate t layout roots heap refs host32 rt m size_in_bytes flags
      = Except.ok (AllocateRawUnaligned t layout rt m (IntPtrConstant t size_in_bytes) flags
          (refs.top_address (targetSpace flags)) (refs.limit_address (targetSpace flags))) ∧
    (∀ r, Allocate t layout roots heap refs host32 rt m size_in_bytes flags = Except.ok r →
      r.machine.runtime_calls = m.runtime_calls ∨
      ∃ word, r.machine.runtime_calls = m.runtime_calls ++
          [{ function_id := RuntimeFunctionId.kAllocateInTargetSpace
             context := IntPtrConstant t 0
             args := [SmiTag t (IntPtrConstant t size_in_bytes),
               SmiTag t (Int32Constant (word : Int))] }] ∧
        AllocateTargetSpace.decode word = targetSpace flags ∧
        AllocateDoubleAlignFlag.decode word = false) := by
  have haddr : Allocate.addresses refs flags
      = (refs.top_address (targetSpace flags), refs.limit_address (targetSpace flags)) := by
    unfold Allocate.addresses targetSpace
    by_cases hp : flags &&& kPretenured = 0
    · simp [hp, ExternalReferences.top_address, ExternalReferences.limit_address]
    · simp [hp, ExternalReferences.top_address, ExternalReferences.limit_address]
  have hrun : Allocate t layout roots heap refs host32 rt m size_in_bytes flags
      = Except.ok (AllocateRawUnaligned t layout rt m (IntPtrConstant t size_in_bytes) flags
          (refs.top_address (targetSpace flags)) (refs.limit_address (targetSpace flags))) := by
    unfold Allocate
    simp only [haddr]
    rw [if_neg hpath]
  refine ⟨?_, hrun, ?_⟩
  · unfold targetSpace
    by_cases hp : flags &&& kPretenured ≠ 0
    · simp [hp]
    · simp [hp]
  · intro r hr
    rw [hrun] at hr
    simp only [Except.ok.injEq] at hr
    rw [← hr]
    cases hcond : IntPtrLessThan t (IntPtrSub t
        (m.Load (refs.limit_address (targetSpace flags)))
        (m.Load (refs.top_address (targetSpace flags)))) (IntPtrConstant t size_in_bytes) with
    | true =>
      right
      rw [AllocateRawUnaligned_slow t layout rt m _ flags _ _ hcond]
      exact ⟨_, rfl, (decode_runtime_flags _).1, (decode_runtime_flags _).2⟩
    | false =>
      left
      rw [AllocateRawUnaligned_fast t layout rt m _ flags _ _ hcond]
      rfl

theorem Allocate_unaligned_runtime_flags_witness :
    (Allocate Target.word32 HeapLayout.word32 exampleRoots exampleHeap exampleReferences true
        exampleRuntime exampleMachine 3000 kPretenured).map Allocation.observed
      = Except.ok (777, [],
          [{ function_id := RuntimeFunctionId.kAllocateInTargetSpace, context := 0,
             args := [SmiTag Target.word32 3000, SmiTag Target.word32 (Int32Constant 2)] }]) ∧
    AllocateTargetSpace.decode 2 = AllocationSpace.OLD_SPACE := by
  have hthm := Allocate_unaligned_runtime_flags Target.word32 HeapLayout.word32 exampleRoots
    exampleHeap exampleReferences true exampleRuntime exampleMachine 3000 kPretenured (by decide)
  refine ⟨?_, by decide⟩
  rw [hthm.2.1]
  rfl

end CodeStubAssembler

namespace CodeStubAssembler
namespace Label

/-- Claim C16, as it stands, fails: a fresh label with a pre-declared variable and no
merged edge has merged-edge count 0 and no recorded sequence for the variable, and
`Bind` fails with InconsistentMerge. -/
theorem Bind_premarked_without_edges_fails :
    Bind (oneVariable NodePtr.null) (new [0] LabelType.kNonDeferred) noPhis
      = Except.error Error.InconsistentMerge ∧
    (new [0] LabelType.kNonDeferred).bound_ = false ∧
    (new [0] LabelType.kNonDeferred).merge_count_ = 0 ∧
    mapFind (new [0] LabelType.kNonDeferred).variable_phis_ 0 = some NodePtr.null ∧
    mapFind (new [0] LabelType.kNonDeferred).variable_merges_ 0 = none := by
  decide

/-- Claim C16, amended: `Bind` on an unbound label (whose recorded sequences hold no
null, as merge-edge leaves them) succeeds exactly when every requires-merge
variable, one pre-declared in the constructor or registered with two different
recorded values, has a recorded sequence and that sequence has one value per merged
edge; otherwise `Bind` fails with InconsistentMerge.  A variable with no recorded
sequence does not pass, whatever the merged-edge count. -/
theorem Bind_succeeds_iff_complete (vs : List Variable.Impl) (l : Label)
    (ra : RawMachineAssembler) (hb : l.bound_ = false) (hnn : noNullRecorded l) :
    ((∃ vs1 l1 ra1, Bind vs l ra = Except.ok (vs1, l1, ra1)) ↔
      ∀ w, needsPhi l vs w → recordedOnEveryEdge l w) ∧
    ((¬ ∀ w, needsPhi l vs w → recordedOnEveryEdge l w) →
      Bind vs l ra = Except.error Error.InconsistentMerge) ∧
    (∀ w, mapFind l.variable_merges_ w = none → ¬ recordedOnEveryEdge l w) := by
  have herr : (¬ ∀ w, needsPhi l vs w → recordedOnEveryEdge l w) →
      Bind vs l ra = Except.error Error.InconsistentMerge := by
    intro hn
    push_neg at hn
    obtain ⟨w, hw, hc⟩ := hn
    exact Bind_error_of_incomplete vs l ra hb hnn w hw hc
  refine ⟨⟨?_, Bind_ok_of_complete vs l ra hb hnn⟩, herr, ?_⟩
  · rintro ⟨vs1, l1, ra1, h⟩
    by_contra hn
    rw [herr hn] at h
    exact absurd h (by simp)
  · rintro w hw ⟨vec, hvec, -⟩
    rw [hw] at hvec
    exact absurd hvec (by simp)

theorem Bind_succeeds_iff_complete_witness :
    (∃ vs1 l1 ra1, Bind (oneVariable (NodePtr.node 2)) labelBeforeBind noPhis
      = Except.ok (vs1, l1, ra1)) ∧
    mergeEdges [oneVariable (NodePtr.node 1), oneVariable (NodePtr.node 2)]
        (new [] LabelType.kNonDeferred) noPhis = Except.ok (labelBeforeBind, noPhis) := by
  have hnn : noNullRecorded labelBeforeBind := by
    intro w vec hw
    simp only [labelBeforeBind, mapFind] at hw
    split at hw
    · simp only [Option.some.injEq] at hw
      rw [← hw]
      decide
    · exact absurd hw (by simp)
  have hthm := Bind_succeeds_iff_complete (oneVariable (NodePtr.node 2)) labelBeforeBind noPhis
    rfl hnn
  refine ⟨hthm.1.mpr ?_, by decide⟩
  intro w hw
  have hw0 : w = 0 := by
    rcases hw with h | ⟨h, -⟩
    · exact absurd rfl h
    · simp only [oneVariable, List.length_singleton] at h
      omega
  rw [hw0]
  exact ⟨[NodePtr.node 1, NodePtr.node 2], rfl, rfl⟩

/-- Claim C17, as it stands, fails: the only variable, not pre-declared, holds the
nodes 1 and 2 on the first two edges and is unbound on the third; the third
merge-edge call completes, leaving `variable_phis_` empty, and it is the `Bind` after
it that fails with InconsistentMerge. -/
theorem merge_edge_does_not_mark_variable :
    ∃ l, mergeEdges
        [oneVariable (NodePtr.node 1), oneVariable (NodePtr.node 2), oneVariable NodePtr.null]
        (new [] LabelType.kNonDeferred) noPhis = Except.ok (l, noPhis) ∧
      l.variable_phis_ = [] ∧ l.merge_count_ = 3 ∧
      mapFind l.variable_merges_ 0 = some [NodePtr.node 1, NodePtr.node 2] ∧
      Bind (oneVariable NodePtr.null) l noPhis = Except.error Error.InconsistentMerge := by
  refine ⟨_, rfl, rfl, rfl, rfl, by decide⟩

/-- Claim C17, amended: for a fresh label and a variable v that is not pre-declared,
with two different values recorded for v on the merged edges and v unbound on some
edge, no merge-edge call fails on account of v (the calls complete when every
pre-declared variable is bound on every edge) and none enters v in
`variable_phis_`; v is marked only by `Bind`, and it is `Bind` that fails with
InconsistentMerge. -/
theorem unmarked_variable_fails_at_Bind (merged : List Nat) (type : LabelType)
    (edges : List (List Variable.Impl)) (atBind : List Variable.Impl)
    (ra : RawMachineAssembler) (v : Nat) (hm : v ∉ merged) (hv : v < atBind.length)
    (htwo : twoValues (nonNull (edgeValues edges v))) (hunbound : ¬ boundOnEveryEdge edges v) :
    ((∀ w, w ∈ merged → boundOnEveryEdge edges w) →
      ∃ l, mergeEdges edges (new merged type) ra = Except.ok (l, ra)) ∧
    (∀ l ra1, mergeEdges edges (new merged type) ra = Except.ok (l, ra1) →
      mapFind l.variable_phis_ v = none ∧
      Bind atBind l ra1 = Except.error Error.InconsistentMerge) ∧
    mergeThenBind edges atBind (new merged type) ra = Except.error Error.InconsistentMerge := by
  obtain ⟨n1, n2, n3, n4, n5⟩ := new_fields merged type
  have hreq : requiresMerge merged edges atBind v := Or.inr ⟨hv, htwo⟩
  have herr := mergeThenBind_new_error merged type edges atBind ra v hreq (fun h => hunbound h.2)
  refine ⟨?_, ?_, herr⟩
  · intro hd
    have hok := mergeEdges_unbound_ok edges (new merged type) ra n1
      (by intro w _; rw [n3, n2]; rfl)
      (by intro w hp; exact hd w ((n5 w).mp hp))
    rcases mergeEdges_unbound_cases edges (new merged type) ra n1 with h | ⟨l, h, -⟩
    · exact absurd h hok
    · exact ⟨l, h⟩
  · intro l ra1 h
    have hphis := (mergeEdges_ok_fields h).2.2.2
    constructor
    · rw [hphis]
      by_contra hne
      exact hm ((n5 v).mp hne)
    · unfold mergeThenBind at herr
      rw [h] at herr
      exact herr

theorem unmarked_variable_fails_at_Bind_witness :
    (∃ l, mergeEdges
        [oneVariable (NodePtr.node 1), oneVariable (NodePtr.node 2), oneVariable NodePtr.null]
        (new [] LabelType.kNonDeferred) noPhis = Except.ok (l, noPhis)) ∧
    mergeThenBind
        [oneVariable (NodePtr.node 1), oneVariable (NodePtr.node 2), oneVariable NodePtr.null]
        (oneVariable NodePtr.null) (new [] LabelType.kNonDeferred) noPhis
      = Except.error Error.InconsistentMerge := by
  have hthm := unmarked_variable_fails_at_Bind [] LabelType.kNonDeferred
    [oneVariable (NodePtr.node 1), oneVariable (NodePtr.node 2), oneVariable NodePtr.null]
    (oneVariable NodePtr.null) noPhis 0 (by decide) (by decide) (by decide) (by decide)
  exact ⟨hthm.1 (by intro w hw; exact absurd hw (by simp)), hthm.2.2⟩

end Label
end CodeStubAssembler

namespace CodeStubAssembler
namespace Label

/-- What a completed loop of `MergeVariables` records, on a bound label as on an
unbound one. -/
theorem mergeLoop_ok_merges {vs : List Variable.Impl} {var : Nat} {l l1 : Label}
    {ra ra1 : RawMachineAssembler} (h : mergeLoop var vs l ra = Except.ok (l1, ra1)) :
    ∀ w, mapFind l1.variable_merges_ w
      = extendWith (mapFind l.variable_merges_ w) (nonNull [valueFrom var vs w]) := by
  induction vs generalizing var l ra with
  | nil =>
    simp only [mergeLoop, Except.ok.injEq, Prod.mk.injEq] at h
    intro w
    rw [← h.1]
    simp [valueFrom_nil, nonNull, extendWith]
  | cons impl rest ih =>
    simp only [mergeLoop] at h
    split at h
    · exact absurd h (by simp)
    · rename_i l2 ra2 hstep
      have h2 := mergeVariable_ok_label hstep
      intro w
      rw [ih h w, h2, valueFrom_cons]
      simp only [recordEdge_find]
      by_cases hw : w = var
      · subst hw
        have : valueFrom (w + 1) rest w = NodePtr.null := by
          simp [valueFrom]
        rw [if_pos rfl, if_pos rfl, this]
        have hn : nonNull [NodePtr.null] = [] := by simp [nonNull]
        rw [hn, extendWith_nil]
      · rw [if_neg hw, if_neg hw]

theorem MergeVariables_ok_merges {vs : List Variable.Impl} {l l1 : Label}
    {ra ra1 : RawMachineAssembler} (h : MergeVariables vs l ra = Except.ok (l1, ra1)) :
    ∀ w, mapFind l1.variable_merges_ w
      = extendWith (mapFind l.variable_merges_ w) (nonNull [valueAt vs w]) := by
  intro w
  have := mergeLoop_ok_merges h w
  rw [valueFrom_zero] at this
  exact this

end Label

theorem edgeValues_cons (e : List Variable.Impl) (rest : List (List Variable.Impl)) (w : Nat) :
    edgeValues (e :: rest) w = valueAt e w :: edgeValues rest w := by
  simp [edgeValues]

/-- What a completed sequence of calls records for a variable, and how many edges it
merges. -/
theorem runCalls_ok_merges {calls : List LabelCall} {l0 l : Label}
    {ra0 ra : RawMachineAssembler} (h : runCalls calls l0 ra0 = Except.ok (l, ra)) :
    l.merge_count_ = l0.merge_count_ + (mergedEdges calls).length ∧
    ∀ w, mapFind l.variable_merges_ w
      = extendWith (mapFind l0.variable_merges_ w) (nonNull (edgeValues (mergedEdges calls) w)) := by
  induction calls generalizing l0 ra0 with
  | nil =>
    simp only [runCalls, Except.ok.injEq, Prod.mk.injEq] at h
    rw [← h.1]
    refine ⟨rfl, ?_⟩
    intro w
    simp [mergedEdges, edgeValues, nonNull, extendWith]
  | cons c rest ih =>
    cases c with
    | merge vs =>
      simp only [runCalls] at h
      split at h
      · exact absurd h (by simp)
      · rename_i l1 ra1 hstep
        obtain ⟨i1, i2⟩ := ih h
        obtain ⟨-, f2, -, -⟩ := Label.MergeVariables_ok_fields hstep
        refine ⟨?_, ?_⟩
        · rw [i1, f2]
          simp only [mergedEdges, List.length_cons]
          omega
        · intro w
          rw [i2 w, Label.MergeVariables_ok_merges hstep w, extendWith_extendWith]
          simp only [mergedEdges]
          rw [edgeValues_cons]
          conv_rhs => rw [nonNull_cons]
    | bind vs =>
      simp only [runCalls] at h
      split at h
      · exact absurd h (by simp)
      · rename_i vs1 l1 ra1 hstep
        obtain ⟨i1, i2⟩ := ih h
        obtain ⟨-, -, b3, b4⟩ := Label.Bind_ok_bound hstep
        refine ⟨?_, ?_⟩
        · rw [i1, b3]
          rfl
        · intro w
          rw [i2 w, b4]
          rfl

theorem nonNull_length_le (values : List NodePtr) : (nonNull values).length ≤ values.length := by
  unfold nonNull
  exact List.length_filter_le _ _

/-- Claim C19: after any sequence of completed merge-edge and `Bind` calls on a fresh
label, the merged-edge count is the number of merge-edge calls, and for every
variable the recorded per-edge sequence is the sequence of its non-null values on the
merged edges: it holds no null, it is at most as long as the merged-edge count, and
it is exactly as long when and only when the variable was bound at every merge-edge
call.  A completed merge-edge call changes neither the bound flag of the label nor,
through `Goto`, the registry of the variables and their values. -/
theorem recorded_sequences_invariant (merged : List Nat) (type : LabelType)
    (calls : List LabelCall) (ra0 ra : RawMachineAssembler) (l : Label)
    (h : runCalls calls (Label.new merged type) ra0 = Except.ok (l, ra)) :
    l.merge_count_ = (mergedEdges calls).length ∧
    (∀ w, recordedValues l w = nonNull (edgeValues (mergedEdges calls) w) ∧
      NodePtr.null ∉ recordedValues l w ∧
      (recordedValues l w).length ≤ l.merge_count_ ∧
      ((recordedValues l w).length = l.merge_count_ ↔
        boundOnEveryEdge (mergedEdges calls) w)) ∧
    (∀ vs l1 l2 ra1 ra2, Label.MergeVariables vs l1 ra1 = Except.ok (l2, ra2) →
      l2.bound_ = l1.bound_) ∧
    (∀ (a a1 : CodeStubAssembler) (label : Nat), a.Goto label = Except.ok a1 →
      a1.variables_ = a.variables_) := by
  obtain ⟨i1, i2⟩ := runCalls_ok_merges h
  obtain ⟨-, n2, n3, -, -⟩ := Label.new_fields merged type
  have hcount : l.merge_count_ = (mergedEdges calls).length := by
    rw [i1, n2]
    omega
  have hrec : ∀ w, recordedValues l w = nonNull (edgeValues (mergedEdges calls) w) := by
    intro w
    unfold recordedValues
    rw [i2 w, n3]
    exact getD_extendWith_none _
  refine ⟨hcount, ?_, ?_, ?_⟩
  · intro w
    refine ⟨hrec w, ?_, ?_, ?_⟩
    · rw [hrec w]
      exact null_not_mem_nonNull _
    · rw [hrec w, hcount, ← edgeValues_length (mergedEdges calls) w]
      exact nonNull_length_le _
    · rw [hrec w, hcount, ← edgeValues_length (mergedEdges calls) w, nonNull_length_eq_iff,
        boundOnEveryEdge_iff]
  · intro vs l1 l2 ra1 ra2 hm
    exact (Label.MergeVariables_ok_fields hm).1
  · intro a a1 label hg
    unfold Goto mergeInto at hg
    split at hg
    · exact absurd hg (by simp)
    · split at hg
      · exact absurd hg (by simp)
      · simp only [Except.ok.injEq] at hg
        rw [← hg]

theorem recorded_sequences_invariant_witness :
    (∃ l ra, runCalls exampleCalls (Label.new [] LabelType.kNonDeferred) noPhis
      = Except.ok (l, ra)) ∧
    ∀ l ra, runCalls exampleCalls (Label.new [] LabelType.kNonDeferred) noPhis
        = Except.ok (l, ra) →
      l.merge_count_ = 3 ∧
      recordedValues l 0 = [NodePtr.node 1, NodePtr.node 2, NodePtr.node 4] ∧
      recordedValues l 1 = [NodePtr.node 3, NodePtr.node 3] := by
  refine ⟨⟨_, _, rfl⟩, ?_⟩
  intro l ra h
  have hthm := recorded_sequences_invariant [] LabelType.kNonDeferred exampleCalls noPhis ra l h
  exact ⟨hthm.1, (hthm.2.1 0).1.trans (by decide), (hthm.2.1 1).1.trans (by decide)⟩

end CodeStubAssembler

namespace CodeStubAssembler
namespace Label

/-- The phis that the second pass of `Bind` stores are new nodes of the graph, one
after the other. -/
theorem createPhis_values {variables_ : List Variable.Impl}
    {merges : List (Nat × List NodePtr)} {count : Nat} {phis phis2 : List (Nat × NodePtr)}
    {ra ra2 : RawMachineAssembler}
    (h : createPhis variables_ merges count phis ra = Except.ok (phis2, ra2)) :
    (∀ x ∈ phis2, ∃ idx, x.2 = NodePtr.phi idx ∧ ra.phis.length ≤ idx) ∧
    List.Pairwise (fun a b => a.2 ≠ b.2) phis2 := by
  induction phis generalizing ra phis2 ra2 with
  | nil =>
    simp only [createPhis, Except.ok.injEq, Prod.mk.injEq] at h
    rw [← h.1]
    exact ⟨by simp, List.Pairwise.nil⟩
  | cons hd tl ih =>
    obtain ⟨k, x0⟩ := hd
    unfold createPhis at h
    split at h
    · rename_i vec hvec
      split at h
      · split at h
        · exact absurd h (by simp)
        · rename_i rest1 ra3 hrec
          simp only [Except.ok.injEq, Prod.mk.injEq] at h
          obtain ⟨h1, h2⟩ := h
          subst h1 h2
          obtain ⟨i1, i2⟩ := ih hrec
          have hlen : (ra.Phi (repAt variables_ k) count vec).2.phis.length
              = ra.phis.length + 1 := by
            simp [RawMachineAssembler.Phi]
          refine ⟨?_, List.pairwise_cons.mpr ⟨?_, i2⟩⟩
          · intro x hx
            rcases List.mem_cons.mp hx with e | e
            · rw [e]
              exact ⟨ra.phis.length, rfl, le_refl _⟩
            · obtain ⟨idx, j1, j2⟩ := i1 x e
              exact ⟨idx, j1, by omega⟩
          · intro x hx
            obtain ⟨idx, j1, j2⟩ := i1 x hx
            rw [j1]
            simp only [RawMachineAssembler.Phi, ne_eq, NodePtr.phi.injEq]
            omega
      · exact absurd h (by simp)
    · exact absurd h (by simp)

theorem phisDistinct_of_pairwise {l : Label}
    (h : List.Pairwise (fun a b => a.2 ≠ b.2) l.variable_phis_) : phisDistinct l := by
  intro u w p huw hu hw
  have hmu := mem_of_mapFind hu
  have hmw := mem_of_mapFind hw
  have hsym : Symmetric (fun a b : Nat × NodePtr => a.2 ≠ b.2) := fun a b hab => Ne.symm hab
  have := List.Pairwise.forall hsym h hmu hmw (by
    intro e
    simp only [Prod.mk.injEq] at e
    exact huw e.1)
  exact this rfl

/-- A completed `Bind` gives different variables different phis. -/
theorem Bind_ok_distinct {vs vs1 : List Variable.Impl} {l l1 : Label}
    {ra ra1 : RawMachineAssembler} (h : Bind vs l ra = Except.ok (vs1, l1, ra1)) :
    phisDistinct l1 := by
  unfold Bind at h
  split at h
  · exact absurd h (by simp)
  · split at h
    · exact absurd h (by simp)
    · split at h
      · exact absurd h (by simp)
      · rename_i phis2 ra2 hcp
        simp only [Except.ok.injEq, Prod.mk.injEq] at h
        obtain ⟨-, e2, -⟩ := h
        subst e2
        exact phisDistinct_of_pairwise (createPhis_values hcp).2

/-- A completed `Bind` establishes the invariant of a bound label. -/
theorem Bind_ok_invariant {vs vs1 : List Variable.Impl} {l l1 : Label}
    {ra ra1 : RawMachineAssembler} (hnn : noNullRecorded l)
    (h : Bind vs l ra = Except.ok (vs1, l1, ra1)) : boundInvariant l1 ra1 := by
  obtain ⟨b1, b2, b3, b4, b5, b6, b7, b8, b9⟩ := Bind_ok_spec hnn h
  have hentry : ∀ w p, mapFind l1.variable_phis_ w = some p →
      ∃ vec idx, p = NodePtr.phi idx ∧ mapFind l.variable_merges_ w = some vec ∧
        vec.length = l.merge_count_ ∧
        ra1.phis.get? idx = some { rep := repAt vs w, inputs := vec } := by
    intro w p hp
    by_cases hneed : needsPhi l vs w
    · obtain ⟨vec, idx, c1, c2, c3, c4, c5⟩ := b8 w hneed
      rw [c3] at hp
      simp only [Option.some.injEq] at hp
      exact ⟨vec, idx, hp.symm, c1, c2, c5⟩
    · rw [b7 w hneed] at hp
      exact absurd hp (by simp)
  refine ⟨b2, ?_, Bind_ok_distinct h, ?_⟩
  · intro w p hp
    obtain ⟨vec, idx, e1, -, -, e4⟩ := hentry w p hp
    refine ⟨idx, e1, ?_⟩
    by_contra hlt
    rw [List.get?_eq_none.mpr (by omega)] at e4
    exact absurd e4 (by simp)
  · intro w p hp
    obtain ⟨vec, idx, e1, e2, e3, e4⟩ := hentry w p hp
    refine ⟨vec, by rw [b4]; exact e2, ?_, by rw [b3]; exact e3⟩
    rw [e1]
    unfold RawMachineAssembler.phiInputs
    simp only
    rw [e4]
    rfl

/-- A completed merge-edge call on a bound label keeps the invariant of a bound
label, when every variable with a phi is in the registry. -/
theorem MergeVariables_ok_invariant {vs : List Variable.Impl} {l l1 : Label}
    {ra ra1 : RawMachineAssembler} (hinv : boundInvariant l ra)
    (hreg : ∀ w, mapFind l.variable_phis_ w ≠ none → w < vs.length)
    (h : MergeVariables vs l ra = Except.ok (l1, ra1)) :
    boundInvariant l1 ra1 ∧ l1.variable_phis_ = l.variable_phis_ ∧
      l1.merge_count_ = l.merge_count_ + 1 := by
  obtain ⟨hb, hin, hd, hphi⟩ := hinv
  obtain ⟨s1, s2, s3⟩ := MergeVariables_bound_spec vs l ra hb hin
  obtain ⟨t1, t2, t3, t4, t5⟩ := s3 l1 ra1 h
  have hchecks := s1.mp ⟨l1, ra1, h⟩
  refine ⟨⟨t1, phisInGraph_congr t3 t4 hin, ?_, ?_⟩, t3, t2⟩
  · intro u w p huw hu hw
    rw [t3] at hu hw
    exact hd u w p huw hu hw
  · intro w p hp
    rw [t3] at hp
    obtain ⟨vec, v1, v2, v3⟩ := hphi w p hp
    obtain ⟨k, hk, -⟩ := hin w p hp
    have hwlt : w < vs.length := hreg w (by rw [hp]; simp)
    have hval : valueAt vs w ≠ NodePtr.null := by
      intro hnull
      rcases (hchecks w hwlt).1 with hc | hc
      · simp only at hc
        rw [hp] at hc
        exact absurd hc (by simp)
      · rw [hnull] at hc
        simp only [if_true] at hc
        omega
    refine ⟨vec ++ [valueAt vs w], ?_, ?_, ?_⟩
    · rw [MergeVariables_ok_merges h w, v1]
      simp [extendWith, nonNull, hval]
    · rw [hk] at hp v2 ⊢
      rw [t5 k, v2, appendedInputs_of_distinct l k w vs 0 hd hp,
        if_pos ⟨Nat.zero_le _, by omega⟩, valueFrom_zero]
      rfl
    · rw [List.length_append, v3, t2]
      rfl

/-- A completed sequence of merge-edge calls on a bound label keeps the invariant of
a bound label, when every variable with a phi is in the registry of every call. -/
theorem mergeEdges_ok_invariant {edges : List (List Variable.Impl)} {l l1 : Label}
    {ra ra1 : RawMachineAssembler} (hinv : boundInvariant l ra)
    (hreg : ∀ e ∈ edges, ∀ w, mapFind l.variable_phis_ w ≠ none → w < e.length)
    (h : mergeEdges edges l ra = Except.ok (l1, ra1)) :
    boundInvariant l1 ra1 ∧ l1.variable_phis_ = l.variable_phis_ ∧
      (∀ w, mapFind l1.variable_merges_ w
        = extendWith (mapFind l.variable_merges_ w) (nonNull (edgeValues edges w))) := by
  induction edges generalizing l ra with
  | nil =>
    simp only [mergeEdges, Except.ok.injEq, Prod.mk.injEq] at h
    obtain ⟨e1, e2⟩ := h
    subst e1 e2
    refine ⟨hinv, rfl, ?_⟩
    intro w
    simp [edgeValues, nonNull, extendWith]
  | cons e rest ih =>
    simp only [mergeEdges] at h
    split at h
    · exact absurd h (by simp)
    · rename_i l2 ra2 hstep
      obtain ⟨i1, i2, -⟩ := MergeVariables_ok_invariant hinv
        (hreg e (List.mem_cons_self _ _)) hstep
      obtain ⟨j1, j2, j3⟩ := ih i1
        (by
          intro e1 he1 w hw
          rw [i2] at hw
          exact hreg e1 (List.mem_cons_of_mem _ he1) w hw) h
      refine ⟨j1, by rw [j2, i2], ?_⟩
      intro w
      rw [j3 w, MergeVariables_ok_merges hstep w, extendWith_extendWith, edgeValues_cons]
      conv_rhs => rw [nonNull_cons]

end Label
end CodeStubAssembler

namespace CodeStubAssembler

theorem getD_extendWith (old : Option (List NodePtr)) (more : List NodePtr) :
    (extendWith old more).getD [] = old.getD [] ++ more := by
  unfold extendWith
  by_cases h : more = []
  · simp [h]
  · simp [h]

theorem nonNull_edgeValues_append (edges1 edges2 : List (List Variable.Impl)) (w : Nat) :
    nonNull (edgeValues (edges1 ++ edges2) w)
      = nonNull (edgeValues edges1 w) ++ nonNull (edgeValues edges2 w) := by
  simp [nonNull, edgeValues, List.filter_append]

namespace Label

/-- Claim C20: on a label that was bound by a completed `Bind` after the edges `edges1`
and then received the completed merge-edge calls `edges2` (every variable with a phi
being in the registry of each of them), the variables with a phi are those that
required a merge at `Bind` and `variable_phis_` is what `Bind` left; each of them has
a non-null phi whose inputs are the recorded per-edge sequence of the variable, the
values of the variable on all the merged edges in order, and their number is the
merged-edge count. -/
theorem phi_inputs_follow_recorded_sequence (merged : List Nat) (type : LabelType)
    (edges1 edges2 : List (List Variable.Impl)) (atBind vsB : List Variable.Impl)
    (ra raB ra2 : RawMachineAssembler) (lB l : Label)
    (h1 : mergeThenBind edges1 atBind (new merged type) ra = Except.ok (vsB, lB, raB))
    (h2 : mergeEdges edges2 lB raB = Except.ok (l, ra2))
    (hreg : ∀ e ∈ edges2, ∀ w, mapFind lB.variable_phis_ w ≠ none → w < e.length) :
    l.bound_ = true ∧ l.merge_count_ = edges1.length + edges2.length ∧
    l.variable_phis_ = lB.variable_phis_ ∧
    (∀ w, mapFind l.variable_phis_ w ≠ none ↔ requiresMerge merged edges1 atBind w) ∧
    (∀ w p, mapFind l.variable_phis_ w = some p →
      p ≠ NodePtr.null ∧ ra2.phiInputs p = some (recordedValues l w) ∧
      (recordedValues l w).length = l.merge_count_ ∧
      recordedValues l w = edgeValues (edges1 ++ edges2) w) := by
  obtain ⟨s1, s2, s3, s4, s6, s7, s8, s9⟩ := mergeThenBind_new_spec h1
  have hinvB : boundInvariant lB raB := by
    unfold mergeThenBind at h1
    split at h1
    · exact absurd h1 (by simp)
    · rename_i l0 ra0 hm
      exact Bind_ok_invariant (mergeEdges_new_spec hm).2.2.2.2.1 h1
  obtain ⟨⟨i1, i2, i3, i4⟩, hphis, hmerges⟩ := mergeEdges_ok_invariant hinvB hreg h2
  have hcount : l.merge_count_ = edges1.length + edges2.length := by
    rw [(mergeEdges_ok_fields h2).2.1, s2]
  have hrecorded : ∀ w, recordedValues l w = nonNull (edgeValues (edges1 ++ edges2) w) := by
    intro w
    unfold recordedValues
    rw [hmerges w, getD_extendWith, s6 w, nonNull_edgeValues_append]
  refine ⟨i1, hcount, hphis, ?_, ?_⟩
  · intro w
    rw [hphis]
    constructor
    · intro hne
      by_contra hreq
      exact hne (s7 w hreq)
    · intro hreq
      obtain ⟨-, -, idx, hidx, -⟩ := s8 w hreq
      rw [hidx]
      simp
  · intro w p hp
    obtain ⟨vec, v1, v2, v3⟩ := i4 w p hp
    obtain ⟨k, hk, -⟩ := i2 w p hp
    have hvec : recordedValues l w = vec := by
      unfold recordedValues
      rw [v1]
      rfl
    have hlen : (nonNull (edgeValues (edges1 ++ edges2) w)).length
        = (edgeValues (edges1 ++ edges2) w).length := by
      rw [← hrecorded w, hvec, v3, hcount, edgeValues_length, List.length_append]
    refine ⟨by rw [hk]; simp, by rw [hvec]; exact v2, by rw [hvec]; exact v3, ?_⟩
    rw [hrecorded w]
    exact (nonNull_eq_self_iff _).mpr ((nonNull_length_eq_iff _).mp hlen)

theorem phi_inputs_follow_recorded_sequence_witness :
    (mergeThenBind [oneVariable (NodePtr.node 1), oneVariable (NodePtr.node 2)]
        (oneVariable (NodePtr.node 2)) (new [] LabelType.kNonDeferred) noPhis
      = Except.ok (oneVariable (NodePtr.phi 0), labelWithPhi, graphWithPhi)) ∧
    (∃ l ra2, mergeEdges [oneVariable (NodePtr.node 3)] labelWithPhi graphWithPhi
      = Except.ok (l, ra2)) ∧
    ∀ l ra2, mergeEdges [oneVariable (NodePtr.node 3)] labelWithPhi graphWithPhi
        = Except.ok (l, ra2) →
      l.merge_count_ = 3 ∧
      ra2.phiInputs (NodePtr.phi 0) = some [NodePtr.node 1, NodePtr.node 2, NodePtr.node 3] := by
  have hbind : mergeThenBind [oneVariable (NodePtr.node 1), oneVariable (NodePtr.node 2)]
      (oneVariable (NodePtr.node 2)) (new [] LabelType.kNonDeferred) noPhis
      = Except.ok (oneVariable (NodePtr.phi 0), labelWithPhi, graphWithPhi) := by decide
  refine ⟨hbind, ⟨_, _, rfl⟩, ?_⟩
  intro l ra2 h
  have hthm := phi_inputs_follow_recorded_sequence [] LabelType.kNonDeferred
    [oneVariable (NodePtr.node 1), oneVariable (NodePtr.node 2)] [oneVariable (NodePtr.node 3)]
    (oneVariable (NodePtr.node 2)) (oneVariable (NodePtr.phi 0)) noPhis graphWithPhi ra2
    labelWithPhi l hbind h
    (by
      intro e he w hw
      simp only [List.mem_singleton] at he
      rw [he]
      simp only [labelWithPhi, mapFind] at hw
      by_cases h0 : 0 = w
      · rw [← h0]
        decide
      · rw [if_neg h0] at hw
        exact absurd rfl hw)
  obtain ⟨-, hcount, hphis, -, hall⟩ := hthm
  have hp : mapFind l.variable_phis_ 0 = some (NodePtr.phi 0) := by
    rw [hphis]
    rfl
  obtain ⟨-, hin, -, hvals⟩ := hall 0 (NodePtr.phi 0) hp
  refine ⟨hcount, ?_⟩
  rw [hin, hvals]
  rfl

end Label
end CodeStubAssembler

namespace CodeStubAssembler

theorem mapFind_eq_nil_of_none {β : Type} (m : List (Nat × β))
    (h : ∀ w, mapFind m w = none) : m = [] := by
  cases m with
  | nil => rfl
  | cons head rest =>
    obtain ⟨k, b⟩ := head
    have hk := h k
    simp [mapFind] at hk

theorem getLastD_nonNull_ne_null (values : List NodePtr) (h : nonNull values ≠ []) :
    (nonNull values).getLastD NodePtr.null ≠ NodePtr.null := by
  intro hnull
  cases hv : nonNull values with
  | nil => exact h hv
  | cons a rest =>
    rw [hv, List.getLastD_cons] at hnull
    have hmem : rest.getLastD a ∈ nonNull values := by
      rw [hv]
      exact List.getLastD_mem_cons rest a
    rw [hnull] at hmem
    exact null_not_mem_nonNull values hmem

namespace Label

/-- The value the third pass of `Bind` gives a variable without phi, on a label
whose recorded sequences are those of the edges `edges`, of which there is one at
least: a value exactly when the variable was bound on every edge. -/
theorem boundValue_ne_null_iff {l : Label} {edges : List (List Variable.Impl)} {w : Nat}
    (hne : edges ≠ []) (hcount : l.merge_count_ = edges.length)
    (hrec : (mapFind l.variable_merges_ w).getD [] = nonNull (edgeValues edges w))
    (hphi : mapFind l.variable_phis_ w = none) :
    boundValue l w ≠ NodePtr.null ↔ boundOnEveryEdge edges w := by
  have hlen : 0 < edges.length := List.length_pos.mpr hne
  have hiff : boundOnEveryEdge edges w
      ↔ (nonNull (edgeValues edges w)).length = edges.length := by
    rw [boundOnEveryEdge_iff, ← nonNull_length_eq_iff, edgeValues_length]
  unfold boundValue
  rw [hphi]
  simp only
  cases hf : mapFind l.variable_merges_ w with
  | none =>
    rw [hf] at hrec
    simp only [Option.getD_none] at hrec
    constructor
    · intro h
      exact absurd rfl h
    · intro h
      have := hiff.mp h
      rw [← hrec] at this
      simp only [List.length_nil] at this
      omega
  | some vec =>
    rw [hf] at hrec
    simp only [Option.getD_some] at hrec
    simp only
    rw [hcount, hrec]
    by_cases hl : (nonNull (edgeValues edges w)).length = edges.length
    · rw [if_pos hl]
      constructor
      · intro _
        exact hiff.mpr hl
      · intro _
        apply getLastD_nonNull_ne_null
        intro hnil
        rw [hnil] at hl
        simp only [List.length_nil] at hl
        omega
    · rw [if_neg hl]
      constructor
      · intro h
        exact absurd rfl h
      · intro h
        exact absurd (hiff.mp h) hl

/-- Claim C21: a variable that is not pre-declared and holds one and the same value V
on some of the edges merged into a fresh label and no value on some other (so that
there are two edges at least) does not require a merge; a completed `Bind` makes no
phi for it and leaves it unbound, not bound to V, and makes no phi at all when no
variable requires a merge.  After a completed `Bind` a registered variable without
phi is bound exactly when it had a value on every merged edge.  The calls complete
exactly when every variable that requires a merge is bound on every edge. -/
theorem Bind_unbinds_partially_bound_variable (merged : List Nat) (type : LabelType)
    (edges : List (List Variable.Impl)) (atBind : List Variable.Impl)
    (ra : RawMachineAssembler) (v : Nat) (V : NodePtr)
    (hm : v ∉ merged) (hV : V ≠ NodePtr.null)
    (hsame : ∀ e ∈ edges, valueAt e v = V ∨ valueAt e v = NodePtr.null)
    (hsome : ∃ e ∈ edges, valueAt e v = V)
    (hfewer : ∃ e ∈ edges, valueAt e v = NodePtr.null) :
    2 ≤ edges.length ∧ ¬ requiresMerge merged edges atBind v ∧
    ((∃ vs1 l1 ra1, mergeThenBind edges atBind (new merged type) ra = Except.ok (vs1, l1, ra1)) ↔
      ∀ w, requiresMerge merged edges atBind w → edges ≠ [] ∧ boundOnEveryEdge edges w) ∧
    (∀ vs1 l1 ra1,
      mergeThenBind edges atBind (new merged type) ra = Except.ok (vs1, l1, ra1) →
      mapFind l1.variable_phis_ v = none ∧
      valueAt vs1 v = NodePtr.null ∧ valueAt vs1 v ≠ V ∧
      (∀ impl, vs1.get? v = some impl → Variable.IsBound impl = false) ∧
      ((∀ w, ¬ requiresMerge merged edges atBind w) → ra1.phis = ra.phis) ∧
      ∀ w, w < atBind.length → mapFind l1.variable_phis_ w = none →
        (valueAt vs1 w ≠ NodePtr.null ↔ boundOnEveryEdge edges w)) := by
  obtain ⟨e1, he1, hv1⟩ := hsome
  obtain ⟨e2, he2, hv2⟩ := hfewer
  have hne : edges ≠ [] := List.ne_nil_of_mem he1
  have hdiff : e1 ≠ e2 := by
    intro h
    rw [h, hv2] at hv1
    exact hV hv1.symm
  have htwo : 2 ≤ edges.length := by
    cases edges with
    | nil => exact absurd rfl hne
    | cons a rest =>
      cases rest with
      | nil =>
        simp only [List.mem_singleton] at he1 he2
        exact absurd (he1.trans he2.symm) hdiff
      | cons b rest2 =>
        simp only [List.length_cons]
        omega
  have hall : ∀ a ∈ nonNull (edgeValues edges v), a = V := by
    intro a ha
    unfold nonNull at ha
    obtain ⟨hmem, hnn⟩ := List.mem_filter.mp ha
    unfold edgeValues at hmem
    obtain ⟨e, he, rfl⟩ := List.mem_map.mp hmem
    rcases hsame e he with h | h
    · exact h
    · simp [h] at hnn
  have hnreq : ¬ requiresMerge merged edges atBind v := by
    rintro (h | ⟨-, a, ha, b, hb, hab⟩)
    · exact hm h
    · exact hab ((hall a ha).trans (hall b hb).symm)
  have hnotall : ¬ boundOnEveryEdge edges v := fun h => h e2 he2 hv2
  refine ⟨htwo, hnreq, mergeThenBind_new_ok_iff merged type edges atBind ra, ?_⟩
  intro vs1 l1 ra1 h
  obtain ⟨s1, s2, s3, s4, s6, s7, s8, s9⟩ := mergeThenBind_new_spec h
  have hphi : mapFind l1.variable_phis_ v = none := s7 v hnreq
  have hval : valueAt vs1 v = NodePtr.null := by
    rw [s9 v]
    by_cases hv : v < atBind.length
    · rw [if_pos hv]
      by_contra hc
      exact hnotall ((boundValue_ne_null_iff hne s2 (s6 v) hphi).mp hc)
    · rw [if_neg hv]
  refine ⟨hphi, hval, by rw [hval]; exact hV.symm, ?_, ?_, ?_⟩
  · intro impl himpl
    unfold valueAt at hval
    rw [himpl] at hval
    simp only at hval
    simp [Variable.IsBound, hval]
  · intro hnone
    obtain ⟨ext, hext, hlen⟩ := s4
    have hnil : l1.variable_phis_ = [] :=
      mapFind_eq_nil_of_none _ (fun w => s7 w (hnone w))
    rw [hnil, List.length_nil] at hlen
    rw [hext, List.length_eq_zero.mp hlen, List.append_nil]
  · intro w hw hp
    rw [s9 w, if_pos hw]
    exact boundValue_ne_null_iff hne s2 (s6 w) hp

theorem Bind_unbinds_partially_bound_variable_witness :
    mergeThenBind
        [twoVariables (NodePtr.node 1) (NodePtr.node 5),
         twoVariables NodePtr.null (NodePtr.node 5),
         twoVariables (NodePtr.node 1) (NodePtr.node 5)]
        (twoVariables (NodePtr.node 1) (NodePtr.node 5)) (new [] LabelType.kNonDeferred) noPhis
      = Except.ok (twoVariables NodePtr.null (NodePtr.node 5),
          { bound_ := true, merge_count_ := 3,
            variable_phis_ := [],
            variable_merges_ := [(0, [NodePtr.node 1, NodePtr.node 1]),
              (1, [NodePtr.node 5, NodePtr.node 5, NodePtr.node 5])],
            label_ := { deferred_ := false } },
          noPhis) ∧
    ∀ vs1 l1 ra1,
      mergeThenBind
          [twoVariables (NodePtr.node 1) (NodePtr.node 5),
           twoVariables NodePtr.null (NodePtr.node 5),
           twoVariables (NodePtr.node 1) (NodePtr.node 5)]
          (twoVariables (NodePtr.node 1) (NodePtr.node 5)) (new [] LabelType.kNonDeferred) noPhis
        = Except.ok (vs1, l1, ra1) →
      valueAt vs1 0 = NodePtr.null ∧ valueAt vs1 1 ≠ NodePtr.null := by
  have hthm := Bind_unbinds_partially_bound_variable [] LabelType.kNonDeferred
    [twoVariables (NodePtr.node 1) (NodePtr.node 5),
     twoVariables NodePtr.null (NodePtr.node 5),
     twoVariables (NodePtr.node 1) (NodePtr.node 5)]
    (twoVariables (NodePtr.node 1) (NodePtr.node 5)) noPhis 0 (NodePtr.node 1)
    (by decide) (by decide) (by decide) (by decide) (by decide)
  refine ⟨by decide, ?_⟩
  intro vs1 l1 ra1 h
  obtain ⟨hphi, hval, -, -, hnone, hiff⟩ := hthm.2.2.2 vs1 l1 ra1 h
  refine ⟨hval, ?_⟩
  have hno : ∀ w, ¬ requiresMerge [] [twoVariables (NodePtr.node 1) (NodePtr.node 5),
      twoVariables NodePtr.null (NodePtr.node 5),
      twoVariables (NodePtr.node 1) (NodePtr.node 5)]
      (twoVariables (NodePtr.node 1) (NodePtr.node 5)) w := by
    rintro w (hw | ⟨hw, htwo⟩)
    · exact absurd hw (by simp)
    · simp only [twoVariables, List.length_cons, List.length_nil] at hw
      have hcases : w = 0 ∨ w = 1 := by omega
      rcases hcases with rfl | rfl
      · exact absurd htwo (by decide)
      · exact absurd htwo (by decide)
  have hp1 : mapFind l1.variable_phis_ 1 = none := (mergeThenBind_new_spec h).2.2.2.2.2.1 1 (hno 1)
  exact (hiff 1 (by decide) hp1).mpr (by decide)

end Label
end CodeStubAssembler

namespace CodeStubAssembler

theorem toSigned_SmiTag (t : Target)
    (hshift : t.kSmiShiftSize + t.kSmiTagSize < t.wordBits) (x : Int) (hx : InSmiRange t x) :
    toSigned t (SmiTag t (IntPtrConstant t x)) = x * 2 ^ (t.kSmiShiftSize + t.kSmiTagSize) := by
  obtain ⟨hlo, hhi⟩ := hx
  have hsplit : (2 : Int) ^ (t.wordBits - 1)
      = 2 ^ (t.wordBits - 1 - (t.kSmiShiftSize + t.kSmiTagSize))
        * 2 ^ (t.kSmiShiftSize + t.kSmiTagSize) := by
    rw [← pow_add]
    congr 1
    omega
  have hS : (0 : Int) < 2 ^ (t.kSmiShiftSize + t.kSmiTagSize) := by positivity
  have hylo : -(2 ^ (t.wordBits - 1) : Int) ≤ x * 2 ^ (t.kSmiShiftSize + t.kSmiTagSize) := by
    rw [hsplit]; nlinarith
  have hyhi : x * 2 ^ (t.kSmiShiftSize + t.kSmiTagSize) < (2 ^ (t.wordBits - 1) : Int) := by
    rw [hsplit]; nlinarith
  rw [SmiTag_IntPtrConstant t hshift, toSigned_IntPtrConstant t _ hylo hyhi]

theorem toSigned_injective (t : Target) (a b : Nat) (ha : a < 2 ^ t.wordBits)
    (hb : b < 2 ^ t.wordBits) (h : toSigned t a = toSigned t b) : a = b := by
  have hW : 1 ≤ t.wordBits := t.one_le_wordBits
  have hM : (2 : Nat) ^ t.wordBits = 2 * 2 ^ (t.wordBits - 1) := by
    conv_lhs => rw [show t.wordBits = (t.wordBits - 1) + 1 by omega]
    rw [pow_succ]; ring
  have hMi : ((2 : Int) ^ t.wordBits) = ((2 ^ t.wordBits : Nat) : Int) := by norm_cast
  unfold toSigned at h
  rw [hMi] at h
  generalize (2 : Nat) ^ (t.wordBits - 1) = H at *
  generalize (2 : Nat) ^ t.wordBits = M at *
  split at h <;> split at h <;> omega

theorem SmiTag_lt_word (t : Target) (value : Nat) : SmiTag t value < 2 ^ t.wordBits := by
  unfold SmiTag WordShl
  exact Nat.mod_lt _ (by positivity)

theorem WordIsSmi_SmiTag (t : Target)
    (hshift : t.kSmiShiftSize + t.kSmiTagSize < t.wordBits) (value : Nat) :
    WordIsSmi t (SmiTag t value) = true := by
  have hmask : IntPtrConstant t (t.kSmiTagMask : Int) = 2 ^ t.kSmiTagSize - 1 := by
    unfold IntPtrConstant Target.kSmiTagMask
    have hlt : 2 ^ t.kSmiTagSize - 1 < 2 ^ t.wordBits := by
      have h1 : 2 ^ t.kSmiTagSize ≤ 2 ^ t.wordBits :=
        Nat.pow_le_pow_right (by decide) (by omega)
      have h2 : 0 < 2 ^ t.kSmiTagSize := by positivity
      omega
    have hMi : ((2 : Int) ^ t.wordBits) = ((2 ^ t.wordBits : Nat) : Int) := by norm_cast
    rw [hMi, ← Int.natCast_mod, Int.toNat_ofNat, Nat.mod_eq_of_lt hlt]
  have hzero : IntPtrConstant t 0 = 0 := by
    unfold IntPtrConstant
    simp
  unfold WordIsSmi WordEqual WordAnd
  rw [hmask, hzero, Nat.and_pow_two_sub_one_eq_mod]
  unfold SmiTag WordShl
  rw [SmiShiftBitsConstant_eq t hshift]
  have hdvdW : 2 ^ t.kSmiTagSize ∣ 2 ^ t.wordBits := pow_dvd_pow 2 (by omega)
  have hdvdS : 2 ^ t.kSmiTagSize ∣ 2 ^ (t.kSmiShiftSize + t.kSmiTagSize) :=
    pow_dvd_pow 2 (by omega)
  rw [Nat.mod_mod_of_dvd _ hdvdW]
  simp only [decide_eq_true_eq]
  exact Nat.mod_eq_zero_of_dvd (Dvd.dvd.mul_left hdvdS _)

/-- Claim C22: for integers x and y of the Smi range of a target whose Smi shift is
below the word width, the comparisons of `SmiLessThan`, `SmiLessThanOrEqual` and
`SmiEqual` on the tagged words of x and y hold exactly when x < y, x ≤ y and x = y,
and `WordIsSmi` of the tagged word of x is true. -/
theorem SmiTag_order_embedding (t : Target)
    (hshift : t.kSmiShiftSize + t.kSmiTagSize < t.wordBits) (x y : Int)
    (hx : InSmiRange t x) (hy : InSmiRange t y) :
    (SmiLessThan t (SmiTag t (IntPtrConstant t x)) (SmiTag t (IntPtrConstant t y)) = true
      ↔ x < y) ∧
    (SmiLessThanOrEqual t (SmiTag t (IntPtrConstant t x)) (SmiTag t (IntPtrConstant t y)) = true
      ↔ x ≤ y) ∧
    (SmiEqual (SmiTag t (IntPtrConstant t x)) (SmiTag t (IntPtrConstant t y)) = true
      ↔ x = y) ∧
    WordIsSmi t (SmiTag t (IntPtrConstant t x)) = true := by
  have hS : (0 : Int) < 2 ^ (t.kSmiShiftSize + t.kSmiTagSize) := by positivity
  have hsx := toSigned_SmiTag t hshift x hx
  have hsy := toSigned_SmiTag t hshift y hy
  refine ⟨?_, ?_, ?_, WordIsSmi_SmiTag t hshift _⟩
  · unfold SmiLessThan IntPtrLessThan
    rw [hsx, hsy, decide_eq_true_eq]
    exact mul_lt_mul_right hS
  · unfold SmiLessThanOrEqual IntPtrLessThanOrEqual
    rw [hsx, hsy, decide_eq_true_eq]
    exact mul_le_mul_right hS
  · unfold SmiEqual WordEqual
    rw [decide_eq_true_eq]
    constructor
    · intro h
      have h2 : x * 2 ^ (t.kSmiShiftSize + t.kSmiTagSize)
          = y * 2 ^ (t.kSmiShiftSize + t.kSmiTagSize) := by
        rw [← hsx, ← hsy, h]
      exact mul_right_cancel₀ (ne_of_gt hS) h2
    · intro h
      rw [h]

theorem SmiTag_order_embedding_witness :
    (SmiLessThan Target.word32 (SmiTag Target.word32 (IntPtrConstant Target.word32 (-1073741824)))
        (SmiTag Target.word32 (IntPtrConstant Target.word32 1073741823)) = true ∧
      SmiLessThan Target.word32 (SmiTag Target.word32 (IntPtrConstant Target.word32 1073741823))
        (SmiTag Target.word32 (IntPtrConstant Target.word32 (-1073741824))) = false ∧
      WordIsSmi Target.word32 (SmiTag Target.word32 (IntPtrConstant Target.word32 (-1073741824)))
        = true) ∧
    (SmiLessThanOrEqual Target.word64 (SmiTag Target.word64 (IntPtrConstant Target.word64 (-5)))
        (SmiTag Target.word64 (IntPtrConstant Target.word64 2147483647)) = true ∧
      SmiEqual (SmiTag Target.word64 (IntPtrConstant Target.word64 (-5)))
        (SmiTag Target.word64 (IntPtrConstant Target.word64 2147483647)) = false) := by
  have h32 := SmiTag_order_embedding Target.word32 (by decide) (-1073741824) 1073741823
    (by unfold InSmiRange; decide) (by unfold InSmiRange; decide)
  have h32r := SmiTag_order_embedding Target.word32 (by decide) 1073741823 (-1073741824)
    (by unfold InSmiRange; decide) (by unfold InSmiRange; decide)
  have h64 := SmiTag_order_embedding Target.word64 (by decide) (-5) 2147483647
    (by unfold InSmiRange; decide) (by unfold InSmiRange; decide)
  refine ⟨⟨h32.1.mpr (by decide), ?_, h32.2.2.2⟩, ⟨h64.2.1.mpr (by decide), ?_⟩⟩
  · cases hc : SmiLessThan Target.word32
        (SmiTag Target.word32 (IntPtrConstant Target.word32 1073741823))
        (SmiTag Target.word32 (IntPtrConstant Target.word32 (-1073741824))) with
    | false => rfl
    | true => exact absurd (h32r.1.mp hc) (by decide)
  · cases hc : SmiEqual (SmiTag Target.word64 (IntPtrConstant Target.word64 (-5)))
        (SmiTag Target.word64 (IntPtrConstant Target.word64 2147483647)) with
    | false => rfl
    | true => exact absurd (h64.2.2.1.mp hc) (by decide)

end CodeStubAssembler

